import Mathlib

/-!
# czlib: `zlib_generate.go`

A shallow embedding of the amalgamation generator `zlib_generate.go`: the
include resolver `resolve` / `resolveFn` and the per-file preprocessing loop of
`libzlib`, together with models of the Go standard-library functions they call
(`regexp.ReplaceAllFunc`, `regexp.FindSubmatch`, `path.Join`, `path.Dir`,
`path.Match`, `bytes.ReplaceAll`, `strings.HasSuffix`, `strings.TrimSuffix`,
`strings.ToUpper`, `strconv.Quote` as used by `%#v`).

* Text is a list of characters: a Go `string` or `[]byte` that holds UTF-8 text
  is the list of its runes.  Every delimiter the program inspects is ASCII, so
  for ASCII text the list is the byte sequence itself.  Byte sequences that are
  not valid UTF-8 are outside the model.
* Function `path.Match` works on bytes: after a `*` it tries the rest of the
  pattern at every byte of the name, and `?` or a bracket expression then reads
  a rune where the name may hold the middle of an encoding.  `Match` therefore
  runs on the UTF-8 bytes of its two arguments (`toBytes`), with
  `utf8.DecodeRuneInString` modelled in full.
* The recursion of `resolveFn` is bounded by a depth `fuel`; a call that needs
  more depth than it is given comes to `Outcome.diverge`, and a call that comes
  to a result comes to the same result at every greater depth
  (`resolveFn_add`).
* The Unicode tables behind `strings.ToUpper` and `strconv.IsPrint` are
  parameters named `table`; below U+0080, respectively U+0100, the functions
  are modelled in full.
* The progress output of `fmt.Printf` is not modelled.
* What holds "at every call" is stated over the list of events of a run
  (`resolveTrace`): `resolveFnT` is `resolveFn` with a record of every call and
  of every directive handed to the callback, and comes to the same result
  (`resolveFnT_fst`, `resolveLoopT_fst`).
* The slices `done` and `includePath` are lists: `append(done, ifn)` may write
  into the backing array of the caller's slice, but only beyond the caller's
  length, and after every earlier callee that shared the array has returned.
-/

namespace Czlib

/-- A Go `string` or `[]byte`. -/
abbrev Str := List Char

/-- The file set `map[string][]byte` as an association list; the first entry
for a key is the one `files[key]` sees. -/
abbrev Files := List (Str × Str)

/-- The map lookup `files[k]` with its `ok` flag. -/
def lookup : Files → Str → Option Str
  | [], _ => none
  | (k, v) :: rest, key => if k = key then some v else lookup rest key

/-- The keys of the file set. -/
def keys (files : Files) : List Str := files.map Prod.fst

/-! ## Regular expressions -/

/-- The class `\s` of Go's `regexp`: `[\t\n\f\r ]`. -/
def reSpace (c : Char) : Bool :=
  c = '\t' || c = '\n' || c = Char.ofNat 12 || c = '\r' || c = ' '

/-- The class `["'<]`. -/
def reOpen (c : Char) : Bool :=
  c = '"' || c = Char.ofNat 39 || c = '<'

/-- The class `["'>]`. -/
def reClose (c : Char) : Bool :=
  c = '"' || c = Char.ofNat 39 || c = '>'

/-- The class `[^"'>]`; it contains the newline. -/
def reName (c : Char) : Bool := !reClose c

/-- The literal `include`. -/
def includeLit : Str := "include".toList

/-- Removes the literal `lit` from the front of `s`. -/
def stripLit : Str → Str → Option Str
  | [], s => some s
  | _ :: _, [] => none
  | a :: lit, b :: s => if a = b then stripLit lit s else none

/-- The assertion `$` under `(?m)`: end of text or just before a newline. -/
def atLineEnd : Str → Bool
  | [] => true
  | c :: _ => c = '\n'

/-- The pattern `\s*#\s*include\s+["'<][^"'>]+["'>]$` tried at the head of `s`
(the caller checks `^`).  Every repetition is greedy and is followed by an atom
outside the repeated class, so at most one way of matching exists: each
repetition takes the longest run.  Returns the length of the match. -/
def matchDirective (s : Str) : Option Nat :=
  let ws1 := s.takeWhile reSpace
  match s.dropWhile reSpace with
  | [] => none
  | h :: s2 =>
    if h ≠ '#' then none else
    let ws2 := s2.takeWhile reSpace
    match stripLit includeLit (s2.dropWhile reSpace) with
    | none => none
    | some s4 =>
      let ws3 := s4.takeWhile reSpace
      if ws3 = [] then none else
      match s4.dropWhile reSpace with
      | [] => none
      | o :: s6 =>
        if !reOpen o then none else
        let name := s6.takeWhile reName
        if name = [] then none else
        match s6.dropWhile reName with
        | [] => none
        | _ :: s8 =>
          if atLineEnd s8 then
            some (ws1.length + 1 + ws2.length + includeLit.length + ws3.length + 1
                    + name.length + 1)
          else none

/-- A piece of a scanned buffer: a character outside every match, or the text
of one match. -/
inductive Seg where
  | text (c : Char)
  | hit (m : Str)
deriving DecidableEq, Repr

/-- The successive non-overlapping leftmost matches of
`(?m)^\s*#\s*include\s+["'<][^"'>]+["'>]$` in a buffer, with the characters
between them.  `skip` counts the characters still covered by the last match,
`bol` tells whether the position is at the beginning of a line (`^`). -/
def segments : Nat → Bool → Str → List Seg
  | _, _, [] => []
  | skip + 1, _, _ :: t => segments skip false t
  | 0, bol, c :: t =>
    match (if bol then matchDirective (c :: t) else none) with
    | some n => Seg.hit ((c :: t).take n) :: segments (n - 1) false t
    | none => Seg.text c :: segments 0 (c = '\n') t

/-- The first submatch of the leftmost match of `["'<]([^"'>]+)["'>]`:
`regexp.FindSubmatch(importBuf)[1]`; `none` when there is no match (the Go
expression then indexes a nil slice). -/
def findSubmatch : Str → Option Str
  | [] => none
  | c :: t =>
    if reOpen c then
      match t.takeWhile reName, t.dropWhile reName with
      | _ :: _, _ :: _ => some (t.takeWhile reName)
      | _, _ => findSubmatch t
    else findSubmatch t

/-! ## Package `path` -/

/-- Splits a path at every slash. -/
def splitSlash : Str → List Str
  | [] => [[]]
  | c :: t =>
    if c = '/' then [] :: splitSlash t
    else
      match splitSlash t with
      | [] => [[c]]
      | x :: xs => (c :: x) :: xs

/-- One step of `path.Clean` over the elements of a path: `ups` counts the
leading `..` elements kept, `stack` holds the ordinary elements kept so far
in reverse order. -/
def cleanStep (rooted : Bool) (st : Nat × List Str) (e : Str) : Nat × List Str :=
  if e = [] ∨ e = ['.'] then st
  else if e = ['.', '.'] then
    match st.2 with
    | _ :: rest => (st.1, rest)
    | [] => if rooted then st else (st.1 + 1, [])
  else (st.1, e :: st.2)

/-- Joins path elements with single slashes. -/
def joinSlash : List Str → Str
  | [] => []
  | [x] => x
  | x :: y :: rest => x ++ '/' :: joinSlash (y :: rest)

/-- Function `path.Clean`: multiple slashes become one, `.` elements are
dropped, an inner `..` removes the element before it, `..` at the start of a
rooted path is dropped, and the empty result is `.`. -/
def Clean (p : Str) : Str :=
  if p = [] then ['.'] else
  let rooted : Bool := p.head? = some '/'
  let st := (splitSlash p).foldl (cleanStep rooted) (0, [])
  let body := joinSlash (List.replicate st.1 ['.', '.'] ++ st.2.reverse)
  if rooted then '/' :: body
  else if body = [] then ['.'] else body

/-- Function `path.Join` for two elements: empty elements are ignored, the
others are joined by a slash and the result is cleaned. -/
def Join (a b : Str) : Str :=
  if a = [] ∧ b = [] then []
  else if a = [] then Clean b
  else if b = [] then Clean a
  else Clean (a ++ '/' :: b)

/-- The part of a path up to and including its last slash (`path.Split`). -/
def splitDir : Str → Str
  | [] => []
  | c :: t =>
    if t.contains '/' then c :: splitDir t
    else if c = '/' then ['/'] else []

/-- Function `path.Dir`. -/
def Dir (p : Str) : Str := Clean (splitDir p)

/-! ## Function `path.Match` -/

/-- The backslash. -/
def bslash : Char := Char.ofNat 92

/-- The bytes of a Go string, each a number below 256.  Function `path.Match`
indexes and slices its arguments by bytes, and reads a rune only where the
pattern has `?` or a bracket expression. -/
abbrev Bytes := List Nat

/-- The UTF-8 encoding of one rune. -/
def encodeRune (c : Char) : Bytes :=
  if c.toNat < 128 then [c.toNat]
  else if c.toNat < 2048 then [192 + c.toNat / 64, 128 + c.toNat % 64]
  else if c.toNat < 65536 then
    [224 + c.toNat / 4096, 128 + c.toNat / 64 % 64, 128 + c.toNat % 64]
  else
    [240 + c.toNat / 262144, 128 + c.toNat / 4096 % 64, 128 + c.toNat / 64 % 64,
      128 + c.toNat % 64]

/-- The bytes of a text. -/
def toBytes (s : Str) : Bytes := (s.map encodeRune).flatten

/-- The rune `utf8.RuneError`, U+FFFD. -/
def RuneError : Nat := 65533

/-- Function `utf8.DecodeRuneInString`: the rune at the head of `s` and its
width in bytes.  An encoding that is invalid or cut short gives
`(RuneError, 1)`, the empty string `(RuneError, 0)`.  The second byte has to
lie in the range that the first byte accepts (`acceptRanges`), the later ones
between `0x80` and `0xBF`. -/
def DecodeRuneInString : Bytes → Nat × Nat
  | [] => (RuneError, 0)
  | s0 :: t =>
    if s0 < 128 then (s0, 1)
    else if s0 < 194 ∨ 244 < s0 then (RuneError, 1)
    else
      let lo := if s0 = 224 then 160 else if s0 = 240 then 144 else 128
      let hi := if s0 = 237 then 159 else if s0 = 244 then 143 else 191
      if s0 < 224 then
        match t with
        | s1 :: _ =>
          if s1 < lo ∨ hi < s1 then (RuneError, 1)
          else (s0 % 32 * 64 + s1 % 64, 2)
        | _ => (RuneError, 1)
      else if s0 < 240 then
        match t with
        | s1 :: s2 :: _ =>
          if s1 < lo ∨ hi < s1 then (RuneError, 1)
          else if s2 < 128 ∨ 191 < s2 then (RuneError, 1)
          else (s0 % 16 * 4096 + s1 % 64 * 64 + s2 % 64, 3)
        | _ => (RuneError, 1)
      else
        match t with
        | s1 :: s2 :: s3 :: _ =>
          if s1 < lo ∨ hi < s1 then (RuneError, 1)
          else if s2 < 128 ∨ 191 < s2 then (RuneError, 1)
          else if s3 < 128 ∨ 191 < s3 then (RuneError, 1)
          else (s0 % 8 * 262144 + s1 % 64 * 4096 + s2 % 64 * 64 + s3 % 64, 4)
        | _ => (RuneError, 1)

/-- The scan of `scanChunk` after the leading stars: the chunk runs up to the
first `*` (byte 42) outside a bracket expression (`[` is 91, `]` is 93); a
backslash (92) skips the byte after it.  Returns the chunk and the rest of the
pattern. -/
def scanChunkLoop : Bool → Bytes → Bytes × Bytes
  | _, [] => ([], [])
  | inrange, c :: t =>
    if c = 92 then
      match t with
      | [] => ([c], [])
      | d :: t2 =>
        let r := scanChunkLoop inrange t2
        (c :: d :: r.1, r.2)
    else if c = 91 then
      let r := scanChunkLoop true t
      (c :: r.1, r.2)
    else if c = 93 then
      let r := scanChunkLoop false t
      (c :: r.1, r.2)
    else if c = 42 ∧ inrange = false then ([], c :: t)
    else
      let r := scanChunkLoop inrange t
      (c :: r.1, r.2)

/-- Function `scanChunk`: `(star, chunk, rest)`. -/
def scanChunk (pattern : Bytes) : Bool × Bytes × Bytes :=
  let p := pattern.dropWhile (fun c => c = 42)
  let r := scanChunkLoop false p
  (pattern.head? = some 42, r.1, r.2)

/-- Function `getEsc`: one possibly escaped rune of a bracket expression,
`none` for `ErrBadPattern`; `-` is 45, `]` is 93 and the backslash 92. -/
def getEsc : Bytes → Option (Nat × Bytes)
  | [] => none
  | c :: t =>
    if c = 45 ∨ c = 93 then none else
    match (if c = 92 then t else c :: t) with
    | [] => none
    | b :: chunk =>
      let d := DecodeRuneInString (b :: chunk)
      if d.1 = RuneError ∧ d.2 = 1 then none
      else if (b :: chunk).drop d.2 = [] then none
      else some (d.1, (b :: chunk).drop d.2)

/-- The range loop of a bracket expression in `matchChunk`: returns whether
`r` lies in some range and the chunk after the closing bracket, `none` for
`ErrBadPattern`. -/
def classLoop : Nat → Bytes → Nat → Bool → Bool → Option (Bool × Bytes)
  | 0, _, _, _, _ => none
  | fuel + 1, chunk, r, matched, some_range =>
    if chunk.head? = some 93 ∧ some_range = true then some (matched, chunk.tail)
    else
      match getEsc chunk with
      | none => none
      | some (lo, ch1) =>
        if ch1.head? = some 45 then
          match getEsc ch1.tail with
          | none => none
          | some (hi, ch2) =>
            classLoop fuel ch2 r (matched || (decide (lo ≤ r) && decide (r ≤ hi))) true
        else
          classLoop fuel ch1 r (matched || (decide (lo ≤ r) && decide (r ≤ lo))) true

/-- The three results of `matchChunk`: `ErrBadPattern`, no match, or a match
with the rest of the name. -/
inductive ChunkResult where
  | bad
  | nomatch
  | ok (rest : Bytes)
deriving DecidableEq, Repr

/-- Function `matchChunk`; `failed` is its local flag: once set the chunk is
only checked for syntax and the name is no longer read.  A bracket expression
(`[`, 91, negated by `^`, 94) and `?` (63) take one rune off the name with
`utf8.DecodeRuneInString`, a single byte where the name does not hold a valid
encoding at that place; `?` does not match `/` (47); every other byte of the
chunk is compared with one byte of the name. -/
def matchChunkLoop : Nat → Bool → Bytes → Bytes → ChunkResult
  | _, failed, [], s => if failed then .nomatch else .ok s
  | 0, _, _ :: _, _ => .bad
  | fuel + 1, failed0, c :: chunk, s =>
    let failed := failed0 || s.isEmpty
    if c = 91 then
      let r : Nat := if failed then 0 else (DecodeRuneInString s).1
      let s1 := if failed then s else s.drop (DecodeRuneInString s).2
      let negated : Bool := chunk.head? = some 94
      let ch := if negated then chunk.tail else chunk
      match classLoop fuel ch r false false with
      | none => .bad
      | some (matched, ch2) =>
        matchChunkLoop fuel (failed || (matched == negated)) ch2 s1
    else if c = 63 then
      if failed then matchChunkLoop fuel true chunk s
      else matchChunkLoop fuel (s.head? = some 47) chunk (s.drop (DecodeRuneInString s).2)
    else if c = 92 then
      match chunk with
      | [] => .bad
      | d :: chunk2 =>
        if failed then matchChunkLoop fuel true chunk2 s
        else matchChunkLoop fuel (s.head? ≠ some d) chunk2 s.tail
    else
      if failed then matchChunkLoop fuel true chunk s
      else matchChunkLoop fuel (s.head? ≠ some c) chunk s.tail

/-- Function `matchChunk(chunk, s)`. -/
def matchChunk (chunk s : Bytes) : ChunkResult :=
  matchChunkLoop chunk.length false chunk s

/-- The syntax check of the rest of the pattern that `path.Match` makes before
it answers "no match": `true` when some remaining chunk is malformed. -/
def restBad : Nat → Bytes → Bool
  | _, [] => false
  | 0, _ :: _ => false
  | fuel + 1, pattern =>
    let sc := scanChunk pattern
    if matchChunk sc.2.1 [] = .bad then true else restBad fuel sc.2.2

/-- The outcome of the loop that `path.Match` runs after a star. -/
inductive StarResult where
  | bad
  | exhausted
  | found (rest : Bytes)
deriving DecidableEq, Repr

/-- The loop of `path.Match` after a star: the chunk is tried at
`name[i+1:]` for every byte index `i` up to the first slash, also inside the
encoding of a rune; `last` says that the chunk is the last one, which then has
to use up the name. -/
def starLoop (chunk : Bytes) (last : Bool) : Bytes → StarResult
  | [] => .exhausted
  | c :: t =>
    if c = 47 then .exhausted else
    match matchChunk chunk t with
    | .ok rest => if last ∧ rest ≠ [] then starLoop chunk last t else .found rest
    | .bad => .bad
    | .nomatch => starLoop chunk last t

/-- The main loop of `path.Match`: `none` is `ErrBadPattern`. -/
def matchLoop : Nat → Bytes → Bytes → Option Bool
  | _, [], name => some name.isEmpty
  | 0, _ :: _, _ => none
  | fuel + 1, pattern, name =>
    let sc := scanChunk pattern
    let star := sc.1
    let chunk := sc.2.1
    let rest := sc.2.2
    if star = true ∧ chunk = [] then some (!name.contains 47)
    else
      let afterFail : Option Bool :=
        match (if star then starLoop chunk (rest = []) name else .exhausted) with
        | .found t => matchLoop fuel rest t
        | .bad => none
        | .exhausted => if restBad rest.length rest then none else some false
      match matchChunk chunk name with
      | .ok t => if t = [] ∨ rest ≠ [] then matchLoop fuel rest t else afterFail
      | .bad => none
      | .nomatch => afterFail

/-- The value `m` of `m, _ := path.Match(pattern, name)` for two strings, read
as their bytes: a malformed pattern counts as no match. -/
def Match (pattern name : Str) : Bool :=
  matchLoop (toBytes pattern).length (toBytes pattern) (toBytes name) = some true

/-! ## Errors and `%#v` -/

/-- The digits of `strconv`'s `lowerhex`. -/
def lowerhex (n : Nat) : Char := "0123456789abcdef".toList.getD (n % 16) '0'

/-- Function `strconv.IsPrint`; `table` stands for the Unicode tables that
decide it above U+00FF. -/
def IsPrint (table : Char → Bool) (r : Char) : Bool :=
  if r.toNat ≤ 0xFF then
    if 0x20 ≤ r.toNat ∧ r.toNat ≤ 0x7E then true
    else if 0xA1 ≤ r.toNat then r.toNat ≠ 0xAD
    else false
  else table r

/-- Function `appendEscapedRune` of `strconv` with the double quote as quote
character, as `strconv.Quote` calls it. -/
def escapedRune (table : Char → Bool) (r : Char) : Str :=
  if r = '"' ∨ r = bslash then [bslash, r]
  else if IsPrint table r then [r]
  else if r = Char.ofNat 7 then [bslash, 'a']
  else if r = Char.ofNat 8 then [bslash, 'b']
  else if r = Char.ofNat 12 then [bslash, 'f']
  else if r = '\n' then [bslash, 'n']
  else if r = '\r' then [bslash, 'r']
  else if r = '\t' then [bslash, 't']
  else if r = Char.ofNat 11 then [bslash, 'v']
  else if r.toNat < 0x20 ∨ r.toNat = 0x7f then
    [bslash, 'x', lowerhex (r.toNat / 16), lowerhex r.toNat]
  else if r.toNat < 0x10000 then
    [bslash, 'u', lowerhex (r.toNat / 4096), lowerhex (r.toNat / 256),
      lowerhex (r.toNat / 16), lowerhex r.toNat]
  else
    [bslash, 'U', lowerhex (r.toNat / 268435456), lowerhex (r.toNat / 16777216),
      lowerhex (r.toNat / 1048576), lowerhex (r.toNat / 65536),
      lowerhex (r.toNat / 4096), lowerhex (r.toNat / 256),
      lowerhex (r.toNat / 16), lowerhex r.toNat]

/-- Function `strconv.Quote`, the rendering of a string under `%#v`. -/
def Quote (table : Char → Bool) (s : Str) : Str :=
  '"' :: (s.flatMap (escapedRune table) ++ ['"'])

/-- The error values `resolve` and `resolveFn` can produce. -/
inductive Err where
  /-- The value of `fmt.Errorf("file %#v: not found", fn)`. -/
  | notFound (fn : Str)
  /-- The value of `fmt.Errorf("file %v: %w", fn, err)`. -/
  | file (fn : Str) (err : Err)
  /-- The value of `fmt.Errorf("resolve %#v: %w", ifn, err)`. -/
  | resolve (ifn : Str) (err : Err)
  /-- The run-time error of indexing the nil result of `FindSubmatch`. -/
  | index
deriving DecidableEq, Repr

/-- The method `Error()` of an error value: its message. -/
def Err.Error (table : Char → Bool) : Err → Str
  | .notFound fn => "file ".toList ++ Quote table fn ++ ": not found".toList
  | .file fn err => "file ".toList ++ fn ++ ": ".toList ++ err.Error table
  | .resolve ifn err => "resolve ".toList ++ Quote table ifn ++ ": ".toList ++ err.Error table
  | .index => "runtime error: index out of range [1] with length 0".toList

/-! ## The resolver -/

/-- What a call of `resolveFn` comes to: it does not return within the given
recursion depth, it returns `(nil, err)`, or it returns `(out, nil)`. -/
inductive Outcome where
  | diverge
  | fail (err : Err)
  | ok (out : Str)
deriving DecidableEq, Repr

/-- Function `regexp.ReplaceAllFunc` over the pieces of the buffer: the text
between matches is copied, each match is replaced by what `repl` returns, the
calls of `repl` are made from left to right and the first one that does not
return ends the whole call. -/
def replaceSegs (repl : Str → Outcome) : List Seg → Outcome
  | [] => .ok []
  | .text c :: rest =>
    match replaceSegs repl rest with
    | .ok out => .ok (c :: out)
    | other => other
  | .hit m :: rest =>
    match repl m with
    | .ok block =>
      match replaceSegs repl rest with
      | .ok out => .ok (block ++ out)
      | other => other
    | other => other

/-- The call
`regexp.MustCompile(include-pattern).ReplaceAllFunc(buf, repl)`. -/
def ReplaceAllFunc (buf : Str) (repl : Str → Outcome) : Outcome :=
  replaceSegs repl (segments 0 true buf)

/-- The three ways the callback of `resolveFn` disposes of a directive, the
tags `[R]`, `[I]` and `[S]` of its progress output. -/
inductive Decision where
  | suppress
  | inline (ifn : Str) (ibuf : Str)
  | preserve
deriving DecidableEq, Repr

/-- The loop `for _, ip := range includePath` of the callback: the first
prefix whose joined name matches a pattern of `done` suppresses, the first
whose joined name is a key inlines, and when the prefixes run out the
directive is preserved. -/
def decideInclude (files : Files) (done : List Str) (fn : Str) : List Str → Decision
  | [] => .preserve
  | ip :: rest =>
    let ifn := Join ip fn
    if done.any (fun dfn => Match dfn ifn) then .suppress
    else
      match lookup files ifn with
      | some ibuf => .inline ifn ibuf
      | none => decideInclude files done fn rest

/-- The two newline bytes that frame an inlined block. -/
def nl2 : Str := ['\n', '\n']

/-- The callback passed to `ReplaceAllFunc` in `resolveFn`; `recur` is the
recursive call `resolveFn(indent+"    ", files, ifn, ibuf, done', includePath')`
as a function of `ibuf`, `done'` and `includePath'`. -/
def replaceInclude (recur : Str → List Str → List Str → Outcome) (files : Files)
    (done includePath : List Str) (importBuf : Str) : Outcome :=
  match findSubmatch importBuf with
  | none => .fail .index
  | some fn =>
    match decideInclude files done fn includePath with
    | .suppress => .ok []
    | .preserve => .ok importBuf
    | .inline ifn ibuf =>
      match recur ibuf (done ++ [ifn]) (includePath ++ [Dir ifn]) with
      | .diverge => .diverge
      | .fail err => .fail (.resolve ifn err)
      | .ok out => .ok (nl2 ++ out ++ nl2)

/-- The closure `resolveFn`.  `fuel` bounds the depth of the recursion; the
parameters `indent` and `filename` only feed the progress output and are left
out.  A panic raised under the callback is turned into the error result by the
deferred `recover`. -/
def resolveFn : Nat → Files → Str → List Str → List Str → Outcome
  | 0, _, _, _, _ => .diverge
  | fuel + 1, files, buf, done, includePath =>
    ReplaceAllFunc buf
      (replaceInclude (fun ibuf d ip => resolveFn fuel files ibuf d ip) files done includePath)

/-- The loop `for _, fn := range filenames` of `resolve`, `acc` being
`resolvedFile`.  The result is the pair `(resolvedFile, err)`, `nil` being the
empty list; `none` when a call of `resolveFn` does not return. -/
def resolveLoop (fuel : Nat) (files : Files) (includePath : List Str) :
    Str → List Str → Option (Str × Option Err)
  | acc, [] => some (acc, none)
  | acc, fn :: rest =>
    match lookup files fn with
    | none => some ([], some (.notFound fn))
    | some buf =>
      match resolveFn fuel files buf [fn] (includePath ++ [Dir fn]) with
      | .diverge => none
      | .fail err => some ([], some (.file fn err))
      | .ok out => resolveLoop fuel files includePath (acc ++ out ++ nl2) rest

/-- Function `resolve(files, filenames, includePath...)`. -/
def resolve (fuel : Nat) (files : Files) (filenames : List Str)
    (includePath : List Str) : Option (Str × Option Err) :=
  resolveLoop fuel files includePath [] filenames

/-! ## The preprocessing of `libzlib` -/

/-- The scan of `bytes.ReplaceAll` for a non-empty `old`: non-overlapping
occurrences are replaced from left to right; `skip` counts the characters of
the last occurrence still to pass over. -/
def replaceLoop (old new : Str) : Nat → Str → Str
  | _, [] => []
  | skip + 1, _ :: t => replaceLoop old new skip t
  | 0, c :: t =>
    if old.isPrefixOf (c :: t) then new ++ replaceLoop old new (old.length - 1) t
    else c :: replaceLoop old new 0 t

/-- Function `bytes.ReplaceAll(s, old, new)`; an empty `old` matches at the
beginning and after every character. -/
def ReplaceAll (s old new : Str) : Str :=
  if old = [] then new ++ s.flatMap (fun c => c :: new)
  else replaceLoop old new 0 s

/-- Function `strings.HasSuffix`. -/
def HasSuffix (s suffix : Str) : Bool := suffix.isSuffixOf s

/-- Function `strings.TrimSuffix`. -/
def TrimSuffix (s suffix : Str) : Str :=
  if HasSuffix s suffix then s.take (s.length - suffix.length) else s

/-- Function `unicode.ToUpper`; `table` stands for the Unicode case tables
that decide it above U+007F. -/
def upperRune (table : Char → Char) (r : Char) : Char :=
  if r.toNat ≤ 0x7F then
    if 'a'.toNat ≤ r.toNat ∧ r.toNat ≤ 'z'.toNat then Char.ofNat (r.toNat - 32) else r
  else table r

/-- Function `strings.ToUpper`. -/
def ToUpper (table : Char → Char) (s : Str) : Str := s.map (upperRune table)

/-- The text that takes the place of `#include <endian.h>`. -/
def endianShim : Str :=
  ("#ifndef ZLIBGEN_ENDIAN_SHIM_H\n#define ZLIBGEN_ENDIAN_SHIM_H\n#ifndef BYTE_ORDER\n" ++
   "#define BYTE_ORDER __BYTE_ORDER__\n#define LITTLE_ENDIAN __ORDER_LITTLE_ENDIAN__\n" ++
   "#define BIG_ENDIAN __ORDER_BIG_ENDIAN__\n#endif\n#endif\n").toList

/-- The literal `#include <endian.h>`. -/
def endianInclude : Str := "#include <endian.h>".toList

/-- The guard macro `hn` of a header: `"ZLIBGEN_" + strings.ToUpper(
strings.TrimSuffix(fn, ".h")) + "_H"`. -/
def guardName (table : Char → Char) (fn : Str) : Str :=
  "ZLIBGEN_".toList ++ ToUpper table (TrimSuffix fn ".h".toList) ++ "_H".toList

/-- The substitutions of `libzlib` that are keyed by the file name, applied
in the order of the source: the `#undef COPY` line of `infback.c`, the renamed
functions of `deflate.c` and `inflate.c`, the `#undef` lines before the two
macros of `inflate.c`. -/
def nameKeyed (fn b : Str) : Str :=
  let d0 := b
  let d1 := if fn = "infback.c".toList then "#undef COPY\n".toList ++ d0 else d0
  let d2 :=
    if fn = "deflate.c".toList then
      ReplaceAll d1 "static unsigned long saturateAddBound".toList
        "__attribute__((unused)) static unsigned long saturateAddBound_".toList
    else d1
  let d3 :=
    if fn = "inflate.c".toList then
      ReplaceAll d2 "static void fixedtables".toList
        "__attribute__((unused)) static void fixedtables_".toList
    else d2
  if fn = "inflate.c".toList then
    ReplaceAll
      (ReplaceAll d3 "#define PULLBYTE".toList "#undef PULLBYTE\n#define PULLBYTE".toList)
      "#define DROPBITS".toList "#undef DROPBITS\n#define DROPBITS".toList
  else d3

/-- The body of the loop `for fn, b := range files` of `libzlib`: the value
left in `dfiles[fn]`.  The last step builds on `b`, the content as it came in,
as the source does. -/
def libzlibFile (table : Char → Char) (fn b : Str) : Str :=
  let d4 := nameKeyed fn b
  let d5 := ReplaceAll d4 endianInclude endianShim
  if HasSuffix fn ".h".toList ∧ fn ≠ "inffixed.h".toList then
    let hn := guardName table fn
    ("#ifndef ".toList ++ hn ++ "\n#define ".toList ++ hn ++ "\n".toList) ++ (b ++ "#endif".toList)
  else d5

/-- The map `dfiles` that `libzlib` hands to `resolve`. -/
def dfiles (table : Char → Char) (files : Files) : Files :=
  files.map (fun e => (e.1, libzlibFile table e.1 e.2))

/-- The entry files of `libzlib`. -/
def libzlibEntries : List Str :=
  ["zconf.h", "adler32.c", "compress.c", "crc32.c", "deflate.c", "gzclose.c", "gzlib.c",
   "gzread.c", "gzwrite.c", "infback.c", "inffast.c", "inflate.c", "inftrees.c", "trees.c",
   "uncompr.c", "zutil.c"].map String.toList

/-- Function `libzlib(files, version)`: the bytes of the reader it returns,
with the error of `resolve` when there is one. -/
def libzlib (table : Char → Char) (fuel : Nat) (files : Files) (version : Str) :
    Option (Str × Option Err) :=
  match resolve fuel (dfiles table files) libzlibEntries [] with
  | none => none
  | some (_, some err) => some ([], some err)
  | some (zlib, none) =>
    some ("// AUTOMATICALLY GENERATED, DO NOT EDIT!\n".toList ++
      "// merged from sortix zlib ".toList ++ version ++ ".\n".toList ++
      "#define _GNU_SOURCE\n".toList ++
      "#define Z_INSIDE_LIBZ\n".toList ++
      "#pragma GCC diagnostic warning \"-Wall\"\n".toList ++
      "#pragma GCC diagnostic warning \"-Wextra\"\n".toList ++
      "#pragma GCC diagnostic ignored \"-Wimplicit-fallthrough\"\n".toList ++
      zlib ++
      "#line 1 \"zlib_generate.go\"\n".toList ++
      "#pragma GCC warning \"Using generated built-in sortix zlib ".toList ++ version ++
        ".\"\n".toList, none)

/-- Function `hzlib(files, version)`. -/
def hzlib (fuel : Nat) (files : Files) (version : Str) : Option (Str × Option Err) :=
  match resolve fuel files ["zlib.h".toList] [] with
  | none => none
  | some (_, some err) => some ([], some err)
  | some (marisaH, none) =>
    some ("// AUTOMATICALLY GENERATED, DO NOT EDIT!\n".toList ++
      "// merged from sortix libz ".toList ++ version ++ ".\n".toList ++ marisaH, none)

/-! ## Notions used to state the properties -/

/-- The source text of a piece. -/
def Seg.src : Seg → Str
  | .text c => [c]
  | .hit m => m

/-- The texts of the language of `\s*#\s*include\s+["'<][^"'>]+["'>]`, with
the name between the delimiters: blanks (newlines among them), `#`, blanks,
`include`, at least one blank, an opening delimiter, a non-empty name free of
closing delimiters, a closing delimiter. -/
def IsDirectiveNamed (m name : Str) : Prop :=
  ∃ (ws1 ws2 ws3 : Str) (o c : Char),
    m = ws1 ++ '#' :: (ws2 ++ (includeLit ++ (ws3 ++ o :: (name ++ [c])))) ∧
    (∀ x ∈ ws1, reSpace x = true) ∧ (∀ x ∈ ws2, reSpace x = true) ∧
    (∀ x ∈ ws3, reSpace x = true) ∧ ws3 ≠ [] ∧ reOpen o = true ∧
    name ≠ [] ∧ (∀ x ∈ name, reName x = true) ∧ reClose c = true

/-- The texts of the language of the include pattern. -/
def IsDirective (m : Str) : Prop := ∃ name, IsDirectiveNamed m name

/-- How a piece of the buffer shows in the output: a character outside the
matches is copied, the text `m` of a match gives a block `b` with `Q m b`. -/
def Replaced (Q : Str → Str → Prop) : Seg → Str → Prop
  | .text c, b => b = [c]
  | .hit m, b => Q m b

/-- The last element of a path, the part after its last slash. -/
def baseName (p : Str) : Str := (splitSlash p).getLastD []

/-- The characters with a special meaning in a `path.Match` pattern. -/
def isMeta (c : Char) : Bool := c = '*' || c = '?' || c = '[' || c = bslash

/-- The text has no occurrence of `old`. -/
def NoOcc (old : Str) : Str → Prop
  | [] => True
  | c :: t => ¬ old <+: c :: t ∧ NoOcc old t

/-- Whether a text has an occurrence of `old` can be computed. -/
instance NoOcc.decidable (old : Str) : (t : Str) → Decidable (NoOcc old t)
  | [] => isTrue trivial
  | c :: t =>
    match NoOcc.decidable old t with
    | isTrue h => if hp : old <+: c :: t then isFalse (fun hx => hx.1 hp) else isTrue ⟨hp, h⟩
    | isFalse h => isFalse (fun hx => h hx.2)

/-- The check that no suffix of a text begins with `#in`, the first three
characters of `#include <endian.h>`; a suffix that begins with `#` is to have
three characters at least. -/
def shimSafe : Str → Bool
  | [] => true
  | a :: u => (a ≠ '#' || (3 ≤ (a :: u).length && (a :: u).take 3 ≠ "#in".toList)) && shimSafe u

/-- A line `#include`, a blank, the opening delimiter `o`, a name, the closing
delimiter `c`, and the text `trail` that follows on the same line. -/
def trailingLine (o : Char) (name : Str) (c : Char) (trail : Str) : Str :=
  "#include ".toList ++ o :: (name ++ c :: trail)

/-! ## Example file sets -/

/-- The file set of the end-to-end scenario. -/
def scenarioFiles : Files :=
  [("a.c".toList, "#include \"b.h\"\nINT x;".toList),
   ("b.h".toList, "#include \"c.h\"\nTYPE y;".toList),
   ("c.h".toList, "VALUE z;".toList)]

/-- The output of the end-to-end scenario. -/
def scenarioOutput : Str := "\n\n\n\nVALUE z;\n\n\nTYPE y;\n\n\nINT x;\n\n".toList

/-- A file set whose only file includes itself. -/
def selfFiles : Files := [("a.c".toList, "int a;\n#include \"a.c\"".toList)]

/-- A file set whose only file includes itself and whose name holds a `[`. -/
def bracketFiles : Files := [("[.c".toList, "#include \"[.c\"".toList)]

/-- A file set in which `a.c` includes `b.h` twice. -/
def dupFiles : Files :=
  [("a.c".toList, "#include \"b.h\"\n#include \"b.h\"".toList), ("b.h".toList, "B".toList)]

/-- A file set in which `a.c` includes `b.h` and then `c.h`, which includes
`b.h` as well. -/
def dupViaFiles : Files :=
  [("a.c".toList, "#include \"b.h\"\n#include \"c.h\"".toList), ("b.h".toList, "B".toList),
   ("c.h".toList, "#include \"b.h\"".toList)]

/-- A file set whose only file is named `*` and includes a system header. -/
def starFiles : Files := [("*".toList, "#include <stdio.h>".toList)]

/-- A file set whose only file includes itself after a blank line. -/
def blankFiles : Files := [("a.c".toList, "int a;\n\n#include \"a.c\"".toList)]

/-- The check that every non-empty suffix of a text clashes with `p`: neither
begins the other. -/
def clashTails (p : Str) : Str → Bool
  | [] => true
  | a :: u => (!p.isPrefixOf (a :: u) && !(a :: u).isPrefixOf p) && clashTails p u

/-- The function renamed in `deflate.c`. -/
def saturateDecl : Str := "static unsigned long saturateAddBound".toList

/-- The function renamed in `inflate.c`. -/
def fixedtablesDecl : Str := "static void fixedtables".toList

/-- The first macro of `inflate.c` that gets an `#undef`. -/
def pullbyteDef : Str := "#define PULLBYTE".toList

/-- The second macro of `inflate.c` that gets an `#undef`. -/
def dropbitsDef : Str := "#define DROPBITS".toList

/-- A file set in which `sub/b.h`, inlined from `a.h`, includes `a.h`, while a
file `sub/a.h` exists as well. -/
def shadowFiles : Files :=
  [("a.h".toList, "#include \"sub/b.h\"".toList),
   ("sub/b.h".toList, "#include \"a.h\"".toList),
   ("sub/a.h".toList, "int shadowed;".toList)]

/-- A file set in which `a.c` includes `sub/b.h` and then `c.h`, and only
`sub/c.h` exists. -/
def scopeFiles : Files :=
  [("a.c".toList, "#include \"sub/b.h\"\n#include \"c.h\"".toList),
   ("sub/b.h".toList, "B".toList), ("sub/c.h".toList, "C".toList)]

/-- A file set whose two files include each other. -/
def cycleFiles : Files :=
  [("a.h".toList, "#include \"b.h\"".toList), ("b.h".toList, "#include \"a.h\"".toList)]

/-! ## The run of `resolve`, step by step -/

/-- What a run does, in order: a call of `resolveFn` with its buffer, visited
list and search path, or a directive handed to the callback, with the visited
list and the search path the callback sees. -/
inductive Event where
  | call (buf : Str) (done includePath : List Str)
  | directive (importBuf : Str) (done includePath : List Str)
deriving DecidableEq, Repr

/-- The function `replaceSegs` with the events of the callbacks, in the order
of the calls; nothing follows a callback that does not return. -/
def replaceSegsT (repl : Str → Outcome × List Event) : List Seg → Outcome × List Event
  | [] => (.ok [], [])
  | .text c :: rest =>
    let r := replaceSegsT repl rest
    (match r.1 with
     | .ok out => .ok (c :: out)
     | other => other, r.2)
  | .hit m :: rest =>
    let b := repl m
    match b.1 with
    | .ok block =>
      let r := replaceSegsT repl rest
      (match r.1 with
       | .ok out => .ok (block ++ out)
       | other => other, b.2 ++ r.2)
    | other => (other, b.2)

/-- The callback `replaceInclude` with its events: the directive itself, then
the events of the recursive call when the directive is inlined. -/
def replaceIncludeT (recur : Str → List Str → List Str → Outcome × List Event) (files : Files)
    (done includePath : List Str) (importBuf : Str) : Outcome × List Event :=
  match findSubmatch importBuf with
  | none => (.fail .index, [.directive importBuf done includePath])
  | some fn =>
    match decideInclude files done fn includePath with
    | .suppress => (.ok [], [.directive importBuf done includePath])
    | .preserve => (.ok importBuf, [.directive importBuf done includePath])
    | .inline ifn ibuf =>
      let r := recur ibuf (done ++ [ifn]) (includePath ++ [Dir ifn])
      (match r.1 with
       | .diverge => .diverge
       | .fail err => .fail (.resolve ifn err)
       | .ok out => .ok (nl2 ++ out ++ nl2),
       .directive importBuf done includePath :: r.2)

/-- The closure `resolveFn` with its events: the call itself, then the events
of the scan of its buffer.  At depth `0` the call is recorded and not
followed. -/
def resolveFnT : Nat → Files → Str → List Str → List Str → Outcome × List Event
  | 0, _, buf, done, includePath => (.diverge, [.call buf done includePath])
  | fuel + 1, files, buf, done, includePath =>
    let r := replaceSegsT
      (replaceIncludeT (fun ibuf d ip => resolveFnT fuel files ibuf d ip) files done includePath)
      (segments 0 true buf)
    (r.1, .call buf done includePath :: r.2)

/-- The loop of `resolve` with its events. -/
def resolveLoopT (fuel : Nat) (files : Files) (includePath : List Str) :
    Str → List Str → Option (Str × Option Err) × List Event
  | acc, [] => (some (acc, none), [])
  | acc, fn :: rest =>
    match lookup files fn with
    | none => (some ([], some (.notFound fn)), [])
    | some buf =>
      let r := resolveFnT fuel files buf [fn] (includePath ++ [Dir fn])
      match r.1 with
      | .diverge => (none, r.2)
      | .fail err => (some ([], some (.file fn err)), r.2)
      | .ok out =>
        let l := resolveLoopT fuel files includePath (acc ++ out ++ nl2) rest
        (l.1, r.2 ++ l.2)

/-- The events of a run of `resolve(files, filenames, includePath...)`. -/
def resolveTrace (fuel : Nat) (files : Files) (filenames includePath : List Str) : List Event :=
  (resolveLoopT fuel files includePath [] filenames).2

/-- The call for `buf`, `done`, `includePath` is reached from the call for
`buf0`, `done0`, `includePath0` by nested inlining: each key of `path` is
inlined by a directive of the file before it. -/
inductive Nested (files : Files) (buf0 : Str) (done0 includePath0 : List Str) :
    List Str → Str → List Str → List Str → Prop where
  | root : Nested files buf0 done0 includePath0 [] buf0 done0 includePath0
  | inline {path : List Str} {buf : Str} {done includePath : List Str} {m fn ifn ibuf : Str} :
      Nested files buf0 done0 includePath0 path buf done includePath →
      Seg.hit m ∈ segments 0 true buf → findSubmatch m = some fn →
      decideInclude files done fn includePath = .inline ifn ibuf →
      Nested files buf0 done0 includePath0 (path ++ [ifn]) ibuf (done ++ [ifn])
        (includePath ++ [Dir ifn])

/-- What an invariant `P` of the calls says of an event: it holds of a call,
and a directive is seen with the visited list and the search path of a call
that has it among the matches of its buffer. -/
def EventHolds (P : Str → List Str → List Str → Prop) : Event → Prop
  | .call buf done includePath => P buf done includePath
  | .directive m done includePath =>
    ∃ buf, P buf done includePath ∧ Seg.hit m ∈ segments 0 true buf

/-! # Properties -/

/-! ## Recursion depth -/

theorem replaceSegs_mono {f g : Str → Outcome} (h : ∀ m, f m ≠ .diverge → g m = f m)
    (segs : List Seg) (hs : replaceSegs f segs ≠ .diverge) :
    replaceSegs g segs = replaceSegs f segs := by
  induction segs with
  | nil => rfl
  | cons s rest ih =>
    cases s with
    | text c =>
      simp only [replaceSegs] at hs ⊢
      have hr : replaceSegs f rest ≠ .diverge := by
        intro hd; rw [hd] at hs; exact hs rfl
      rw [ih hr]
    | hit m =>
      simp only [replaceSegs] at hs ⊢
      have hm : f m ≠ .diverge := by
        intro hd; rw [hd] at hs; exact hs rfl
      rw [h m hm]
      cases hfm : f m with
      | diverge => exact absurd hfm hm
      | fail e => rfl
      | ok block =>
        rw [hfm] at hs
        have hr : replaceSegs f rest ≠ .diverge := by
          intro hd; rw [hd] at hs; exact hs rfl
        simp only [ih hr]

theorem replaceInclude_none {r : Str → List Str → List Str → Outcome} {files : Files}
    {done includePath : List Str} {m : Str} (hf : findSubmatch m = none) :
    replaceInclude r files done includePath m = .fail .index := by
  simp only [replaceInclude, hf]

theorem replaceInclude_suppress {r : Str → List Str → List Str → Outcome} {files : Files}
    {done includePath : List Str} {m fn : Str} (hf : findSubmatch m = some fn)
    (hd : decideInclude files done fn includePath = .suppress) :
    replaceInclude r files done includePath m = .ok [] := by
  simp only [replaceInclude, hf, hd]

theorem replaceInclude_preserve {r : Str → List Str → List Str → Outcome} {files : Files}
    {done includePath : List Str} {m fn : Str} (hf : findSubmatch m = some fn)
    (hd : decideInclude files done fn includePath = .preserve) :
    replaceInclude r files done includePath m = .ok m := by
  simp only [replaceInclude, hf, hd]

theorem replaceInclude_inline {r : Str → List Str → List Str → Outcome} {files : Files}
    {done includePath : List Str} {m fn ifn ibuf : Str} (hf : findSubmatch m = some fn)
    (hd : decideInclude files done fn includePath = .inline ifn ibuf) :
    replaceInclude r files done includePath m =
      match r ibuf (done ++ [ifn]) (includePath ++ [Dir ifn]) with
      | .diverge => .diverge
      | .fail err => .fail (.resolve ifn err)
      | .ok out => .ok (nl2 ++ out ++ nl2) := by
  simp only [replaceInclude, hf, hd]

theorem replaceInclude_mono {r r2 : Str → List Str → List Str → Outcome}
    (h : ∀ b d ip, r b d ip ≠ .diverge → r2 b d ip = r b d ip)
    (files : Files) (done includePath : List Str) (m : Str)
    (hm : replaceInclude r files done includePath m ≠ .diverge) :
    replaceInclude r2 files done includePath m = replaceInclude r files done includePath m := by
  cases hf : findSubmatch m with
  | none => rw [replaceInclude_none hf, replaceInclude_none hf]
  | some fn =>
    cases hd : decideInclude files done fn includePath with
    | suppress => rw [replaceInclude_suppress hf hd, replaceInclude_suppress hf hd]
    | preserve => rw [replaceInclude_preserve hf hd, replaceInclude_preserve hf hd]
    | inline ifn ibuf =>
      rw [replaceInclude_inline hf hd] at hm ⊢
      rw [replaceInclude_inline hf hd]
      have hr : r ibuf (done ++ [ifn]) (includePath ++ [Dir ifn]) ≠ .diverge := by
        intro hx; rw [hx] at hm; exact hm rfl
      rw [h _ _ _ hr]

theorem resolveFn_succ (fuel : Nat) (files : Files) :
    ∀ (buf : Str) (done includePath : List Str),
      resolveFn fuel files buf done includePath ≠ .diverge →
      resolveFn (fuel + 1) files buf done includePath =
        resolveFn fuel files buf done includePath := by
  induction fuel with
  | zero => intro buf done ip h; exact absurd rfl h
  | succ n ih =>
    intro buf done ip h
    rw [resolveFn] at h ⊢
    rw [resolveFn]
    unfold ReplaceAllFunc at h ⊢
    exact replaceSegs_mono (fun m hm => replaceInclude_mono (fun b d i hb => ih b d i hb) files done ip m hm) _ h

theorem resolveFn_add (k fuel : Nat) (files : Files) (buf : Str) (done includePath : List Str)
    (h : resolveFn fuel files buf done includePath ≠ .diverge) :
    resolveFn (fuel + k) files buf done includePath =
      resolveFn fuel files buf done includePath := by
  induction k with
  | zero => rfl
  | succ k ih =>
    rw [← Nat.add_assoc, resolveFn_succ _ _ _ _ _ (by rw [ih]; exact h), ih]

theorem resolveLoop_add (k fuel : Nat) (files : Files) (includePath : List Str) :
    ∀ (filenames : List Str) (acc : Str) (res : Str × Option Err),
      resolveLoop fuel files includePath acc filenames = some res →
      resolveLoop (fuel + k) files includePath acc filenames = some res := by
  intro filenames
  induction filenames with
  | nil => intro acc res h; simpa [resolveLoop] using h
  | cons fn rest ih =>
    intro acc res h
    simp only [resolveLoop] at h ⊢
    cases hl : lookup files fn with
    | none => rw [hl] at h; simpa using h
    | some buf =>
      rw [hl] at h
      simp only at h ⊢
      cases hr : resolveFn fuel files buf [fn] (includePath ++ [Dir fn]) with
      | diverge => rw [hr] at h; simp at h
      | fail e =>
        rw [resolveFn_add k fuel files buf _ _ (by rw [hr]; simp), hr]
        rw [hr] at h; simpa using h
      | ok out =>
        rw [resolveFn_add k fuel files buf _ _ (by rw [hr]; simp), hr]
        rw [hr] at h
        exact ih _ _ h

/-! ## The end-to-end scenario -/

/-- C1. In the scenario `a.c` includes `b.h`, which includes `c.h`: with a
recursion depth of three or more `resolve` succeeds, its output holds
`VALUE z;`, then `TYPE y;`, then `INT x;`, each pair separated by a blank line
(two newlines), and `#include` does not occur in it. -/
theorem end_to_end_scenario (k : Nat) :
    resolve (3 + k) scenarioFiles ["a.c".toList] [] = some (scenarioOutput, none) ∧
    (∃ p0 p1 p2 p3 : Str,
      scenarioOutput = p0 ++ "VALUE z;".toList ++ p1 ++ "TYPE y;".toList ++ p2 ++
        "INT x;".toList ++ p3 ∧ nl2 <:+: p1 ∧ nl2 <:+: p2) ∧
    ¬ ("#include".toList <:+: scenarioOutput) := by
  refine ⟨?_, ?_, ?_⟩
  · exact resolveLoop_add k 3 scenarioFiles [] _ _ _ (by decide)
  · exact ⟨"\n\n\n\n".toList, "\n\n\n".toList, "\n\n\n".toList, "\n\n".toList,
      by decide, by decide, by decide⟩
  · decide

/-! ## The include pattern -/

theorem takeWhile_stop {p : Char → Bool} {l : Str} {a : Char} (r : Str)
    (hl : ∀ x ∈ l, p x = true) (ha : p a = false) :
    (l ++ a :: r).takeWhile p = l := by
  induction l with
  | nil => simp [List.takeWhile, ha]
  | cons x xs ih =>
    have hx : p x = true := hl x (List.mem_cons_self _ _)
    simp only [List.cons_append, List.takeWhile_cons, hx, if_true]
    rw [ih (fun y hy => hl y (List.mem_cons_of_mem _ hy))]

theorem dropWhile_stop {p : Char → Bool} {l : Str} {a : Char} (r : Str)
    (hl : ∀ x ∈ l, p x = true) (ha : p a = false) :
    (l ++ a :: r).dropWhile p = a :: r := by
  induction l with
  | nil => simp [List.dropWhile, ha]
  | cons x xs ih =>
    have hx : p x = true := hl x (List.mem_cons_self _ _)
    simp only [List.cons_append, List.dropWhile_cons, hx, if_true]
    exact ih (fun y hy => hl y (List.mem_cons_of_mem _ hy))

theorem takeWhile_all {p : Char → Bool} {l : Str} (hl : ∀ x ∈ l, p x = true) :
    l.takeWhile p = l := by
  induction l with
  | nil => rfl
  | cons x xs ih =>
    have hx : p x = true := hl x (List.mem_cons_self _ _)
    simp only [List.takeWhile_cons, hx, if_true]
    rw [ih (fun y hy => hl y (List.mem_cons_of_mem _ hy))]

theorem dropWhile_all {p : Char → Bool} {l : Str} (hl : ∀ x ∈ l, p x = true) :
    l.dropWhile p = [] := by
  induction l with
  | nil => rfl
  | cons x xs ih =>
    have hx : p x = true := hl x (List.mem_cons_self _ _)
    simp only [List.dropWhile_cons, hx, if_true]
    exact ih (fun y hy => hl y (List.mem_cons_of_mem _ hy))

theorem dropWhile_head_false {p : Char → Bool} {l : Str} {a : Char} {r : Str}
    (h : l.dropWhile p = a :: r) : p a = false := by
  induction l with
  | nil => simp at h
  | cons x xs ih =>
    rw [List.dropWhile_cons] at h
    by_cases hx : p x = true
    · rw [if_pos hx] at h; exact ih h
    · rw [if_neg hx] at h
      injection h with h1 _
      rw [← h1]; simpa using hx

theorem mem_takeWhile_true {p : Char → Bool} {l : Str} {x : Char}
    (h : x ∈ l.takeWhile p) : p x = true := by
  induction l with
  | nil => simp at h
  | cons y ys ih =>
    rw [List.takeWhile_cons] at h
    by_cases hy : p y = true
    · rw [if_pos hy] at h
      rcases List.mem_cons.1 h with h1 | h1
      · rw [h1]; exact hy
      · exact ih h1
    · rw [if_neg hy] at h; simp at h

theorem stripLit_some {lit s r : Str} (h : stripLit lit s = some r) : s = lit ++ r := by
  induction lit generalizing s with
  | nil => simp [stripLit] at h; simp [h]
  | cons a lit ih =>
    cases s with
    | nil => simp [stripLit] at h
    | cons b s =>
      simp only [stripLit] at h
      by_cases hab : a = b
      · rw [if_pos hab] at h
        rw [hab, ih h]; rfl
      · rw [if_neg hab] at h; simp at h

theorem stripLit_append (lit r : Str) : stripLit lit (lit ++ r) = some r := by
  induction lit with
  | nil => simp [stripLit]
  | cons a lit ih => simp [stripLit, ih]

theorem matchDirective_sound {s : Str} {n : Nat} (h : matchDirective s = some n) :
    ∃ m rest name, s = m ++ rest ∧ IsDirectiveNamed m name ∧ atLineEnd rest = true ∧
      n = m.length := by
  unfold matchDirective at h
  simp only at h
  split at h
  · simp at h
  · rename_i hh s2 hs1
    split at h
    · simp at h
    · rename_i hhash
      have hhash : hh = '#' := by simpa using hhash
      subst hhash
      split at h
      · simp at h
      · rename_i s4 hs4
        split at h
        · simp at h
        · rename_i hws3
          split at h
          · simp at h
          · rename_i o s6 hs5
            split at h
            · simp at h
            · rename_i ho
              split at h
              · simp at h
              · rename_i hname
                split at h
                · simp at h
                · rename_i c s8 hs7
                  split at h
                  · rename_i hend
                    injection h with h
                    refine ⟨s.takeWhile reSpace ++ '#' :: (s2.takeWhile reSpace ++ (includeLit ++
                      (s4.takeWhile reSpace ++ o :: (s6.takeWhile reName ++ [c])))), s8,
                      s6.takeWhile reName, ?_, ?_, hend, ?_⟩
                    · have e1 := List.takeWhile_append_dropWhile reSpace s
                      have e2 := List.takeWhile_append_dropWhile reSpace s2
                      have e3 := stripLit_some hs4
                      have e4 := List.takeWhile_append_dropWhile reSpace s4
                      have e5 := List.takeWhile_append_dropWhile reName s6
                      rw [hs1] at e1
                      rw [e3] at e2
                      rw [hs5] at e4
                      rw [hs7] at e5
                      conv_lhs => rw [← e1, ← e2, ← e4, ← e5]
                      simp [List.append_assoc]
                    · refine ⟨s.takeWhile reSpace, s2.takeWhile reSpace, s4.takeWhile reSpace,
                        o, c, rfl, fun x hx => mem_takeWhile_true hx,
                        fun x hx => mem_takeWhile_true hx, fun x hx => mem_takeWhile_true hx,
                        hws3, by simpa using ho, hname, fun x hx => mem_takeWhile_true hx, ?_⟩
                      have := dropWhile_head_false hs7
                      simpa [reName] using this
                    · rw [← h]
                      simp [List.length_append]
                      omega
                  · simp at h

theorem reSpace_not_open {x : Char} (h : reSpace x = true) : reOpen x = false := by
  simp only [reSpace, Bool.or_eq_true, decide_eq_true_eq] at h
  rcases h with (((h | h) | h) | h) | h <;> subst h <;> decide

theorem reOpen_not_space {x : Char} (h : reOpen x = true) : reSpace x = false := by
  cases hs : reSpace x with
  | false => rfl
  | true => rw [reSpace_not_open hs] at h; exact absurd h (by simp)

theorem reClose_not_name {x : Char} (h : reClose x = true) : reName x = false := by
  simp [reName, h]

theorem matchDirective_complete {m name : Str} (rest : Str) (hm : IsDirectiveNamed m name)
    (hend : atLineEnd rest = true) : matchDirective (m ++ rest) = some m.length := by
  obtain ⟨ws1, ws2, ws3, o, c, rfl, h1, h2, h3, h3ne, ho, hne, hn, hc⟩ := hm
  have hhash : reSpace '#' = false := by decide
  have hi : reSpace 'i' = false := by decide
  have e1 : (ws1 ++ '#' :: (ws2 ++ (includeLit ++ (ws3 ++ o :: (name ++ [c])))) ++ rest) =
      ws1 ++ '#' :: (ws2 ++ 'i' :: ("nclude".toList ++ (ws3 ++ o :: (name ++ c :: rest)))) := by
    simp [includeLit, List.append_assoc]
  rw [e1]
  unfold matchDirective
  simp only
  rw [dropWhile_stop _ h1 hhash, takeWhile_stop _ h1 hhash]
  simp only [ne_eq, not_true_eq_false, if_false]
  rw [dropWhile_stop _ h2 hi, takeWhile_stop _ h2 hi]
  have e2 : stripLit includeLit ('i' :: ("nclude".toList ++ (ws3 ++ o :: (name ++ c :: rest)))) =
      some (ws3 ++ o :: (name ++ c :: rest)) := stripLit_append includeLit _
  rw [e2]
  simp only
  rw [takeWhile_stop _ h3 (reOpen_not_space ho), dropWhile_stop _ h3 (reOpen_not_space ho)]
  rw [if_neg h3ne]
  simp only [ho, Bool.not_true, Bool.false_eq_true, if_false]
  rw [takeWhile_stop _ hn (reClose_not_name hc), dropWhile_stop _ hn (reClose_not_name hc)]
  rw [if_neg hne]
  simp only [hend, if_true]
  simp [includeLit, List.length_append]
  omega

theorem findSubmatch_skip {l : Str} (r : Str) (hl : ∀ x ∈ l, reOpen x = false) :
    findSubmatch (l ++ r) = findSubmatch r := by
  induction l with
  | nil => rfl
  | cons x xs ih =>
    have hx : reOpen x = false := hl x (List.mem_cons_self _ _)
    rw [List.cons_append, findSubmatch]
    simp only [hx, Bool.false_eq_true, if_false]
    exact ih (fun y hy => hl y (List.mem_cons_of_mem _ hy))

theorem findSubmatch_directive {m name : Str} (hm : IsDirectiveNamed m name) :
    findSubmatch m = some name := by
  obtain ⟨ws1, ws2, ws3, o, c, rfl, h1, h2, h3, h3ne, ho, hne, hn, hc⟩ := hm
  rw [findSubmatch_skip _ (fun x hx => reSpace_not_open (h1 x hx))]
  rw [show ('#' :: (ws2 ++ (includeLit ++ (ws3 ++ o :: (name ++ [c]))))) =
    ['#'] ++ (ws2 ++ (includeLit ++ (ws3 ++ o :: (name ++ [c])))) from rfl]
  rw [findSubmatch_skip _ (by decide : ∀ x ∈ ['#'], reOpen x = false)]
  rw [findSubmatch_skip _ (fun x hx => reSpace_not_open (h2 x hx))]
  rw [findSubmatch_skip _ (by decide : ∀ x ∈ includeLit, reOpen x = false)]
  rw [findSubmatch_skip _ (fun x hx => reSpace_not_open (h3 x hx))]
  rw [findSubmatch]
  simp only [ho, if_true]
  rw [takeWhile_stop _ hn (reClose_not_name hc), dropWhile_stop _ hn (reClose_not_name hc)]
  cases name with
  | nil => exact absurd rfl hne
  | cons a t => rfl

/-! ## The pieces of a buffer -/

theorem matchDirective_pos {s : Str} {n : Nat} (h : matchDirective s = some n) :
    0 < n ∧ n ≤ s.length := by
  obtain ⟨m, rest, name, hs, hm, _, hn⟩ := matchDirective_sound h
  obtain ⟨ws1, ws2, ws3, o, c, rfl, _⟩ := hm
  subst hs hn
  constructor
  · simp
  · simp

theorem matchDirective_take {s : Str} {n : Nat} (h : matchDirective s = some n) :
    IsDirective (s.take n) ∧ atLineEnd (s.drop n) = true := by
  obtain ⟨m, rest, name, hs, hm, hend, hn⟩ := matchDirective_sound h
  subst hs hn
  simp only [List.take_left', List.drop_left']
  exact ⟨⟨name, hm⟩, hend⟩

/-- The pieces of a buffer spell the buffer. -/
theorem segments_src (s : Str) : ∀ (skip : Nat) (bol : Bool),
    ((segments skip bol s).map Seg.src).flatten = s.drop skip := by
  induction s with
  | nil => intro skip bol; simp [segments]
  | cons c t ih =>
    intro skip bol
    cases skip with
    | succ k => simp only [segments, List.drop_succ_cons]; exact ih k false
    | zero =>
      simp only [segments, List.drop_zero]
      split
      · rename_i n hn
        have hmd : matchDirective (c :: t) = some n := by
          cases bol with
          | true => simpa using hn
          | false => simp at hn
        obtain ⟨hpos, _⟩ := matchDirective_pos hmd
        simp only [List.map_cons, List.flatten_cons, Seg.src]
        rw [ih (n - 1) false]
        have : (c :: t).drop n = t.drop (n - 1) := by
          cases n with
          | zero => omega
          | succ j => simp
        rw [← this, List.take_append_drop]
      · simp only [List.map_cons, List.flatten_cons, Seg.src]
        rw [ih 0 _]; simp

theorem segments_hit (s : Str) : ∀ (skip : Nat) (bol : Bool) (m : Str),
    Seg.hit m ∈ segments skip bol s → IsDirective m := by
  induction s with
  | nil => intro skip bol m h; simp [segments] at h
  | cons c t ih =>
    intro skip bol m h
    cases skip with
    | succ k => simp only [segments] at h; exact ih k false m h
    | zero =>
      simp only [segments] at h
      split at h
      · rename_i n hn
        have hmd : matchDirective (c :: t) = some n := by
          cases bol with
          | true => simpa using hn
          | false => simp at hn
        rcases List.mem_cons.1 h with h1 | h1
        · injection h1 with h1
          rw [h1]; exact (matchDirective_take hmd).1
        · exact ih _ _ m h1
      · rcases List.mem_cons.1 h with h1 | h1
        · cases h1
        · exact ih _ _ m h1

/-! ## The replacement of the pieces -/

theorem replaceSegs_text (f : Str → Outcome) (c : Char) (rest : List Seg) :
    replaceSegs f (Seg.text c :: rest) =
      match replaceSegs f rest with
      | .ok out => .ok (c :: out)
      | other => other := rfl

theorem replaceSegs_hit (f : Str → Outcome) (m : Str) (rest : List Seg) :
    replaceSegs f (Seg.hit m :: rest) =
      match f m with
      | .ok block =>
        match replaceSegs f rest with
        | .ok out => .ok (block ++ out)
        | other => other
      | other => other := rfl

theorem replaceSegs_hit_ok {f : Str → Outcome} {pre post : List Seg} {m out : Str}
    (h : replaceSegs f (pre ++ Seg.hit m :: post) = .ok out) :
    ∃ o1 b o2, replaceSegs f pre = .ok o1 ∧ f m = .ok b ∧ replaceSegs f post = .ok o2 ∧
      out = o1 ++ b ++ o2 := by
  induction pre generalizing out with
  | nil =>
    simp only [List.nil_append, replaceSegs] at h
    cases hb : f m with
    | diverge => rw [hb] at h; simp at h
    | fail e => rw [hb] at h; simp at h
    | ok b =>
      rw [hb] at h
      simp only at h
      cases ho : replaceSegs f post with
      | diverge => rw [ho] at h; simp at h
      | fail e => rw [ho] at h; simp at h
      | ok o2 =>
        rw [ho] at h
        simp only [Outcome.ok.injEq] at h
        exact ⟨[], b, o2, rfl, rfl, rfl, by simp [← h]⟩
  | cons s rest ih =>
    cases s with
    | text c =>
      rw [List.cons_append, replaceSegs_text] at h
      cases hr : replaceSegs f (rest ++ Seg.hit m :: post) with
      | diverge => rw [hr] at h; simp at h
      | fail e => rw [hr] at h; simp at h
      | ok o =>
        rw [hr] at h
        simp only [Outcome.ok.injEq] at h
        obtain ⟨o1, b, o2, h1, h2, h3, h4⟩ := ih hr
        refine ⟨c :: o1, b, o2, ?_, h2, h3, ?_⟩
        · simp only [replaceSegs, h1]
        · rw [← h, h4]; simp
    | hit m2 =>
      rw [List.cons_append, replaceSegs_hit] at h
      cases hb : f m2 with
      | diverge => rw [hb] at h; simp at h
      | fail e => rw [hb] at h; simp at h
      | ok b2 =>
        rw [hb] at h
        simp only at h
        cases hr : replaceSegs f (rest ++ Seg.hit m :: post) with
        | diverge => rw [hr] at h; simp at h
        | fail e => rw [hr] at h; simp at h
        | ok o =>
          rw [hr] at h
          simp only [Outcome.ok.injEq] at h
          obtain ⟨o1, b, o2, h1, h2, h3, h4⟩ := ih hr
          refine ⟨b2 ++ o1, b, o2, ?_, h2, h3, ?_⟩
          · simp only [replaceSegs, hb, h1]
          · rw [← h, h4]; simp

theorem replaceSegs_not_diverge {f : Str → Outcome} (segs : List Seg)
    (h : ∀ m, Seg.hit m ∈ segs → f m ≠ .diverge) : replaceSegs f segs ≠ .diverge := by
  induction segs with
  | nil => simp [replaceSegs]
  | cons s rest ih =>
    have ihr := ih (fun m hm => h m (List.mem_cons_of_mem _ hm))
    cases s with
    | text c =>
      simp only [replaceSegs]
      cases hr : replaceSegs f rest with
      | diverge => exact absurd hr ihr
      | fail e => simp
      | ok o => simp
    | hit m =>
      simp only [replaceSegs]
      have hm := h m (List.mem_cons_self _ _)
      cases hb : f m with
      | diverge => exact absurd hb hm
      | fail e => simp
      | ok b =>
        simp only
        cases hr : replaceSegs f rest with
        | diverge => exact absurd hr ihr
        | fail e => simp
        | ok o => simp

theorem replaceSegs_not_fail {f : Str → Outcome} (segs : List Seg)
    (h : ∀ m, Seg.hit m ∈ segs → ∀ e, f m ≠ .fail e) (e : Err) :
    replaceSegs f segs ≠ .fail e := by
  induction segs with
  | nil => simp [replaceSegs]
  | cons s rest ih =>
    have ihr := ih (fun m hm => h m (List.mem_cons_of_mem _ hm))
    cases s with
    | text c =>
      simp only [replaceSegs]
      cases hr : replaceSegs f rest with
      | diverge => simp
      | fail e2 => intro heq; injection heq with heq; exact ihr (heq ▸ hr)
      | ok o => simp
    | hit m =>
      simp only [replaceSegs]
      have hm := h m (List.mem_cons_self _ _)
      cases hb : f m with
      | diverge => simp
      | fail e2 => exact absurd hb (hm e2)
      | ok b =>
        simp only
        cases hr : replaceSegs f rest with
        | diverge => simp
        | fail e2 => intro heq; injection heq with heq; exact ihr (heq ▸ hr)
        | ok o => simp

/-- The closure `resolveFn` never returns an error. -/
theorem resolveFn_not_fail (fuel : Nat) (files : Files) :
    ∀ (buf : Str) (done includePath : List Str) (e : Err),
      resolveFn fuel files buf done includePath ≠ .fail e := by
  induction fuel with
  | zero => intro buf done ip e; simp [resolveFn]
  | succ n ih =>
    intro buf done ip e
    rw [resolveFn]
    unfold ReplaceAllFunc
    apply replaceSegs_not_fail
    intro m hm e2
    obtain ⟨name, hname⟩ := segments_hit _ _ _ _ hm
    have hf := findSubmatch_directive hname
    cases hd : decideInclude files done name ip with
    | suppress => rw [replaceInclude_suppress hf hd]; simp
    | preserve => rw [replaceInclude_preserve hf hd]; simp
    | inline ifn ibuf =>
      rw [replaceInclude_inline hf hd]
      cases hr : resolveFn n files ibuf (done ++ [ifn]) (ip ++ [Dir ifn]) with
      | diverge => simp
      | fail e3 => exact absurd hr (ih _ _ _ e3)
      | ok o => simp

/-! ## The decision for one directive -/

theorem lookup_mem_keys {files : Files} {k v : Str} (h : lookup files k = some v) :
    k ∈ keys files := by
  induction files with
  | nil => simp [lookup] at h
  | cons e rest ih =>
    obtain ⟨k2, v2⟩ := e
    simp only [lookup] at h
    by_cases hk : k2 = k
    · simp [keys, hk]
    · rw [if_neg hk] at h
      simp only [keys, List.map_cons, List.mem_cons]
      exact Or.inr (ih h)

theorem lookup_of_mem_keys {files : Files} {k : Str} (h : k ∈ keys files) :
    ∃ v, lookup files k = some v := by
  induction files with
  | nil => simp [keys] at h
  | cons e rest ih =>
    obtain ⟨k2, v2⟩ := e
    simp only [lookup]
    by_cases hk : k2 = k
    · exact ⟨v2, by rw [if_pos hk]⟩
    · rw [if_neg hk]
      simp only [keys, List.map_cons, List.mem_cons] at h
      rcases h with h | h
      · exact absurd h.symm hk
      · exact ih h

theorem decideInclude_inline {files : Files} {done : List Str} {fn ifn ibuf : Str} :
    ∀ {ips : List Str}, decideInclude files done fn ips = .inline ifn ibuf →
      lookup files ifn = some ibuf ∧ (∀ d ∈ done, Match d ifn = false) ∧
        ∃ ip ∈ ips, ifn = Join ip fn := by
  intro ips
  induction ips with
  | nil => intro h; simp [decideInclude] at h
  | cons ip rest ih =>
    intro h
    simp only [decideInclude] at h
    split at h
    · simp at h
    · rename_i hany
      split at h
      · rename_i ibuf2 hl
        injection h with h1 h2
        subst h1 h2
        refine ⟨hl, ?_, ip, List.mem_cons_self _ _, rfl⟩
        intro d hd
        simp only [List.any_eq_true, not_exists, not_and, Bool.not_eq_true] at hany
        exact hany d hd
      · obtain ⟨a, b, ip2, hip, hj⟩ := ih h
        exact ⟨a, b, ip2, List.mem_cons_of_mem _ hip, hj⟩

theorem decideInclude_suppress {files : Files} {done : List Str} {fn : Str} :
    ∀ {ips : List Str}, decideInclude files done fn ips = .suppress →
      ∃ ip ∈ ips, ∃ d ∈ done, Match d (Join ip fn) = true := by
  intro ips
  induction ips with
  | nil => intro h; simp [decideInclude] at h
  | cons ip rest ih =>
    intro h
    simp only [decideInclude] at h
    split at h
    · rename_i hany
      simp only [List.any_eq_true] at hany
      obtain ⟨d, hd, hm⟩ := hany
      exact ⟨ip, List.mem_cons_self _ _, d, hd, hm⟩
    · split at h
      · simp at h
      · obtain ⟨ip2, hip, hj⟩ := ih h
        exact ⟨ip2, List.mem_cons_of_mem _ hip, hj⟩

theorem decideInclude_preserve {files : Files} {done : List Str} {fn : Str} :
    ∀ {ips : List Str},
      (∀ ip ∈ ips, lookup files (Join ip fn) = none ∧ ∀ d ∈ done, Match d (Join ip fn) = false) →
      decideInclude files done fn ips = .preserve := by
  intro ips
  induction ips with
  | nil => intro _; rfl
  | cons ip rest ih =>
    intro h
    obtain ⟨hl, hm⟩ := h ip (List.mem_cons_self _ _)
    simp only [decideInclude]
    have hany : ¬ (done.any (fun dfn => Match dfn (Join ip fn)) = true) := by
      simp only [List.any_eq_true, not_exists, not_and, Bool.not_eq_true]
      exact hm
    rw [if_neg hany, hl]
    exact ih (fun q hq => h q (List.mem_cons_of_mem _ hq))

/-! ## Termination -/

/-- When every key matches itself as a glob pattern, the visited list stays a
list of pairwise distinct keys, and a recursion depth beyond the number of
files is never needed. -/
theorem resolveFn_terminates (files : Files) (H : ∀ k ∈ keys files, Match k k = true) :
    ∀ (fuel : Nat) (buf : Str) (done includePath : List Str),
      done.Nodup → (∀ d ∈ done, d ∈ keys files) →
      (keys files).length + 1 ≤ fuel + done.length →
      resolveFn fuel files buf done includePath ≠ .diverge := by
  intro fuel
  induction fuel with
  | zero =>
    intro buf done ip hnd hsub hlen
    have hle : done.length ≤ (keys files).length := (hnd.subperm hsub).length_le
    omega
  | succ n ih =>
    intro buf done ip hnd hsub hlen
    rw [resolveFn]
    unfold ReplaceAllFunc
    apply replaceSegs_not_diverge
    intro m hm
    obtain ⟨name, hname⟩ := segments_hit _ _ _ _ hm
    have hf := findSubmatch_directive hname
    cases hd : decideInclude files done name ip with
    | suppress => rw [replaceInclude_suppress hf hd]; simp
    | preserve => rw [replaceInclude_preserve hf hd]; simp
    | inline ifn ibuf =>
      rw [replaceInclude_inline hf hd]
      obtain ⟨hl, hno, _⟩ := decideInclude_inline hd
      have hkey : ifn ∈ keys files := lookup_mem_keys hl
      have hnot : ifn ∉ done := by
        intro hin
        have h1 := hno ifn hin
        rw [H ifn hkey] at h1
        exact absurd h1 (by simp)
      have hr : resolveFn n files ibuf (done ++ [ifn]) (ip ++ [Dir ifn]) ≠ .diverge := by
        apply ih
        · rw [List.nodup_append]
          refine ⟨hnd, List.nodup_singleton _, ?_⟩
          intro a ha hb
          rw [List.mem_singleton] at hb
          exact hnot (hb ▸ ha)
        · intro d hd2
          rcases List.mem_append.1 hd2 with h1 | h1
          · exact hsub d h1
          · rw [List.mem_singleton] at h1; rw [h1]; exact hkey
        · simp only [List.length_append, List.length_singleton]; omega
      cases hr2 : resolveFn n files ibuf (done ++ [ifn]) (ip ++ [Dir ifn]) with
      | diverge => exact absurd hr2 hr
      | fail e => simp
      | ok o => simp

theorem resolveLoop_terminates (files : Files) (H : ∀ k ∈ keys files, Match k k = true)
    (fuel : Nat) (hfuel : files.length ≤ fuel) (includePath : List Str) :
    ∀ (filenames : List Str) (acc : Str),
      ∃ r, resolveLoop fuel files includePath acc filenames = some r := by
  intro filenames
  induction filenames with
  | nil => intro acc; exact ⟨_, rfl⟩
  | cons fn rest ih =>
    intro acc
    simp only [resolveLoop]
    cases hl : lookup files fn with
    | none => exact ⟨_, rfl⟩
    | some buf =>
      simp only
      have hk := lookup_mem_keys hl
      have hnd : resolveFn fuel files buf [fn] (includePath ++ [Dir fn]) ≠ .diverge := by
        apply resolveFn_terminates files H
        · exact List.nodup_singleton _
        · intro d hd; rw [List.mem_singleton] at hd; rw [hd]; exact hk
        · simp only [keys, List.length_map, List.length_singleton]; omega
      cases hr : resolveFn fuel files buf [fn] (includePath ++ [Dir fn]) with
      | diverge => exact absurd hr hnd
      | fail e => exact ⟨_, rfl⟩
      | ok o => exact ih _

/-! ## Self-inclusion -/

theorem decideInclude_suppress_of {files : Files} {done : List Str} {fn ip : Str}
    (post : List Str) (hin : Join ip fn ∈ done)
    (hself : Match (Join ip fn) (Join ip fn) = true) :
    ∀ (pre : List Str), (∀ q ∈ pre, lookup files (Join q fn) = none) →
      decideInclude files done fn (pre ++ ip :: post) = .suppress := by
  intro pre
  induction pre with
  | nil =>
    intro _
    simp only [List.nil_append, decideInclude]
    have hany : done.any (fun dfn => Match dfn (Join ip fn)) = true :=
      List.any_eq_true.2 ⟨_, hin, hself⟩
    rw [if_pos hany]
  | cons q rest ih =>
    intro h
    simp only [List.cons_append, decideInclude]
    split
    · rfl
    · rw [h q (List.mem_cons_self _ _)]
      exact ih (fun x hx => h x (List.mem_cons_of_mem _ hx))

theorem bracket_diverges : ∀ (fuel : Nat) (done includePath : List Str),
    (∀ d ∈ done, d = "[.c".toList) → (∀ p ∈ includePath, p = ".".toList) →
    includePath ≠ [] →
    resolveFn fuel bracketFiles "#include \"[.c\"".toList done includePath = .diverge := by
  intro fuel
  induction fuel with
  | zero => intro done ip _ _ _; rfl
  | succ n ih =>
    intro done ip hd hp hne
    rw [resolveFn]
    unfold ReplaceAllFunc
    have hseg : segments 0 true "#include \"[.c\"".toList =
        [Seg.hit "#include \"[.c\"".toList] := by decide
    rw [hseg, replaceSegs_hit]
    have hf : findSubmatch "#include \"[.c\"".toList = some "[.c".toList := by decide
    have hdec : decideInclude bracketFiles done "[.c".toList ip =
        .inline "[.c".toList "#include \"[.c\"".toList := by
      cases ip with
      | nil => exact absurd rfl hne
      | cons p rest =>
        have hpe : p = ".".toList := hp p (List.mem_cons_self _ _)
        subst hpe
        simp only [decideInclude]
        have hj : Join ".".toList "[.c".toList = "[.c".toList := by decide
        rw [hj]
        have hany : ¬ (done.any (fun dfn => Match dfn "[.c".toList) = true) := by
          simp only [List.any_eq_true, not_exists, not_and, Bool.not_eq_true]
          intro d hdm
          rw [hd d hdm]
          decide
        rw [if_neg hany]
        rfl
    rw [replaceInclude_inline hf hdec]
    have hdir : Dir "[.c".toList = ".".toList := by decide
    rw [hdir, ih]
    · intro d hdm
      rcases List.mem_append.1 hdm with h1 | h1
      · exact hd d h1
      · simpa using h1
    · intro p hpm
      rcases List.mem_append.1 hpm with h1 | h1
      · exact hp p h1
      · simpa using h1
    · simp

/-- C3, counterexample. The file `[.c` includes itself; its name is a
malformed glob pattern, which matches nothing, so the directive is inlined at
every depth and `resolve` returns for no recursion depth. -/
theorem self_inclusion_bracket_never_returns :
    ¬ ∃ (fuel : Nat) (r : Str × Option Err),
      resolve fuel bracketFiles ["[.c".toList] [] = some r := by
  rintro ⟨fuel, r, h⟩
  have hd := bracket_diverges fuel ["[.c".toList] [".".toList] (by simp) (by simp) (by simp)
  have hl : lookup bracketFiles "[.c".toList = some "#include \"[.c\"".toList := by decide
  have hdir : Dir "[.c".toList = ".".toList := by decide
  simp only [resolve, resolveLoop, hl, List.nil_append, hdir, hd] at h
  exact absurd h (by simp)

/-- C3, amended. When every key of the file set matches itself as a glob
pattern (a key without `*`, `?`, `[` and backslash does), `resolve` returns
for every entry list once the recursion depth reaches the number of files, and
a directive whose name, under the first search-path prefix that gives a key,
gives a key already on the visited list is replaced with nothing. -/
theorem self_inclusion_safety (files : Files) (H : ∀ k ∈ keys files, Match k k = true) :
    (∀ (fuel : Nat) (filenames includePath : List Str), files.length ≤ fuel →
      ∃ r, resolve fuel files filenames includePath = some r) ∧
    (∀ (recur : Str → List Str → List Str → Outcome) (done pre post : List Str)
        (ip m name : Str),
      IsDirectiveNamed m name →
      (∀ q ∈ pre, lookup files (Join q name) = none) →
      Join ip name ∈ keys files → Join ip name ∈ done →
      replaceInclude recur files done (pre ++ ip :: post) m = .ok []) := by
  constructor
  · intro fuel filenames includePath hfuel
    exact resolveLoop_terminates files H fuel hfuel includePath filenames []
  · intro recur done pre post ip m name hm hpre hkey hdone
    exact replaceInclude_suppress (findSubmatch_directive hm)
      (decideInclude_suppress_of post hdone (H _ hkey) pre hpre)

/-- C3, witness: the file `a.c` that includes itself. -/
theorem self_inclusion_safety_witness :
    (∀ k ∈ keys selfFiles, Match k k = true) ∧
    (∃ r, resolve 1 selfFiles ["a.c".toList] [] = some r) ∧
    replaceInclude (resolveFn 0 selfFiles) selfFiles ["a.c".toList] ([] ++ ".".toList :: [])
      "\n#include \"a.c\"".toList = .ok [] :=
  ⟨by decide,
   (self_inclusion_safety selfFiles (by decide)).1 1 ["a.c".toList] [] (by decide),
   (self_inclusion_safety selfFiles (by decide)).2 (resolveFn 0 selfFiles) ["a.c".toList] [] []
     ".".toList "\n#include \"a.c\"".toList "a.c".toList
     ⟨['\n'], [], [' '], '"', '"', by decide, by decide, by decide, by decide, by decide,
       by decide, by decide, by decide, by decide⟩
     (by decide) (by decide) (by decide)⟩

/-! ## The loop over the entry files -/

theorem resolveLoop_ok_iff (fuel : Nat) (files : Files) (includePath : List Str) :
    ∀ (filenames : List Str) (acc r : Str),
      resolveLoop fuel files includePath acc filenames = some (r, none) ↔
      ∃ outs : List Str,
        List.Forall₂ (fun e o => ∃ buf, lookup files e = some buf ∧
          resolveFn fuel files buf [e] (includePath ++ [Dir e]) = .ok o) filenames outs ∧
        r = acc ++ (outs.map (fun o => o ++ nl2)).flatten := by
  intro filenames
  induction filenames with
  | nil =>
    intro acc r
    simp only [resolveLoop, Option.some.injEq, Prod.mk.injEq, and_true]
    constructor
    · intro h; exact ⟨[], List.Forall₂.nil, by simp [h]⟩
    · rintro ⟨outs, hf, hr⟩
      cases hf
      simp [hr]
  | cons fn rest ih =>
    intro acc r
    simp only [resolveLoop]
    constructor
    · intro h
      cases hl : lookup files fn with
      | none => rw [hl] at h; simp at h
      | some buf =>
        rw [hl] at h
        simp only at h
        cases hr : resolveFn fuel files buf [fn] (includePath ++ [Dir fn]) with
        | diverge => rw [hr] at h; simp at h
        | fail e => rw [hr] at h; simp at h
        | ok out =>
          rw [hr] at h
          obtain ⟨outs, hf, hro⟩ := (ih _ _).1 h
          refine ⟨out :: outs, List.Forall₂.cons ⟨buf, hl, hr⟩ hf, ?_⟩
          rw [hro]; simp [List.append_assoc]
    · rintro ⟨outs, hf, hr⟩
      cases hf with
      | cons hhead htail =>
        rename_i o os
        obtain ⟨buf, hl, hres⟩ := hhead
        rw [hl]
        simp only [hres]
        apply (ih _ _).2
        refine ⟨os, htail, ?_⟩
        rw [hr]; simp [List.append_assoc]

theorem resolveLoop_prefix (fuel : Nat) (files : Files) (includePath : List Str)
    (rest : List Str) :
    ∀ (pre : List Str) (acc : Str),
      (∀ e ∈ pre, ∃ buf, lookup files e = some buf ∧
        resolveFn fuel files buf [e] (includePath ++ [Dir e]) ≠ .diverge) →
      ∃ acc2, resolveLoop fuel files includePath acc (pre ++ rest) =
        resolveLoop fuel files includePath acc2 rest := by
  intro pre
  induction pre with
  | nil => intro acc _; exact ⟨acc, rfl⟩
  | cons e es ih =>
    intro acc h
    obtain ⟨buf, hl, hnd⟩ := h e (List.mem_cons_self _ _)
    simp only [List.cons_append, resolveLoop, hl]
    cases hr : resolveFn fuel files buf [e] (includePath ++ [Dir e]) with
    | diverge => exact absurd hr hnd
    | fail err => exact absurd hr (resolveFn_not_fail _ _ _ _ _ _)
    | ok out => exact ih _ (fun x hx => h x (List.mem_cons_of_mem _ hx))

theorem escapedRune_plain (table : Char → Bool) {c : Char} (h1 : c ≠ '"') (h2 : c ≠ bslash)
    (h3 : IsPrint table c = true) : escapedRune table c = [c] := by
  unfold escapedRune
  rw [if_neg (by simp [h1, h2]), if_pos h3]

theorem Quote_plain (table : Char → Bool) (p : Str)
    (h : ∀ c ∈ p, c ≠ '"' ∧ c ≠ bslash ∧ IsPrint table c = true) :
    Quote table p = '"' :: (p ++ ['"']) := by
  unfold Quote
  congr 2
  induction p with
  | nil => rfl
  | cons c t ih =>
    obtain ⟨h1, h2, h3⟩ := h c (List.mem_cons_self _ _)
    rw [List.flatMap_cons, escapedRune_plain table h1 h2 h3,
      ih (fun x hx => h x (List.mem_cons_of_mem _ hx))]
    rfl

/-- C5, counterexample. The entry `x"y` is absent; the message quotes it in Go
syntax as `"x\"y"`, in which the path `x"y` does not occur. -/
theorem missing_entry_quoted :
    resolve 0 [] ["x\"y".toList] [] = some ([], some (.notFound "x\"y".toList)) ∧
    ¬ ∃ table : Char → Bool,
      "x\"y".toList <:+: (Err.notFound "x\"y".toList).Error table := by
  refine ⟨by decide, ?_⟩
  rintro ⟨table, h⟩
  have e : (Err.notFound "x\"y".toList).Error table = "file \"x\\\"y\": not found".toList := by
    rfl
  rw [e] at h
  revert h
  decide

/-- C5, amended. When the entries before the first absent path `p` are present
and their resolution returns, `resolve` returns the error
`file <p quoted>: not found` with nil content, whatever was accumulated for
the entries before it; the quoting is that of `%#v` (`strconv.Quote`), so the
message holds `p` itself between double quotes when `p` consists of printable
characters other than the double quote and the backslash. -/
theorem missing_entry (table : Char → Bool) (fuel : Nat) (files : Files)
    (pre post includePath : List Str) (p : Str)
    (hpre : ∀ e ∈ pre, ∃ buf, lookup files e = some buf ∧
      resolveFn fuel files buf [e] (includePath ++ [Dir e]) ≠ .diverge)
    (hp : lookup files p = none) :
    resolve fuel files (pre ++ p :: post) includePath = some ([], some (.notFound p)) ∧
    (Err.notFound p).Error table = "file ".toList ++ Quote table p ++ ": not found".toList ∧
    ((∀ c ∈ p, c ≠ '"' ∧ c ≠ bslash ∧ IsPrint table c = true) →
      (Err.notFound p).Error table = "file \"".toList ++ p ++ "\": not found".toList) := by
  refine ⟨?_, rfl, ?_⟩
  · obtain ⟨acc2, h⟩ := resolveLoop_prefix fuel files includePath (p :: post) pre [] hpre
    unfold resolve
    rw [h]
    simp only [resolveLoop, hp]
  · intro hplain
    show "file ".toList ++ Quote table p ++ ": not found".toList = _
    rw [Quote_plain table p hplain]
    simp [List.append_assoc]

/-- C5, witness: in the scenario's file set the entry list `a.c`, `zz.c`. -/
theorem missing_entry_witness :
    lookup scenarioFiles "zz.c".toList = none ∧
    resolve 3 scenarioFiles (["a.c".toList] ++ "zz.c".toList :: []) [] =
      some ([], some (.notFound "zz.c".toList)) ∧
    (Err.notFound "zz.c".toList).Error (fun _ => true) = "file \"zz.c\": not found".toList :=
  have h := missing_entry (fun _ => true) 3 scenarioFiles ["a.c".toList] [] [] "zz.c".toList
    (by decide) (by decide)
  ⟨by decide, h.1, h.2.2 (by decide)⟩

/-- C6. When `resolve` succeeds on the entry lists `L1` and `L2` it succeeds on
`L1 ++ L2` with the concatenation of the two outputs; the output for a list is
the concatenation, entry by entry, of the entry's content resolved with the
visited list `[e]` and the search path `[Dir e]`, followed by two newlines. -/
theorem entry_independence (fuel : Nat) (files : Files) (L1 L2 : List Str) (r1 r2 : Str)
    (h1 : resolve fuel files L1 [] = some (r1, none))
    (h2 : resolve fuel files L2 [] = some (r2, none)) :
    resolve fuel files (L1 ++ L2) [] = some (r1 ++ r2, none) ∧
    ∃ outs1 outs2 : List Str,
      List.Forall₂ (fun e o => ∃ buf, lookup files e = some buf ∧
        resolveFn fuel files buf [e] [Dir e] = .ok o) L1 outs1 ∧
      List.Forall₂ (fun e o => ∃ buf, lookup files e = some buf ∧
        resolveFn fuel files buf [e] [Dir e] = .ok o) L2 outs2 ∧
      r1 = (outs1.map (fun o => o ++ nl2)).flatten ∧
      r2 = (outs2.map (fun o => o ++ nl2)).flatten := by
  obtain ⟨outs1, hf1, hr1⟩ := (resolveLoop_ok_iff fuel files [] L1 [] r1).1 h1
  obtain ⟨outs2, hf2, hr2⟩ := (resolveLoop_ok_iff fuel files [] L2 [] r2).1 h2
  refine ⟨?_, outs1, outs2, hf1, hf2, by simpa using hr1, by simpa using hr2⟩
  apply (resolveLoop_ok_iff fuel files [] (L1 ++ L2) [] (r1 ++ r2)).2
  refine ⟨outs1 ++ outs2, ?_, ?_⟩
  · exact List.rel_append hf1 hf2
  · rw [hr1, hr2]; simp

/-- C6, witness: the scenario's entries `a.c` and `b.h`, each of which inlines
`c.h` in full. -/
theorem entry_independence_witness :
    resolve 3 scenarioFiles (["a.c".toList] ++ ["b.h".toList]) [] =
      some (scenarioOutput ++ "\n\nVALUE z;\n\n\nTYPE y;\n\n".toList, none) :=
  (entry_independence 3 scenarioFiles ["a.c".toList] ["b.h".toList] scenarioOutput
    "\n\nVALUE z;\n\n\nTYPE y;\n\n".toList (by decide) (by decide)).1

/-! ## Where the matches lie -/

theorem segments_cons_zero_hit {c : Char} {t : Str} {bol : Bool} {n : Nat}
    (h : (if bol then matchDirective (c :: t) else none) = some n) :
    segments 0 bol (c :: t) = Seg.hit ((c :: t).take n) :: segments (n - 1) false t := by
  simp only [segments, h]

theorem segments_cons_zero_text {c : Char} {t : Str} {bol : Bool}
    (h : (if bol then matchDirective (c :: t) else none) = none) :
    segments 0 bol (c :: t) = Seg.text c :: segments 0 (c = '\n') t := by
  simp only [segments, h]

/-- A match is the first piece of a scan that starts at a line start, or comes
right after a newline. -/
theorem segments_hit_after (s : Str) : ∀ (skip : Nat) (bol : Bool) (pre post : List Seg)
    (m : Str), segments skip bol s = pre ++ Seg.hit m :: post →
    (pre = [] ∧ skip = 0 ∧ bol = true) ∨ ∃ pre2, pre = pre2 ++ [Seg.text '\n'] := by
  induction s with
  | nil => intro skip bol pre post m h; simp [segments] at h
  | cons c t ih =>
    intro skip bol pre post m h
    cases skip with
    | succ j =>
      simp only [segments] at h
      rcases ih j false pre post m h with ⟨_, _, hb⟩ | hx
      · exact absurd hb (by simp)
      · exact Or.inr hx
    | zero =>
      cases hmd : (if bol then matchDirective (c :: t) else none) with
      | some n =>
        rw [segments_cons_zero_hit hmd] at h
        cases pre with
        | nil =>
          refine Or.inl ⟨rfl, rfl, ?_⟩
          cases bol with
          | true => rfl
          | false => simp at hmd
        | cons x pre2 =>
          rw [List.cons_append] at h
          injection h with hx hrest
          rcases ih _ false pre2 post m hrest with ⟨_, _, hb⟩ | ⟨p, hp⟩
          · exact absurd hb (by simp)
          · exact Or.inr ⟨x :: p, by rw [hp]; rfl⟩
      | none =>
        rw [segments_cons_zero_text hmd] at h
        cases pre with
        | nil => rw [List.nil_append] at h; injection h with hx _; cases hx
        | cons x pre2 =>
          rw [List.cons_append] at h
          injection h with hx hrest
          rcases ih _ _ pre2 post m hrest with ⟨hp, _, hb⟩ | ⟨p, hp⟩
          · have hc : c = '\n' := by simpa using hb
            refine Or.inr ⟨[], ?_⟩
            rw [hp, ← hx, hc]; rfl
          · exact Or.inr ⟨x :: p, by rw [hp]; rfl⟩

/-- A match ends at the end of the buffer or right before a newline. -/
theorem segments_hit_before (s : Str) : ∀ (skip : Nat) (bol : Bool) (pre post : List Seg)
    (m : Str), segments skip bol s = pre ++ Seg.hit m :: post →
    atLineEnd (post.map Seg.src).flatten = true := by
  induction s with
  | nil => intro skip bol pre post m h; simp [segments] at h
  | cons c t ih =>
    intro skip bol pre post m h
    cases skip with
    | succ j => simp only [segments] at h; exact ih j false pre post m h
    | zero =>
      cases hmd : (if bol then matchDirective (c :: t) else none) with
      | some n =>
        rw [segments_cons_zero_hit hmd] at h
        have hmd2 : matchDirective (c :: t) = some n := by
          cases bol with
          | true => simpa using hmd
          | false => simp at hmd
        cases pre with
        | nil =>
          rw [List.nil_append] at h
          injection h with _ hrest
          rw [← hrest, segments_src]
          have hpos := (matchDirective_pos hmd2).1
          have : t.drop (n - 1) = (c :: t).drop n := by
            cases n with
            | zero => omega
            | succ j => simp
          rw [this]
          exact (matchDirective_take hmd2).2
        | cons x pre2 =>
          rw [List.cons_append] at h
          injection h with _ hrest
          exact ih _ _ pre2 post m hrest
      | none =>
        rw [segments_cons_zero_text hmd] at h
        cases pre with
        | nil => rw [List.nil_append] at h; injection h with hx _; cases hx
        | cons x pre2 =>
          rw [List.cons_append] at h
          injection h with _ hrest
          exact ih _ _ pre2 post m hrest

/-- A character outside the matches that stands at a line start does not
begin a match. -/
theorem segments_text_no_match (s : Str) : ∀ (skip : Nat) (bol : Bool) (pre post : List Seg)
    (c : Char), segments skip bol s = pre ++ Seg.text c :: post →
    ((pre = [] ∧ skip = 0 ∧ bol = true) ∨ ∃ pre2, pre = pre2 ++ [Seg.text '\n']) →
    matchDirective (c :: (post.map Seg.src).flatten) = none := by
  induction s with
  | nil => intro skip bol pre post c h; simp [segments] at h
  | cons a t ih =>
    intro skip bol pre post c h hpre
    cases skip with
    | succ j =>
      simp only [segments] at h
      apply ih j false pre post c h
      rcases hpre with ⟨_, hk, _⟩ | hx
      · exact absurd hk (by simp)
      · exact Or.inr hx
    | zero =>
      cases hmd : (if bol then matchDirective (a :: t) else none) with
      | some n =>
        rw [segments_cons_zero_hit hmd] at h
        cases pre with
        | nil => rw [List.nil_append] at h; injection h with hx _; cases hx
        | cons x pre2 =>
          rw [List.cons_append] at h
          injection h with hx hrest
          apply ih _ _ pre2 post c hrest
          rcases hpre with ⟨hp, _, _⟩ | ⟨p, hp⟩
          · cases hp
          · right
            cases p with
            | nil =>
              simp only [List.nil_append, List.cons.injEq] at hp
              rw [← hx] at hp
              exact absurd hp.1 (by simp)
            | cons y p2 =>
              simp only [List.cons_append, List.cons.injEq] at hp
              exact ⟨p2, hp.2⟩
      | none =>
        rw [segments_cons_zero_text hmd] at h
        cases pre with
        | nil =>
          rw [List.nil_append] at h
          injection h with hx hrest
          injection hx with hx
          rcases hpre with ⟨_, _, hb⟩ | ⟨p, hp⟩
          · rw [hb] at hmd
            rw [← hrest, segments_src, ← hx]
            simpa using hmd
          · cases p <;> simp at hp
        | cons x pre2 =>
          rw [List.cons_append] at h
          injection h with hx hrest
          apply ih _ _ pre2 post c hrest
          rcases hpre with ⟨hp, _, _⟩ | ⟨p, hp⟩
          · cases hp
          · cases p with
            | nil =>
              simp only [List.nil_append, List.cons.injEq] at hp
              left
              refine ⟨hp.2, rfl, ?_⟩
              rw [← hx] at hp
              have : a = '\n' := by simpa using hp.1
              simp [this]
            | cons y p2 =>
              simp only [List.cons_append, List.cons.injEq] at hp
              exact Or.inr ⟨p2, hp.2⟩

/-! ## The shape of the output -/

theorem replaceSegs_ok_blocks {f : Str → Outcome} {Q : Str → Str → Prop} :
    ∀ (segs : List Seg) (out : Str),
      (∀ m b, Seg.hit m ∈ segs → f m = .ok b → Q m b) →
      replaceSegs f segs = .ok out →
      ∃ blocks : List Str, List.Forall₂ (Replaced Q) segs blocks ∧ out = blocks.flatten := by
  intro segs
  induction segs with
  | nil =>
    intro out _ h
    simp only [replaceSegs, Outcome.ok.injEq] at h
    exact ⟨[], List.Forall₂.nil, by simp [← h]⟩
  | cons s rest ih =>
    intro out hQ h
    have hQr : ∀ m b, Seg.hit m ∈ rest → f m = .ok b → Q m b :=
      fun m b hm hb => hQ m b (List.mem_cons_of_mem _ hm) hb
    cases s with
    | text c =>
      rw [replaceSegs_text] at h
      cases hr : replaceSegs f rest with
      | diverge => rw [hr] at h; simp at h
      | fail e => rw [hr] at h; simp at h
      | ok o =>
        rw [hr] at h
        simp only [Outcome.ok.injEq] at h
        obtain ⟨blocks, hf, ho⟩ := ih o hQr hr
        exact ⟨[c] :: blocks, List.Forall₂.cons rfl hf, by simp [← h, ho]⟩
    | hit m =>
      rw [replaceSegs_hit] at h
      cases hb : f m with
      | diverge => rw [hb] at h; simp at h
      | fail e => rw [hb] at h; simp at h
      | ok b =>
        rw [hb] at h
        simp only at h
        cases hr : replaceSegs f rest with
        | diverge => rw [hr] at h; simp at h
        | fail e => rw [hr] at h; simp at h
        | ok o =>
          rw [hr] at h
          simp only [Outcome.ok.injEq] at h
          obtain ⟨blocks, hf, ho⟩ := ih o hQr hr
          exact ⟨b :: blocks, List.Forall₂.cons (hQ m b (List.mem_cons_self _ _) hb) hf,
            by simp [← h, ho]⟩

theorem replaceInclude_ok_shape {r : Str → List Str → List Str → Outcome} {files : Files}
    {done includePath : List Str} {m b : Str}
    (h : replaceInclude r files done includePath m = .ok b) :
    b = m ∨ b = [] ∨ ∃ x, b = nl2 ++ x ++ nl2 := by
  cases hf : findSubmatch m with
  | none => rw [replaceInclude_none hf] at h; simp at h
  | some fn =>
    cases hd : decideInclude files done fn includePath with
    | suppress =>
      rw [replaceInclude_suppress hf hd] at h
      injection h with h; exact Or.inr (Or.inl h.symm)
    | preserve =>
      rw [replaceInclude_preserve hf hd] at h
      injection h with h; exact Or.inl h.symm
    | inline ifn ibuf =>
      rw [replaceInclude_inline hf hd] at h
      cases hr : r ibuf (done ++ [ifn]) (includePath ++ [Dir ifn]) with
      | diverge => rw [hr] at h; simp at h
      | fail e => rw [hr] at h; simp at h
      | ok o =>
        rw [hr] at h
        injection h with h; exact Or.inr (Or.inr ⟨o, h.symm⟩)

/-- C7, counterexample. The file holds `int a;`, a blank line and a directive
that is suppressed: the match starts at the blank line, whose newline goes
with it, so the text before the directive's line is not kept. -/
theorem blank_line_before_directive_lost :
    resolveFn 1 blankFiles "int a;\n\n#include \"a.c\"".toList ["a.c".toList] [".".toList] =
      .ok "int a;\n".toList ∧
    ¬ ("int a;\n\n".toList <+: "int a;\n".toList) := by
  constructor <;> decide

/-- C7, amended. The resolved output is the buffer with each match of the
include pattern replaced by its block and every character outside the matches
copied in place and in order.  A match is a text of the pattern's language
(blanks, `#`, blanks, `include`, blanks, delimited name) that starts at the
beginning of the buffer or right after a newline and ends at the end of the
buffer or right before a newline; its blanks may be newlines, so the blank
lines immediately before the `#` belong to the match and are replaced with it.
The block is the match itself, nothing, or a resolved content framed by two
newlines on each side.  No character copied from a line start begins a text
of the pattern that ends at a line end. -/
theorem non_include_text_preserved (fuel : Nat) (files : Files) (buf : Str)
    (done includePath : List Str) (out : Str)
    (h : resolveFn fuel files buf done includePath = .ok out) :
    buf = ((segments 0 true buf).map Seg.src).flatten ∧
    (∃ blocks : List Str,
      List.Forall₂
        (Replaced (fun m b => IsDirective m ∧ (b = m ∨ b = [] ∨ ∃ x, b = nl2 ++ x ++ nl2)))
        (segments 0 true buf) blocks ∧
      out = blocks.flatten) ∧
    (∀ (pre post : List Seg) (m : Str), segments 0 true buf = pre ++ Seg.hit m :: post →
      (pre = [] ∨ ∃ pre2, pre = pre2 ++ [Seg.text '\n']) ∧
      atLineEnd (post.map Seg.src).flatten = true) ∧
    (∀ (pre post : List Seg) (c : Char), segments 0 true buf = pre ++ Seg.text c :: post →
      (pre = [] ∨ ∃ pre2, pre = pre2 ++ [Seg.text '\n']) →
      ¬ ∃ m rest, c :: (post.map Seg.src).flatten = m ++ rest ∧ IsDirective m ∧
        atLineEnd rest = true) := by
  refine ⟨?_, ?_, ?_, ?_⟩
  · rw [segments_src]; rfl
  · cases fuel with
    | zero => simp [resolveFn] at h
    | succ n =>
      rw [resolveFn] at h
      unfold ReplaceAllFunc at h
      exact replaceSegs_ok_blocks _ out
        (fun m b hm hb => ⟨segments_hit _ _ _ _ hm, replaceInclude_ok_shape hb⟩) h
  · intro pre post m hseg
    constructor
    · rcases segments_hit_after _ _ _ _ _ _ hseg with ⟨hp, _, _⟩ | hx
      · exact Or.inl hp
      · exact Or.inr hx
    · exact segments_hit_before _ _ _ _ _ _ hseg
  · rintro pre post c hseg hpre ⟨m, rest, hsplit, ⟨name, hm⟩, hend⟩
    have hnone := segments_text_no_match _ _ _ _ _ _ hseg
      (hpre.elim (fun hp => Or.inl ⟨hp, rfl, rfl⟩) Or.inr)
    rw [hsplit, matchDirective_complete rest hm hend] at hnone
    exact absurd hnone (by simp)

/-- C7, witness: the buffer of the counterexample. -/
theorem non_include_text_preserved_witness :
    ∃ blocks : List Str,
      List.Forall₂
        (Replaced (fun m b => IsDirective m ∧ (b = m ∨ b = [] ∨ ∃ x, b = nl2 ++ x ++ nl2)))
        (segments 0 true "int a;\n\n#include \"a.c\"".toList) blocks ∧
      "int a;\n".toList = blocks.flatten :=
  (non_include_text_preserved 1 blankFiles "int a;\n\n#include \"a.c\"".toList ["a.c".toList]
    [".".toList] "int a;\n".toList (by decide)).2.1

/-! ## Preservation -/

/-- C4. The entry file is named `*` and holds `#include <stdio.h>`; the name
`stdio.h` joined with the only search-path prefix is not a key and no file of
that name was ever inlined, yet it matches the visited pattern `*` under
`path.Match`, and the directive is replaced with nothing instead of being
reproduced: the output of `resolve` is two newlines. -/
theorem preserved_unless_glob_matches :
    (∀ ip ∈ [Dir "*".toList], lookup starFiles (Join ip "stdio.h".toList) = none) ∧
    resolve 1 starFiles ["*".toList] [] = some (nl2, none) ∧
    ¬ ("#include <stdio.h>".toList <:+: nl2) := by
  refine ⟨by decide, by decide, by decide⟩

/-- A directive found in a buffer whose name, joined with each prefix of the
search path, is never a key of the file set and never matches a pattern of the
visited list, is reproduced character for character, blanks and delimiters as
they were, between the outputs for what precedes and for what follows it. -/
theorem preservation (fuel : Nat) (files : Files) (buf : Str) (done includePath : List Str)
    (out : Str) (pre post : List Seg) (m name : Str)
    (h : resolveFn (fuel + 1) files buf done includePath = .ok out)
    (hseg : segments 0 true buf = pre ++ Seg.hit m :: post)
    (hname : IsDirectiveNamed m name)
    (hno : ∀ ip ∈ includePath, lookup files (Join ip name) = none ∧
      ∀ d ∈ done, Match d (Join ip name) = false) :
    ∃ o1 o2 : Str,
      replaceSegs (replaceInclude (resolveFn fuel files) files done includePath) pre = .ok o1 ∧
      replaceSegs (replaceInclude (resolveFn fuel files) files done includePath) post = .ok o2 ∧
      out = o1 ++ m ++ o2 := by
  rw [resolveFn] at h
  unfold ReplaceAllFunc at h
  rw [hseg] at h
  obtain ⟨o1, b, o2, h1, h2, h3, h4⟩ := replaceSegs_hit_ok h
  rw [replaceInclude_preserve (findSubmatch_directive hname) (decideInclude_preserve hno)] at h2
  injection h2 with h2
  exact ⟨o1, o2, h1, h3, by rw [h4, h2]⟩

/-- A system header between two lines of text is reproduced. -/
theorem preservation_witness :
    ∃ o1 o2 : Str,
      replaceSegs (replaceInclude (resolveFn 0 scenarioFiles) scenarioFiles ["a.c".toList]
        [".".toList]) [Seg.text 'x', Seg.text '\n'] = .ok o1 ∧
      replaceSegs (replaceInclude (resolveFn 0 scenarioFiles) scenarioFiles ["a.c".toList]
        [".".toList]) [Seg.text '\n', Seg.text 'y'] = .ok o2 ∧
      "x\n  #include <stdio.h>\ny".toList = o1 ++ "  #include <stdio.h>".toList ++ o2 :=
  preservation 0 scenarioFiles "x\n  #include <stdio.h>\ny".toList ["a.c".toList] [".".toList]
    "x\n  #include <stdio.h>\ny".toList [Seg.text 'x', Seg.text '\n']
    [Seg.text '\n', Seg.text 'y'] "  #include <stdio.h>".toList "stdio.h".toList
    (by decide) (by decide)
    ⟨[' ', ' '], [], [' '], '<', '>', by decide, by decide, by decide, by decide, by decide,
      by decide, by decide, by decide, by decide⟩
    (by decide)

/-! ## Repeated inclusion -/

/-- C2, counterexample. `a.c` includes `b.h` twice directly: both directives
are inlined, and the content `B` shows twice; the same happens when the second
inclusion comes through the sibling `c.h`. -/
theorem duplicate_is_inlined_twice :
    resolve 2 dupFiles ["a.c".toList] [] =
      some ("\n\nB\n\n".toList ++ "\n".toList ++ "\n\nB\n\n".toList ++ nl2, none) ∧
    resolve 3 dupViaFiles ["a.c".toList] [] =
      some ("\n\nB\n\n".toList ++ "\n".toList ++ (nl2 ++ "\n\nB\n\n".toList ++ nl2) ++ nl2,
        none) := by
  constructor <;> decide

theorem isDirectiveNamed_ne_nil {m name : Str} (h : IsDirectiveNamed m name) : m ≠ [] := by
  obtain ⟨ws1, ws2, ws3, o, c, rfl, _⟩ := h
  simp

/-- C2, amended. Two directives of one buffer that name the same file are
decided against the same visited list, which the inlining of the first does
not extend: when the file is inlined at the first directive it is inlined
again in full at the second, each directive being replaced by two newlines,
the resolved content of the file and two newlines, between the outputs for the
text before, between and after the two directives.  A directive is replaced
with nothing only when its name, joined with some search-path prefix, matches
a pattern of the visited list under `path.Match`. -/
theorem duplicate_inlined_again (fuel : Nat) (files : Files) (buf : Str)
    (done includePath : List Str) (out : Str) (s1 s2 s3 : List Seg)
    (m1 m2 name ifn ibuf : Str)
    (h : resolveFn (fuel + 1) files buf done includePath = .ok out)
    (hseg : segments 0 true buf = s1 ++ Seg.hit m1 :: (s2 ++ Seg.hit m2 :: s3))
    (h1 : IsDirectiveNamed m1 name) (h2 : IsDirectiveNamed m2 name)
    (hd : decideInclude files done name includePath = .inline ifn ibuf) :
    (∃ x o1 o2 o3 : Str,
      resolveFn fuel files ibuf (done ++ [ifn]) (includePath ++ [Dir ifn]) = .ok x ∧
      replaceInclude (resolveFn fuel files) files done includePath m1 = .ok (nl2 ++ x ++ nl2) ∧
      replaceInclude (resolveFn fuel files) files done includePath m2 = .ok (nl2 ++ x ++ nl2) ∧
      replaceSegs (replaceInclude (resolveFn fuel files) files done includePath) s1 = .ok o1 ∧
      replaceSegs (replaceInclude (resolveFn fuel files) files done includePath) s2 = .ok o2 ∧
      replaceSegs (replaceInclude (resolveFn fuel files) files done includePath) s3 = .ok o3 ∧
      out = o1 ++ (nl2 ++ x ++ nl2) ++ o2 ++ (nl2 ++ x ++ nl2) ++ o3) ∧
    (∀ (recur : Str → List Str → List Str → Outcome) (m n : Str),
      IsDirectiveNamed m n → replaceInclude recur files done includePath m = .ok [] →
      ∃ ip ∈ includePath, ∃ d ∈ done, Match d (Join ip n) = true) := by
  constructor
  · rw [resolveFn] at h
    unfold ReplaceAllFunc at h
    rw [hseg] at h
    obtain ⟨o1, b1, rest, hr1, hb1, hrest, hout⟩ := replaceSegs_hit_ok h
    obtain ⟨o2, b2, o3, hr2, hb2, hr3, hout2⟩ := replaceSegs_hit_ok hrest
    have e1 := @replaceInclude_inline (resolveFn fuel files) files done includePath m1 name
      ifn ibuf (findSubmatch_directive h1) hd
    have e2 := @replaceInclude_inline (resolveFn fuel files) files done includePath m2 name
      ifn ibuf (findSubmatch_directive h2) hd
    rw [e1] at hb1
    rw [e2] at hb2
    cases hx : resolveFn fuel files ibuf (done ++ [ifn]) (includePath ++ [Dir ifn]) with
    | diverge => rw [hx] at hb1; simp at hb1
    | fail e => rw [hx] at hb1; simp at hb1
    | ok x =>
      rw [hx] at hb1 hb2 e1 e2
      injection hb1 with hb1
      injection hb2 with hb2
      refine ⟨x, o1, o2, o3, rfl, e1, e2, hr1, hr2, hr3, ?_⟩
      rw [hout, hout2, ← hb1, ← hb2]
      simp [List.append_assoc]
  · intro recur m n hm hnil
    have hf := findSubmatch_directive hm
    cases hdm : decideInclude files done n includePath with
    | suppress => exact decideInclude_suppress hdm
    | preserve =>
      rw [replaceInclude_preserve hf hdm] at hnil
      injection hnil with hnil
      exact absurd hnil (isDirectiveNamed_ne_nil hm)
    | inline ifn2 ibuf2 =>
      rw [replaceInclude_inline hf hdm] at hnil
      cases hr : recur ibuf2 (done ++ [ifn2]) (includePath ++ [Dir ifn2]) with
      | diverge => rw [hr] at hnil; simp at hnil
      | fail e => rw [hr] at hnil; simp at hnil
      | ok o =>
        rw [hr] at hnil
        injection hnil with hnil
        simp [nl2] at hnil

/-- C2, witness: the file `a.c` that includes `b.h` twice; the two blocks
stand where the two directives stood, with the newline between them. -/
theorem duplicate_inlined_again_witness :
    ∃ x o1 o2 o3 : Str,
      resolveFn 1 dupFiles "B".toList (["a.c".toList] ++ ["b.h".toList])
        ([".".toList] ++ [Dir "b.h".toList]) = .ok x ∧
      replaceInclude (resolveFn 1 dupFiles) dupFiles ["a.c".toList] [".".toList]
        "#include \"b.h\"".toList = .ok (nl2 ++ x ++ nl2) ∧
      replaceInclude (resolveFn 1 dupFiles) dupFiles ["a.c".toList] [".".toList]
        "#include \"b.h\"".toList = .ok (nl2 ++ x ++ nl2) ∧
      replaceSegs (replaceInclude (resolveFn 1 dupFiles) dupFiles ["a.c".toList]
        [".".toList]) [] = .ok o1 ∧
      replaceSegs (replaceInclude (resolveFn 1 dupFiles) dupFiles ["a.c".toList]
        [".".toList]) [Seg.text '\n'] = .ok o2 ∧
      replaceSegs (replaceInclude (resolveFn 1 dupFiles) dupFiles ["a.c".toList]
        [".".toList]) [] = .ok o3 ∧
      "\n\nB\n\n\n\n\nB\n\n".toList =
        o1 ++ (nl2 ++ x ++ nl2) ++ o2 ++ (nl2 ++ x ++ nl2) ++ o3 :=
  (duplicate_inlined_again 1 dupFiles "#include \"b.h\"\n#include \"b.h\"".toList
    ["a.c".toList] [".".toList] "\n\nB\n\n\n\n\nB\n\n".toList [] [Seg.text '\n'] []
    "#include \"b.h\"".toList "#include \"b.h\"".toList "b.h".toList "b.h".toList "B".toList
    (by decide) (by decide)
    ⟨[], [], [' '], '"', '"', by decide, by decide, by decide, by decide, by decide,
      by decide, by decide, by decide, by decide⟩
    ⟨[], [], [' '], '"', '"', by decide, by decide, by decide, by decide, by decide,
      by decide, by decide, by decide, by decide⟩
    (by decide)).1

/-! ## Function `bytes.ReplaceAll` -/

theorem replaceLoop_skip (old new : Str) : ∀ (s : Str) (k : Nat),
    replaceLoop old new k s = replaceLoop old new 0 (s.drop k) := by
  intro s
  induction s with
  | nil => intro k; cases k <;> rfl
  | cons c t ih =>
    intro k
    cases k with
    | zero => rfl
    | succ j => simp only [replaceLoop, List.drop_succ_cons]; exact ih j

theorem replaceLoop_hit (old new : Str) (c : Char) (t : Str) (hne : old ≠ [])
    (h : old <+: c :: t) :
    replaceLoop old new 0 (c :: t) = new ++ replaceLoop old new 0 ((c :: t).drop old.length) := by
  have hp : old.isPrefixOf (c :: t) = true := List.isPrefixOf_iff_prefix.2 h
  rw [replaceLoop, if_pos hp, replaceLoop_skip]
  cases old with
  | nil => exact absurd rfl hne
  | cons a o => simp

theorem replaceLoop_miss (old new : Str) (c : Char) (t : Str) (h : ¬ old <+: c :: t) :
    replaceLoop old new 0 (c :: t) = c :: replaceLoop old new 0 t := by
  have hp : ¬ old.isPrefixOf (c :: t) = true := fun hx => h (List.isPrefixOf_iff_prefix.1 hx)
  rw [replaceLoop, if_neg hp]

theorem replaceLoop_noOcc (old new : Str) : ∀ (t : Str), NoOcc old t →
    replaceLoop old new 0 t = t := by
  intro t
  induction t with
  | nil => intro _; rfl
  | cons c t ih =>
    intro h
    rw [replaceLoop_miss old new c t h.1, ih h.2]

theorem endianInclude_eq : endianInclude = '#' :: "include <endian.h>".toList := by decide

theorem endianShim_head : ∃ u, endianShim = '#' :: u := ⟨_, rfl⟩

/-- A text free of `#` that begins the result of the shim substitution begins
the text itself. -/
theorem prefix_of_replaced_shim : ∀ (w t : Str), (∀ x ∈ w, x ≠ '#') →
    w <+: replaceLoop endianInclude endianShim 0 t → w <+: t := by
  intro w
  induction w with
  | nil => intro t _ _; exact List.nil_prefix
  | cons a w ih =>
    intro t hw h
    have ha : a ≠ '#' := hw a (List.mem_cons_self _ _)
    cases t with
    | nil => simp [replaceLoop] at h
    | cons c t =>
      by_cases hocc : endianInclude <+: c :: t
      · rw [replaceLoop_hit _ _ _ _ (by decide) hocc] at h
        obtain ⟨u, hu⟩ := endianShim_head
        rw [hu, List.cons_append, List.cons_prefix_cons] at h
        exact absurd h.1 ha
      · rw [replaceLoop_miss _ _ _ _ hocc, List.cons_prefix_cons] at h
        rw [List.cons_prefix_cons]
        exact ⟨h.1, ih t (fun x hx => hw x (List.mem_cons_of_mem _ hx)) h.2⟩

theorem noOcc_shimSafe_append (Y : Str) (hY : NoOcc endianInclude Y) :
    ∀ (u : Str), shimSafe u = true → NoOcc endianInclude (u ++ Y) := by
  intro u
  induction u with
  | nil => intro _; exact hY
  | cons a u ih =>
    intro hs
    simp only [shimSafe, Bool.and_eq_true, Bool.or_eq_true, decide_eq_true_eq] at hs
    obtain ⟨hhead, htail⟩ := hs
    have key : ¬ endianInclude <+: a :: (u ++ Y) := by
      intro hp
      rw [endianInclude_eq, List.cons_prefix_cons] at hp
      rcases hhead with hne | ⟨hlen, h3⟩
      · exact hne hp.1.symm
      · apply h3
        obtain ⟨rest, hrest⟩ := hp.2
        have hu : u ++ Y = 'i' :: 'n' :: ("clude <endian.h>".toList ++ rest) := by
          rw [← hrest]; rfl
        simp only [List.length_cons] at hlen
        match u, hlen, hu with
        | b :: c :: u2, _, hu =>
          simp only [List.cons_append, List.cons.injEq] at hu
          rw [← hp.1, hu.1, hu.2.1]
          rfl
    exact ⟨key, ih htail⟩

set_option maxRecDepth 100000 in
theorem shimSafe_endianShim : shimSafe endianShim = true := by decide

theorem noOcc_replaced_shim : ∀ (n : Nat) (s : Str), s.length ≤ n →
    NoOcc endianInclude (replaceLoop endianInclude endianShim 0 s) := by
  intro n
  induction n with
  | zero =>
    intro s hs
    have : s = [] := List.length_eq_zero.1 (Nat.le_zero.1 hs)
    subst this
    exact trivial
  | succ n ih =>
    intro s hs
    cases s with
    | nil => exact trivial
    | cons c t =>
      have ht : t.length ≤ n := by simpa using hs
      by_cases hocc : endianInclude <+: c :: t
      · rw [replaceLoop_hit _ _ _ _ (by decide) hocc]
        apply noOcc_shimSafe_append
        · apply ih
          simp only [List.length_drop, List.length_cons]
          have : endianInclude.length = 19 := by decide
          omega
        · exact shimSafe_endianShim
      · rw [replaceLoop_miss _ _ _ _ hocc]
        refine ⟨?_, ih t ht⟩
        intro hp
        apply hocc
        rw [endianInclude_eq, List.cons_prefix_cons] at hp ⊢
        exact ⟨hp.1, prefix_of_replaced_shim _ t (by decide) hp.2⟩

/-- The shim substitution applied twice is the shim substitution. -/
theorem shim_idempotent (s : Str) :
    ReplaceAll (ReplaceAll s endianInclude endianShim) endianInclude endianShim =
      ReplaceAll s endianInclude endianShim := by
  unfold ReplaceAll
  rw [if_neg (by decide)]
  exact replaceLoop_noOcc _ _ _ (noOcc_replaced_shim s.length s (Nat.le_refl _))

theorem ReplaceAll_self (old new : Str) (hne : old ≠ []) : ReplaceAll old old new = new := by
  unfold ReplaceAll
  rw [if_neg hne]
  cases old with
  | nil => exact absurd rfl hne
  | cons c t =>
    rw [replaceLoop_hit _ _ _ _ hne (List.prefix_refl _)]
    simp [replaceLoop]

theorem not_prefix_append_of_clash {p u : Str} (Y : Str)
    (h1 : ¬ p <+: u) (h2 : ¬ u <+: p) : ¬ p <+: u ++ Y := by
  intro hp
  rcases Nat.le_total p.length u.length with hle | hle
  · exact h1 (List.prefix_of_prefix_length_le hp (List.prefix_append u Y) hle)
  · exact h2 (List.prefix_of_prefix_length_le (List.prefix_append u Y) hp hle)

theorem noOcc_clashTails_append (p Y : Str) (hY : NoOcc p Y) :
    ∀ (u : Str), clashTails p u = true → NoOcc p (u ++ Y) := by
  intro u
  induction u with
  | nil => intro _; exact hY
  | cons a u ih =>
    intro hs
    simp only [clashTails, Bool.and_eq_true, Bool.not_eq_true', ← Bool.not_eq_true,
      List.isPrefixOf_iff_prefix] at hs
    have key : ¬ p <+: a :: (u ++ Y) := not_prefix_append_of_clash Y hs.1.1 hs.1.2
    exact ⟨key, ih hs.2⟩

theorem noOcc_drop (p : Str) : ∀ (s : Str) (k : Nat), NoOcc p s → NoOcc p (s.drop k) := by
  intro s
  induction s with
  | nil => intro k _; simp only [List.drop_nil]; exact trivial
  | cons c t ih =>
    intro k h
    cases k with
    | zero => exact h
    | succ j => exact ih j h.2

/-- The shim substitution brings no occurrence of a pattern `h :: w` whose
tail `w` is free of `#` and that clashes with every suffix of the shim. -/
theorem noOcc_shim_of_noOcc (h : Char) (w : Str) (hw : ∀ x ∈ w, x ≠ '#')
    (hcl : clashTails (h :: w) endianShim = true) :
    ∀ (n : Nat) (s : Str), s.length ≤ n → NoOcc (h :: w) s →
      NoOcc (h :: w) (replaceLoop endianInclude endianShim 0 s) := by
  intro n
  induction n with
  | zero =>
    intro s hs _
    have : s = [] := List.length_eq_zero.1 (Nat.le_zero.1 hs)
    subst this
    exact trivial
  | succ n ih =>
    intro s hs hno
    cases s with
    | nil => exact trivial
    | cons c t =>
      have ht : t.length ≤ n := by simpa using hs
      by_cases hocc : endianInclude <+: c :: t
      · rw [replaceLoop_hit _ _ _ _ (by decide) hocc]
        apply noOcc_clashTails_append _ _ _ _ hcl
        apply ih
        · simp only [List.length_drop, List.length_cons]
          have : endianInclude.length = 19 := by decide
          omega
        · exact noOcc_drop _ _ _ hno
      · rw [replaceLoop_miss _ _ _ _ hocc]
        refine ⟨?_, ih t ht hno.2⟩
        intro hp
        apply hno.1
        rw [List.cons_prefix_cons] at hp ⊢
        exact ⟨hp.1, prefix_of_replaced_shim _ t hw hp.2⟩

theorem ReplaceAll_noOcc (s old new : Str) (hne : old ≠ []) (h : NoOcc old s) :
    ReplaceAll s old new = s := by
  unfold ReplaceAll
  rw [if_neg hne]
  exact replaceLoop_noOcc _ _ _ h

theorem ReplaceAll_shim_noOcc (h : Char) (w : Str) (hw : ∀ x ∈ w, x ≠ '#')
    (hcl : clashTails (h :: w) endianShim = true) (s : Str) (hno : NoOcc (h :: w) s) :
    NoOcc (h :: w) (ReplaceAll s endianInclude endianShim) := by
  unfold ReplaceAll
  rw [if_neg (by decide)]
  exact noOcc_shim_of_noOcc h w hw hcl s.length s (Nat.le_refl _) hno

set_option maxRecDepth 100000 in
theorem clash_saturate : clashTails saturateDecl endianShim = true := by decide

set_option maxRecDepth 100000 in
theorem clash_fixedtables : clashTails fixedtablesDecl endianShim = true := by decide

set_option maxRecDepth 100000 in
theorem clash_pullbyte : clashTails pullbyteDef endianShim = true := by decide

set_option maxRecDepth 100000 in
theorem clash_dropbits : clashTails dropbitsDef endianShim = true := by decide

theorem nameKeyed_noOcc (fn b : Str) (h1 : fn ≠ "infback.c".toList)
    (h2 : fn = "deflate.c".toList → NoOcc saturateDecl b)
    (h3 : fn = "inflate.c".toList →
      NoOcc fixedtablesDecl b ∧ NoOcc pullbyteDef b ∧ NoOcc dropbitsDef b) :
    nameKeyed fn b = b := by
  unfold nameKeyed
  simp only [if_neg h1]
  by_cases hd : fn = "deflate.c".toList
  · have hi : fn ≠ "inflate.c".toList := by rw [hd]; decide
    simp only [if_pos hd, if_neg hi]
    exact ReplaceAll_noOcc _ _ _ (by decide) (h2 hd)
  · simp only [if_neg hd]
    by_cases hi : fn = "inflate.c".toList
    · obtain ⟨a1, a2, a3⟩ := h3 hi
      simp only [if_pos hi]
      have e1 : ReplaceAll b "static void fixedtables".toList
          "__attribute__((unused)) static void fixedtables_".toList = b :=
        ReplaceAll_noOcc _ _ _ (by decide) a1
      have e2 : ReplaceAll b "#define PULLBYTE".toList
          "#undef PULLBYTE\n#define PULLBYTE".toList = b :=
        ReplaceAll_noOcc _ _ _ (by decide) a2
      have e3 : ReplaceAll b "#define DROPBITS".toList
          "#undef DROPBITS\n#define DROPBITS".toList = b :=
        ReplaceAll_noOcc _ _ _ (by decide) a3
      rw [e1, e2, e3]
    · simp only [if_neg hi]

theorem noOcc_shim_saturate (s : Str) (h : NoOcc saturateDecl s) :
    NoOcc saturateDecl (ReplaceAll s endianInclude endianShim) :=
  ReplaceAll_shim_noOcc 's' "tatic unsigned long saturateAddBound".toList (by decide)
    clash_saturate s h

theorem noOcc_shim_fixedtables (s : Str) (h : NoOcc fixedtablesDecl s) :
    NoOcc fixedtablesDecl (ReplaceAll s endianInclude endianShim) :=
  ReplaceAll_shim_noOcc 's' "tatic void fixedtables".toList (by decide) clash_fixedtables s h

theorem noOcc_shim_pullbyte (s : Str) (h : NoOcc pullbyteDef s) :
    NoOcc pullbyteDef (ReplaceAll s endianInclude endianShim) :=
  ReplaceAll_shim_noOcc '#' "define PULLBYTE".toList (by decide) clash_pullbyte s h

theorem noOcc_shim_dropbits (s : Str) (h : NoOcc dropbitsDef s) :
    NoOcc dropbitsDef (ReplaceAll s endianInclude endianShim) :=
  ReplaceAll_shim_noOcc '#' "define DROPBITS".toList (by decide) clash_dropbits s h

/-! ## The preprocessing -/

theorem libzlibFile_guarded (table : Char → Char) (fn b : Str)
    (h : HasSuffix fn ".h".toList = true ∧ fn ≠ "inffixed.h".toList) :
    libzlibFile table fn b =
      ("#ifndef ".toList ++ guardName table fn ++ "\n#define ".toList ++ guardName table fn ++
        "\n".toList) ++ (b ++ "#endif".toList) := by
  unfold libzlibFile
  simp only
  rw [if_pos h]

theorem libzlibFile_unguarded (table : Char → Char) (fn b : Str)
    (h : ¬ (HasSuffix fn ".h".toList = true ∧ fn ≠ "inffixed.h".toList)) :
    libzlibFile table fn b = ReplaceAll (nameKeyed fn b) endianInclude endianShim := by
  unfold libzlibFile
  simp only
  rw [if_neg h]

theorem nameKeyed_other (fn b : Str) (h1 : fn ≠ "infback.c".toList)
    (h2 : fn ≠ "deflate.c".toList) (h3 : fn ≠ "inflate.c".toList) : nameKeyed fn b = b := by
  unfold nameKeyed
  simp only [if_neg h1, if_neg h2, if_neg h3]

theorem ToUpper_ascii (table : Char → Char) (s : Str) (h : ∀ c ∈ s, c.toNat ≤ 0x7F) :
    ToUpper table s = ToUpper id s := by
  unfold ToUpper
  apply List.map_congr_left
  intro c hc
  unfold upperRune
  rw [if_pos (h c hc), if_pos (h c hc)]

theorem guardName_ascii (table : Char → Char) (fn : Str) (h : ∀ c ∈ fn, c.toNat ≤ 0x7F) :
    guardName table fn = guardName id fn := by
  unfold guardName
  rw [ToUpper_ascii]
  intro c hc
  apply h
  unfold TrimSuffix at hc
  split at hc
  · exact List.mem_of_mem_take hc
  · exact hc

theorem HasSuffix_append (stem suffix : Str) : HasSuffix (stem ++ suffix) suffix = true := by
  unfold HasSuffix
  exact List.isSuffixOf_iff_suffix.2 (List.suffix_append _ _)

theorem TrimSuffix_append (stem suffix : Str) : TrimSuffix (stem ++ suffix) suffix = stem := by
  unfold TrimSuffix
  rw [if_pos (HasSuffix_append stem suffix)]
  simp

/-- C8. The header `x.h` holds `#include <endian.h>`: the guard is built on
the content as it came in, so the file handed to `resolve` still holds the
directive and not the shim, which the source file `x.c` does receive. -/
theorem endian_shim_lost_in_header (table : Char → Char) :
    libzlibFile table "x.h".toList "#include <endian.h>".toList =
      "#ifndef ZLIBGEN_X_H\n#define ZLIBGEN_X_H\n#include <endian.h>#endif".toList ∧
    endianInclude <:+: libzlibFile table "x.h".toList "#include <endian.h>".toList ∧
    libzlibFile table "x.c".toList "#include <endian.h>".toList = endianShim := by
  have e : libzlibFile table "x.h".toList "#include <endian.h>".toList =
      "#ifndef ZLIBGEN_X_H\n#define ZLIBGEN_X_H\n#include <endian.h>#endif".toList := by
    rw [libzlibFile_guarded table _ _ (by decide), guardName_ascii table _ (by decide)]
    decide
  refine ⟨e, ?_, ?_⟩
  · rw [e]; decide
  · rw [libzlibFile_unguarded table _ _ (by decide),
      nameKeyed_other _ _ (by decide) (by decide) (by decide)]
    exact ReplaceAll_self endianInclude endianShim (by decide)

/-- C9, counterexample. For the header `d/x.h`, whose base name is `x.h`, the
guard macro is `ZLIBGEN_D/X_H`, made from the whole path, and not
`ZLIBGEN_X_H`. -/
theorem guard_is_made_from_whole_path :
    baseName "d/x.h".toList = "x.h".toList ∧
    ¬ ∃ table : Char → Char,
      libzlibFile table "d/x.h".toList "int a;\n".toList =
        "#ifndef ZLIBGEN_X_H\n#define ZLIBGEN_X_H\nint a;\n#endif".toList := by
  refine ⟨by decide, ?_⟩
  rintro ⟨table, h⟩
  rw [libzlibFile_guarded table _ _ (by decide), guardName_ascii table _ (by decide)] at h
  revert h
  decide

/-- C9, amended. For a path `stem ++ ".h"` other than `inffixed.h` and a
content without `#include <endian.h>` (on which the shim step changes nothing)
the preprocessed content is `#ifndef G`, `#define G`, the content and
`#endif`, where `G` is `ZLIBGEN_`, the upper-cased `stem` (the whole path
without its final `.h`, directories included) and `_H`; for `inffixed.h` and
for a path that does not end in `.h` the result is the content after the
name-keyed substitutions and the shim substitution, without a guard. -/
theorem header_guard (table : Char → Char) (fn b : Str) :
    (∀ stem : Str, fn = stem ++ ".h".toList → fn ≠ "inffixed.h".toList →
      NoOcc endianInclude b →
      ReplaceAll (nameKeyed fn b) endianInclude endianShim = b ∧
      libzlibFile table fn b =
        "#ifndef ".toList ++ ("ZLIBGEN_".toList ++ ToUpper table stem ++ "_H".toList) ++
          "\n#define ".toList ++ ("ZLIBGEN_".toList ++ ToUpper table stem ++ "_H".toList) ++
          "\n".toList ++ b ++ "#endif".toList) ∧
    (HasSuffix fn ".h".toList = false ∨ fn = "inffixed.h".toList →
      libzlibFile table fn b = ReplaceAll (nameKeyed fn b) endianInclude endianShim) := by
  constructor
  · intro stem hfn hne hocc
    subst hfn
    have hh := HasSuffix_append stem ".h".toList
    constructor
    · have hk : nameKeyed (stem ++ ".h".toList) b = b := by
        apply nameKeyed_other
        · intro hx; rw [hx] at hh; revert hh; decide
        · intro hx; rw [hx] at hh; revert hh; decide
        · intro hx; rw [hx] at hh; revert hh; decide
      rw [hk]
      unfold ReplaceAll
      rw [if_neg (by decide)]
      exact replaceLoop_noOcc _ _ _ hocc
    · rw [libzlibFile_guarded table _ _ ⟨hh, hne⟩]
      unfold guardName
      rw [TrimSuffix_append]
      simp [List.append_assoc]
  · intro h
    apply libzlibFile_unguarded
    rintro ⟨h1, h2⟩
    rcases h with h | h
    · rw [h] at h1; exact absurd h1 (by simp)
    · exact h2 h

/-- C9, witness: the header `sub/zutil.h` and the exempt `inffixed.h`. -/
theorem header_guard_witness :
    libzlibFile id "sub/zutil.h".toList "int a;\n".toList =
      "#ifndef ".toList ++ ("ZLIBGEN_".toList ++ ToUpper id "sub/zutil".toList ++ "_H".toList) ++
        "\n#define ".toList ++ ("ZLIBGEN_".toList ++ ToUpper id "sub/zutil".toList ++
        "_H".toList) ++ "\n".toList ++ "int a;\n".toList ++ "#endif".toList ∧
    libzlibFile id "inffixed.h".toList "int a;\n".toList =
      ReplaceAll (nameKeyed "inffixed.h".toList "int a;\n".toList) endianInclude endianShim :=
  ⟨((header_guard id "sub/zutil.h".toList "int a;\n".toList).1 "sub/zutil".toList
      (by decide) (by decide) (by decide)).2,
   (header_guard id "inffixed.h".toList "int a;\n".toList).2 (Or.inr rfl)⟩

/-- C10, counterexample. Preprocessing the empty `infback.c` twice puts the
`#undef COPY` line twice, preprocessing the empty header `zlib.h` twice wraps
it in two guards, and preprocessing twice a `deflate.c` or an `inflate.c`
that declares the renamed function renames it twice. -/
theorem preprocessing_not_idempotent :
    (¬ ∃ table : Char → Char,
      libzlibFile table "infback.c".toList (libzlibFile table "infback.c".toList []) =
        libzlibFile table "infback.c".toList []) ∧
    (¬ ∃ table : Char → Char,
      libzlibFile table "zlib.h".toList (libzlibFile table "zlib.h".toList []) =
        libzlibFile table "zlib.h".toList []) ∧
    (¬ ∃ table : Char → Char,
      libzlibFile table "deflate.c".toList (libzlibFile table "deflate.c".toList
          "static unsigned long saturateAddBound".toList) =
        libzlibFile table "deflate.c".toList "static unsigned long saturateAddBound".toList) ∧
    (¬ ∃ table : Char → Char,
      libzlibFile table "inflate.c".toList (libzlibFile table "inflate.c".toList
          "static void fixedtables".toList) =
        libzlibFile table "inflate.c".toList "static void fixedtables".toList) := by
  refine ⟨?_, ?_, ?_, ?_⟩
  · rintro ⟨table, h⟩
    rw [libzlibFile_unguarded table _ _ (by decide), libzlibFile_unguarded table _ _ (by decide)]
      at h
    revert h
    decide
  · rintro ⟨table, h⟩
    rw [libzlibFile_guarded table _ _ (by decide), libzlibFile_guarded table _ _ (by decide)] at h
    have hl := congrArg List.length h
    simp [List.length_append] at hl
  · rintro ⟨table, h⟩
    rw [libzlibFile_unguarded table _ _ (by decide), libzlibFile_unguarded table _ _ (by decide)]
      at h
    revert h
    decide
  · rintro ⟨table, h⟩
    rw [libzlibFile_unguarded table _ _ (by decide), libzlibFile_unguarded table _ _ (by decide)]
      at h
    revert h
    decide

/-- C10, amended. For a path other than `infback.c` that gets no header guard
(it does not end in `.h`, or it is `inffixed.h`) and a content in which the
texts rewritten for that path do not occur (the declaration of
`saturateAddBound` for `deflate.c`; the declaration of `fixedtables` and the
definitions of `PULLBYTE` and `DROPBITS` for `inflate.c`), the only transform
that applies is the shim substitution, and preprocessing the preprocessed
content gives it back unchanged. -/
theorem preprocessing_idempotent (table : Char → Char) (fn b : Str)
    (h1 : fn ≠ "infback.c".toList)
    (h2 : fn = "deflate.c".toList → NoOcc saturateDecl b)
    (h3 : fn = "inflate.c".toList →
      NoOcc fixedtablesDecl b ∧ NoOcc pullbyteDef b ∧ NoOcc dropbitsDef b)
    (h4 : HasSuffix fn ".h".toList = false ∨ fn = "inffixed.h".toList) :
    libzlibFile table fn (libzlibFile table fn b) = libzlibFile table fn b := by
  have hg : ¬ (HasSuffix fn ".h".toList = true ∧ fn ≠ "inffixed.h".toList) := by
    rintro ⟨h5, h6⟩
    rcases h4 with h | h
    · rw [h] at h5; exact absurd h5 (by simp)
    · exact h6 h
  rw [libzlibFile_unguarded table fn b hg, libzlibFile_unguarded table fn _ hg,
    nameKeyed_noOcc fn b h1 h2 h3,
    nameKeyed_noOcc fn _ h1 (fun hd => noOcc_shim_saturate b (h2 hd))
      (fun hi => ⟨noOcc_shim_fixedtables b (h3 hi).1, noOcc_shim_pullbyte b (h3 hi).2.1,
        noOcc_shim_dropbits b (h3 hi).2.2⟩)]
  exact shim_idempotent b

/-- C10, witness: an `inflate.c` with the endian directive and none of the
rewritten texts. -/
theorem preprocessing_idempotent_witness :
    libzlibFile id "inflate.c".toList
        (libzlibFile id "inflate.c".toList "#include <endian.h>\nint x;".toList) =
      libzlibFile id "inflate.c".toList "#include <endian.h>\nint x;".toList :=
  preprocessing_idempotent id "inflate.c".toList "#include <endian.h>\nint x;".toList
    (by decide) (fun h => absurd h (by decide)) (fun _ => ⟨by decide, by decide, by decide⟩)
    (Or.inl (by decide))

/-! ## The bytes of a name under `path.Match` -/

theorem char_toNat_valid (c : Char) :
    c.toNat < 55296 ∨ (57343 < c.toNat ∧ c.toNat < 1114112) := by
  have h := c.valid
  simp only [UInt32.isValidChar, Nat.isValidChar] at h
  exact h

/-- The decoder reads back the encoding of a rune, whatever follows it. -/
theorem DecodeRuneInString_encodeRune (c : Char) (t : Bytes) :
    DecodeRuneInString (encodeRune c ++ t) = (c.toNat, (encodeRune c).length) := by
  have hv := char_toNat_valid c
  unfold encodeRune
  generalize c.toNat = n at hv
  by_cases h1 : n < 128
  · simp only [if_pos h1, List.singleton_append, DecodeRuneInString, List.length_singleton]
  · by_cases h2 : n < 2048
    · simp only [if_neg h1, if_pos h2, List.cons_append, List.nil_append, DecodeRuneInString,
        List.length_cons, List.length_nil]
      have a1 : ¬ (192 + n / 64 < 128) := by omega
      have a2 : ¬ (192 + n / 64 < 194 ∨ 244 < 192 + n / 64) := by omega
      have a3 : 192 + n / 64 < 224 := by omega
      have a4 : ¬ (192 + n / 64 = 224) := by omega
      have a5 : ¬ (192 + n / 64 = 240) := by omega
      have a6 : ¬ (192 + n / 64 = 237) := by omega
      have a7 : ¬ (192 + n / 64 = 244) := by omega
      have a8 : ¬ (128 + n % 64 < 128 ∨ 191 < 128 + n % 64) := by omega
      simp only [if_neg a1, if_neg a2, if_pos a3, if_neg a4, if_neg a5, if_neg a6, if_neg a7,
        if_neg a8, Prod.mk.injEq, and_true]
      omega
    · by_cases h3 : n < 65536
      · simp only [if_neg h1, if_neg h2, if_pos h3, List.cons_append, List.nil_append,
          DecodeRuneInString, List.length_cons, List.length_nil]
        have a1 : ¬ (224 + n / 4096 < 128) := by omega
        have a2 : ¬ (224 + n / 4096 < 194 ∨ 244 < 224 + n / 4096) := by omega
        have a3 : ¬ (224 + n / 4096 < 224) := by omega
        have a4 : 224 + n / 4096 < 240 := by omega
        have a5 : ¬ (224 + n / 4096 = 240) := by omega
        have a7 : ¬ (224 + n / 4096 = 244) := by omega
        have a8 : ¬ (128 + n % 64 < 128 ∨ 191 < 128 + n % 64) := by omega
        have a9 : (224 + n / 4096) % 16 * 4096 + (128 + n / 64 % 64) % 64 * 64 +
            (128 + n % 64) % 64 = n := by omega
        simp only [if_neg a1, if_neg a2, if_neg a3, if_pos a4, if_neg a5, if_neg a7, if_neg a8,
          a9]
        by_cases b1 : 224 + n / 4096 = 224
        · have b2 : ¬ (224 + n / 4096 = 237) := by omega
          have b3 : ¬ (128 + n / 64 % 64 < 160 ∨ 191 < 128 + n / 64 % 64) := by omega
          simp only [if_pos b1, if_neg b2, if_neg b3]
        · by_cases b2 : 224 + n / 4096 = 237
          · have b3 : ¬ (128 + n / 64 % 64 < 128 ∨ 159 < 128 + n / 64 % 64) := by omega
            simp only [if_neg b1, if_pos b2, if_neg b3]
          · have b3 : ¬ (128 + n / 64 % 64 < 128 ∨ 191 < 128 + n / 64 % 64) := by omega
            simp only [if_neg b1, if_neg b2, if_neg b3]
      · simp only [if_neg h1, if_neg h2, if_neg h3, List.cons_append, List.nil_append,
          DecodeRuneInString, List.length_cons, List.length_nil]
        have a1 : ¬ (240 + n / 262144 < 128) := by omega
        have a2 : ¬ (240 + n / 262144 < 194 ∨ 244 < 240 + n / 262144) := by omega
        have a3 : ¬ (240 + n / 262144 < 224) := by omega
        have a4 : ¬ (240 + n / 262144 < 240) := by omega
        have a5 : ¬ (240 + n / 262144 = 224) := by omega
        have a7 : ¬ (240 + n / 262144 = 237) := by omega
        have a8 : ¬ (128 + n % 64 < 128 ∨ 191 < 128 + n % 64) := by omega
        have a10 : ¬ (128 + n / 64 % 64 < 128 ∨ 191 < 128 + n / 64 % 64) := by omega
        have a9 : (240 + n / 262144) % 8 * 262144 + (128 + n / 4096 % 64) % 64 * 4096 +
            (128 + n / 64 % 64) % 64 * 64 + (128 + n % 64) % 64 = n := by omega
        simp only [if_neg a1, if_neg a2, if_neg a3, if_neg a4, if_neg a5, if_neg a7, if_neg a8,
          if_neg a10, a9]
        by_cases b1 : 240 + n / 262144 = 240
        · have b2 : ¬ (240 + n / 262144 = 244) := by omega
          have b3 : ¬ (128 + n / 4096 % 64 < 144 ∨ 191 < 128 + n / 4096 % 64) := by omega
          simp only [if_pos b1, if_neg b2, if_neg b3]
        · by_cases b2 : 240 + n / 262144 = 244
          · have b3 : ¬ (128 + n / 4096 % 64 < 128 ∨ 143 < 128 + n / 4096 % 64) := by omega
            simp only [if_neg b1, if_pos b2, if_neg b3]
          · have b3 : ¬ (128 + n / 4096 % 64 < 128 ∨ 191 < 128 + n / 4096 % 64) := by omega
            simp only [if_neg b1, if_neg b2, if_neg b3]

/-- After a star the chunk is tried at every byte of the name, also inside the
encoding of a rune: the two `?` of the visited pattern `*??` take the second
and the third byte of `€`, so a directive for `€` is replaced with nothing. -/
theorem Match_star_inside_rune :
    toBytes "€".toList = [226, 130, 172] ∧
    Match "*??".toList "€".toList = true ∧
    Match "*?".toList "€".toList = true ∧
    Match "?".toList "€".toList = true ∧
    Match "??".toList "€".toList = false ∧
    decideInclude [("*??".toList, "#include <€>".toList)] ["*??".toList] "€".toList
      [".".toList] = .suppress ∧
    resolve 1 [("*??".toList, "#include <€>".toList)] ["*??".toList] [] = some (nl2, none) := by
  refine ⟨by decide, by decide, by decide, by decide, by decide, by decide, by decide⟩

/-! ## Patterns without metacharacters -/

theorem isMeta_false {c : Char} (h : isMeta c = false) :
    c ≠ '*' ∧ c ≠ '?' ∧ c ≠ '[' ∧ c ≠ bslash := by
  simp only [isMeta, Bool.or_eq_false_iff, decide_eq_false_iff_not] at h
  exact ⟨h.1.1.1, h.1.1.2, h.1.2, h.2⟩

theorem char_of_toNat {c : Char} {n : Nat} (h : c.toNat = n) : c = Char.ofNat n := by
  rw [← h, Char.ofNat_toNat]

/-- The encoding of a character other than `*`, `?`, `[` and the backslash
holds none of their bytes. -/
theorem encodeRune_plain {c : Char} (h : isMeta c = false) :
    ∀ b ∈ encodeRune c, b ≠ 42 ∧ b ≠ 63 ∧ b ≠ 91 ∧ b ≠ 92 := by
  obtain ⟨h1, h2, h3, h4⟩ := isMeta_false h
  have e1 : c.toNat ≠ 42 := fun hx => h1 (char_of_toNat hx)
  have e2 : c.toNat ≠ 63 := fun hx => h2 (char_of_toNat hx)
  have e3 : c.toNat ≠ 91 := fun hx => h3 (char_of_toNat hx)
  have e4 : c.toNat ≠ 92 := fun hx => h4 (char_of_toNat hx)
  intro b hb
  unfold encodeRune at hb
  split at hb
  · rw [List.mem_singleton] at hb
    subst hb
    exact ⟨e1, e2, e3, e4⟩
  · split at hb
    · simp only [List.mem_cons, List.mem_singleton, List.not_mem_nil, or_false] at hb
      rcases hb with hb | hb <;> omega
    · split at hb
      · simp only [List.mem_cons, List.mem_singleton, List.not_mem_nil, or_false] at hb
        rcases hb with hb | hb | hb <;> omega
      · simp only [List.mem_cons, List.mem_singleton, List.not_mem_nil, or_false] at hb
        rcases hb with hb | hb | hb | hb <;> omega

theorem toBytes_plain (p : Str) (h : ∀ c ∈ p, isMeta c = false) :
    ∀ b ∈ toBytes p, b ≠ 42 ∧ b ≠ 63 ∧ b ≠ 91 ∧ b ≠ 92 := by
  intro b hb
  unfold toBytes at hb
  rw [List.mem_flatten] at hb
  obtain ⟨l, hl, hbl⟩ := hb
  rw [List.mem_map] at hl
  obtain ⟨c, hc, rfl⟩ := hl
  exact encodeRune_plain (h c hc) b hbl

theorem scanChunkLoop_plain : ∀ (p : Bytes) (inrange : Bool),
    (∀ b ∈ p, b ≠ 42 ∧ b ≠ 63 ∧ b ≠ 91 ∧ b ≠ 92) →
    scanChunkLoop inrange p = (p, []) := by
  intro p
  induction p with
  | nil => intro _ _; rfl
  | cons c t ih =>
    intro inrange h
    obtain ⟨h1, _, h3, h4⟩ := h c (List.mem_cons_self _ _)
    have ht : ∀ x ∈ t, x ≠ 42 ∧ x ≠ 63 ∧ x ≠ 91 ∧ x ≠ 92 :=
      fun x hx => h x (List.mem_cons_of_mem _ hx)
    rw [scanChunkLoop.eq_def]
    by_cases hc : c = 93
    · simp only [if_neg h4, if_neg h3, if_pos hc, ih false ht]
    · have h5 : ¬ (c = 42 ∧ inrange = false) := fun hx => h1 hx.1
      simp only [if_neg h4, if_neg h3, if_neg hc, if_neg h5, ih inrange ht]

theorem scanChunk_plain (p : Bytes) (h : ∀ b ∈ p, b ≠ 42 ∧ b ≠ 63 ∧ b ≠ 91 ∧ b ≠ 92) :
    scanChunk p = (false, p, []) := by
  unfold scanChunk
  cases p with
  | nil => rfl
  | cons c t =>
    obtain ⟨h1, _⟩ := h c (List.mem_cons_self _ _)
    have hd : (c :: t).dropWhile (fun x => decide (x = 42)) = c :: t := by
      rw [List.dropWhile_cons, if_neg (by simpa using h1)]
    simp only [hd, scanChunkLoop_plain (c :: t) false h, List.head?_cons, Option.some.injEq, h1,
      decide_False]

theorem matchChunkLoop_plain : ∀ (chunk : Bytes) (fuel : Nat) (r : Bytes),
    (∀ b ∈ chunk, b ≠ 42 ∧ b ≠ 63 ∧ b ≠ 91 ∧ b ≠ 92) → chunk.length ≤ fuel →
    matchChunkLoop fuel false chunk (chunk ++ r) = .ok r := by
  intro chunk
  induction chunk with
  | nil => intro fuel r _ _; cases fuel <;> simp [matchChunkLoop]
  | cons c t ih =>
    intro fuel r h hf
    cases fuel with
    | zero => simp at hf
    | succ n =>
      obtain ⟨_, h2, h3, h4⟩ := h c (List.mem_cons_self _ _)
      have ht : ∀ x ∈ t, x ≠ 42 ∧ x ≠ 63 ∧ x ≠ 91 ∧ x ≠ 92 :=
        fun x hx => h x (List.mem_cons_of_mem _ hx)
      rw [List.cons_append, matchChunkLoop.eq_def]
      simp only [List.isEmpty_cons, Bool.or_false, if_neg h3, if_neg h2, if_neg h4,
        Bool.false_eq_true, if_false, List.head?_cons, ne_eq, not_true_eq_false, decide_False,
        List.tail_cons]
      exact ih n r ht (by simpa using hf)

/-- A pattern without metacharacters matches itself. -/
theorem Match_self_of_plain (p : Str) (h : ∀ c ∈ p, isMeta c = false) : Match p p = true := by
  unfold Match
  have hb := toBytes_plain p h
  generalize toBytes p = q at hb
  cases q with
  | nil => simp [matchLoop]
  | cons c t =>
    have hc : matchChunk (c :: t) (c :: t) = .ok [] := by
      have := matchChunkLoop_plain (c :: t) (c :: t).length [] hb (Nat.le_refl _)
      rw [List.append_nil] at this
      exact this
    simp only [List.length_cons, matchLoop, scanChunk_plain (c :: t) hb, hc]
    simp [matchLoop]

/-! ## The decision rule -/

/-- Prefixes under which the joined name neither matches a visited pattern nor
is a key are passed over. -/
theorem decideInclude_skip {files : Files} {done : List Str} {fn : Str} (rest : List Str) :
    ∀ (pre : List Str),
      (∀ q ∈ pre, (∀ d ∈ done, Match d (Join q fn) = false) ∧ lookup files (Join q fn) = none) →
      decideInclude files done fn (pre ++ rest) = decideInclude files done fn rest := by
  intro pre
  induction pre with
  | nil => intro _; rfl
  | cons q qs ih =>
    intro h
    obtain ⟨hm, hl⟩ := h q (List.mem_cons_self _ _)
    have hany : ¬ (done.any (fun dfn => Match dfn (Join q fn)) = true) := by
      simp only [List.any_eq_true, not_exists, not_and, Bool.not_eq_true]
      exact hm
    simp only [List.cons_append, decideInclude, if_neg hany, hl]
    exact ih (fun x hx => h x (List.mem_cons_of_mem _ hx))

theorem decideInclude_cons_suppress {files : Files} {done : List Str} {fn ip : Str}
    (rest : List Str) (h : ∃ d ∈ done, Match d (Join ip fn) = true) :
    decideInclude files done fn (ip :: rest) = .suppress := by
  have hany : done.any (fun dfn => Match dfn (Join ip fn)) = true := by
    obtain ⟨d, hd, hm⟩ := h
    exact List.any_eq_true.2 ⟨d, hd, hm⟩
  simp only [decideInclude, if_pos hany]

theorem decideInclude_cons_inline {files : Files} {done : List Str} {fn ip ibuf : Str}
    (rest : List Str) (hm : ∀ d ∈ done, Match d (Join ip fn) = false)
    (hl : lookup files (Join ip fn) = some ibuf) :
    decideInclude files done fn (ip :: rest) = .inline (Join ip fn) ibuf := by
  have hany : ¬ (done.any (fun dfn => Match dfn (Join ip fn)) = true) := by
    simp only [List.any_eq_true, not_exists, not_and, Bool.not_eq_true]
    exact hm
  simp only [decideInclude, if_neg hany, hl]

/-- C11. The outcome for a directive named `n` is fixed by the first prefix `p`
of the search path under which `path.Join(p, n)` matches a pattern of the
visited list or is a key of the file set: when it matches a visited pattern
the directive is replaced with nothing, whatever the later prefixes would
give; otherwise the file of that key is inlined, with the visited list
extended by the key and the search path by its directory; and when no prefix
qualifies the directive is kept as it is. -/
theorem decision_rule (files : Files) (V P : List Str) (n m : Str)
    (recur : Str → List Str → List Str → Outcome) (hm : IsDirectiveNamed m n) :
    (∀ (pre post : List Str) (p : Str), P = pre ++ p :: post →
      (∀ q ∈ pre, (∀ d ∈ V, Match d (Join q n) = false) ∧ lookup files (Join q n) = none) →
      ((∃ d ∈ V, Match d (Join p n) = true) →
        decideInclude files V n P = .suppress ∧
        replaceInclude recur files V P m = .ok []) ∧
      (∀ ibuf : Str, (∀ d ∈ V, Match d (Join p n) = false) →
        lookup files (Join p n) = some ibuf →
        decideInclude files V n P = .inline (Join p n) ibuf ∧
        replaceInclude recur files V P m =
          match recur ibuf (V ++ [Join p n]) (P ++ [Dir (Join p n)]) with
          | .diverge => .diverge
          | .fail err => .fail (.resolve (Join p n) err)
          | .ok out => .ok (nl2 ++ out ++ nl2))) ∧
    ((∀ q ∈ P, (∀ d ∈ V, Match d (Join q n) = false) ∧ lookup files (Join q n) = none) →
      decideInclude files V n P = .preserve ∧ replaceInclude recur files V P m = .ok m) := by
  have hf := findSubmatch_directive hm
  constructor
  · intro pre post p hP hpre
    subst hP
    constructor
    · intro hmatch
      have hd : decideInclude files V n (pre ++ p :: post) = .suppress := by
        rw [decideInclude_skip _ pre hpre]
        exact decideInclude_cons_suppress post hmatch
      exact ⟨hd, replaceInclude_suppress hf hd⟩
    · intro ibuf hno hl
      have hd : decideInclude files V n (pre ++ p :: post) = .inline (Join p n) ibuf := by
        rw [decideInclude_skip _ pre hpre]
        exact decideInclude_cons_inline post hno hl
      exact ⟨hd, replaceInclude_inline hf hd⟩
  · intro hnone
    have hd : decideInclude files V n P = .preserve :=
      decideInclude_preserve (fun ip hip => ⟨(hnone ip hip).2, (hnone ip hip).1⟩)
    exact ⟨hd, replaceInclude_preserve hf hd⟩

/-- C11, witness: while `sub/b.h` is scanned under the search path `.`, `sub`,
its directive for `a.h` is suppressed by the visited `a.h` under the first
prefix, although `sub/a.h` exists and is not visited; and a directive for `€`
is suppressed by the visited pattern `*??`, whose two `?` take the last two
bytes of the name. -/
theorem decision_rule_witness :
    (lookup shadowFiles (Join "sub".toList "a.h".toList) = some "int shadowed;".toList ∧
      decideInclude shadowFiles ["a.h".toList, "sub/b.h".toList] "a.h".toList
        ([] ++ ".".toList :: ["sub".toList]) = .suppress ∧
      replaceInclude (resolveFn 0 shadowFiles) shadowFiles ["a.h".toList, "sub/b.h".toList]
        ([] ++ ".".toList :: ["sub".toList]) "#include \"a.h\"".toList = .ok []) ∧
    (decideInclude [("*??".toList, "#include <€>".toList)] ["*??".toList] "€".toList
        ([] ++ ".".toList :: []) = .suppress ∧
      replaceInclude (resolveFn 0 [("*??".toList, "#include <€>".toList)])
        [("*??".toList, "#include <€>".toList)] ["*??".toList] ([] ++ ".".toList :: [])
        "#include <€>".toList = .ok []) :=
  ⟨⟨by decide,
    ((decision_rule shadowFiles ["a.h".toList, "sub/b.h".toList]
      ([] ++ ".".toList :: ["sub".toList]) "a.h".toList "#include \"a.h\"".toList
      (resolveFn 0 shadowFiles)
      ⟨[], [], [' '], '"', '"', by decide, by decide, by decide, by decide, by decide,
        by decide, by decide, by decide, by decide⟩).1 [] ["sub".toList] ".".toList rfl
      (by decide)).1 (by decide)⟩,
   ((decision_rule [("*??".toList, "#include <€>".toList)] ["*??".toList]
      ([] ++ ".".toList :: []) "€".toList "#include <€>".toList
      (resolveFn 0 [("*??".toList, "#include <€>".toList)])
      ⟨[], [], [' '], '<', '>', by decide, by decide, by decide, by decide, by decide,
        by decide, by decide, by decide, by decide⟩).1 [] [] ".".toList rfl
      (by decide)).1 (by decide)⟩

/-! ## Inline framing -/

/-- C14. A directive of a buffer that is decided as inline from the key `k` is
replaced, between the outputs for what precedes and for what follows it, by
two newlines, the result of resolving `files[k]` with the visited list
extended by `k` and the search path extended by `path.Dir(k)`, and two
newlines. -/
theorem inline_framing (fuel : Nat) (files : Files) (buf : Str) (done includePath : List Str)
    (out : Str) (pre post : List Seg) (m name k ibuf : Str)
    (h : resolveFn (fuel + 1) files buf done includePath = .ok out)
    (hseg : segments 0 true buf = pre ++ Seg.hit m :: post)
    (hname : IsDirectiveNamed m name)
    (hd : decideInclude files done name includePath = .inline k ibuf) :
    lookup files k = some ibuf ∧
    ∃ x o1 o2 : Str,
      resolveFn fuel files ibuf (done ++ [k]) (includePath ++ [Dir k]) = .ok x ∧
      replaceInclude (resolveFn fuel files) files done includePath m =
        .ok ('\n' :: '\n' :: (x ++ ['\n', '\n'])) ∧
      replaceSegs (replaceInclude (resolveFn fuel files) files done includePath) pre = .ok o1 ∧
      replaceSegs (replaceInclude (resolveFn fuel files) files done includePath) post = .ok o2 ∧
      out = o1 ++ ('\n' :: '\n' :: (x ++ ['\n', '\n'])) ++ o2 := by
  refine ⟨(decideInclude_inline hd).1, ?_⟩
  rw [resolveFn] at h
  unfold ReplaceAllFunc at h
  rw [hseg] at h
  obtain ⟨o1, b, o2, h1, h2, h3, h4⟩ := replaceSegs_hit_ok h
  have hb := h2
  rw [replaceInclude_inline (findSubmatch_directive hname) hd] at h2
  cases hx : resolveFn fuel files ibuf (done ++ [k]) (includePath ++ [Dir k]) with
  | diverge => rw [hx] at h2; simp at h2
  | fail e => rw [hx] at h2; simp at h2
  | ok x =>
    rw [hx] at h2
    injection h2 with h2
    have hb2 : b = '\n' :: '\n' :: (x ++ ['\n', '\n']) := by rw [← h2]; rfl
    refine ⟨x, o1, o2, rfl, ?_, h1, h3, ?_⟩
    · rw [hb, hb2]
    · rw [h4, hb2]

/-- C14, witness: the directive for `b.h` in the scenario's `a.c`. -/
theorem inline_framing_witness :
    ∃ x o1 o2 : Str,
      resolveFn 2 scenarioFiles "#include \"c.h\"\nTYPE y;".toList
        (["a.c".toList] ++ ["b.h".toList]) ([".".toList] ++ [Dir "b.h".toList]) = .ok x ∧
      replaceInclude (resolveFn 2 scenarioFiles) scenarioFiles ["a.c".toList] [".".toList]
        "#include \"b.h\"".toList = .ok ('\n' :: '\n' :: (x ++ ['\n', '\n'])) ∧
      replaceSegs (replaceInclude (resolveFn 2 scenarioFiles) scenarioFiles ["a.c".toList]
        [".".toList]) [] = .ok o1 ∧
      replaceSegs (replaceInclude (resolveFn 2 scenarioFiles) scenarioFiles ["a.c".toList]
        [".".toList]) ("\nINT x;".toList.map Seg.text) = .ok o2 ∧
      "\n\n\n\nVALUE z;\n\n\nTYPE y;\n\n\nINT x;".toList =
        o1 ++ ('\n' :: '\n' :: (x ++ ['\n', '\n'])) ++ o2 :=
  (inline_framing 2 scenarioFiles "#include \"b.h\"\nINT x;".toList ["a.c".toList]
    [".".toList] "\n\n\n\nVALUE z;\n\n\nTYPE y;\n\n\nINT x;".toList []
    ("\nINT x;".toList.map Seg.text) "#include \"b.h\"".toList "b.h".toList "b.h".toList
    "#include \"c.h\"\nTYPE y;".toList (by decide) (by decide)
    ⟨[], [], [' '], '"', '"', by decide, by decide, by decide, by decide, by decide,
      by decide, by decide, by decide, by decide⟩
    (by decide)).2

/-! ## The errors of `resolve` -/

theorem resolveLoop_error (fuel : Nat) (files : Files) (includePath : List Str) :
    ∀ (filenames : List Str) (acc r : Str) (e : Err),
      resolveLoop fuel files includePath acc filenames = some (r, some e) →
      r = [] ∧ ∃ p ∈ filenames, lookup files p = none ∧ e = .notFound p := by
  intro filenames
  induction filenames with
  | nil => intro acc r e h; simp [resolveLoop] at h
  | cons fn rest ih =>
    intro acc r e h
    simp only [resolveLoop] at h
    cases hl : lookup files fn with
    | none =>
      rw [hl] at h
      simp only [Option.some.injEq, Prod.mk.injEq] at h
      exact ⟨h.1.symm, fn, List.mem_cons_self _ _, hl, h.2.symm⟩
    | some buf =>
      rw [hl] at h
      simp only at h
      cases hr : resolveFn fuel files buf [fn] (includePath ++ [Dir fn]) with
      | diverge => rw [hr] at h; simp at h
      | fail err => exact absurd hr (resolveFn_not_fail _ _ _ _ _ _)
      | ok o =>
        rw [hr] at h
        obtain ⟨h1, p, hp, hlp, he⟩ := ih _ _ _ h
        exact ⟨h1, p, List.mem_cons_of_mem _ hp, hlp, he⟩

theorem forall₂_of_mem_left {α β : Type} {R : α → β → Prop} {l1 : List α} {l2 : List β}
    (h : List.Forall₂ R l1 l2) {a : α} (ha : a ∈ l1) : ∃ b, R a b := by
  induction h with
  | nil => simp at ha
  | cons hr _ ih =>
    rcases List.mem_cons.1 ha with h1 | h1
    · exact ⟨_, h1 ▸ hr⟩
    · exact ih h1

theorem resolveLoop_no_error (fuel : Nat) (files : Files) (includePath : List Str) :
    ∀ (filenames : List Str) (acc r : Str),
      resolveLoop fuel files includePath acc filenames = some (r, none) →
      ∀ p ∈ filenames, lookup files p ≠ none := by
  intro filenames acc r h p hp
  obtain ⟨outs, hf, _⟩ := (resolveLoop_ok_iff fuel files includePath filenames acc r).1 h
  obtain ⟨o, buf, hl, _⟩ := forall₂_of_mem_left hf hp
  rw [hl]; simp

/-- C16. When `resolve` returns, it returns an error exactly when some entry
path is not a key of the file set, and the error is then the "not found" error
of such an entry, with nil content; the closure `resolveFn` returns no error
for any buffer, so the callback never raises the wrapped `resolve` error for a
directive and `resolve` never wraps an error of `resolveFn`. -/
theorem only_failure_is_missing_entry (fuel : Nat) (files : Files)
    (filenames includePath : List Str) (r : Str) (e : Option Err)
    (h : resolve fuel files filenames includePath = some (r, e)) :
    (e ≠ none ↔ ∃ p ∈ filenames, lookup files p = none) ∧
    (∀ err, e = some err → r = [] ∧ ∃ p ∈ filenames, lookup files p = none ∧
      err = .notFound p) ∧
    (∀ (d : Nat) (buf : Str) (done ip : List Str) (err : Err),
      resolveFn d files buf done ip ≠ .fail err) ∧
    (∀ (d : Nat) (done ip : List Str) (m : Str) (err : Err), IsDirective m →
      replaceInclude (resolveFn d files) files done ip m ≠ .fail err) := by
  refine ⟨?_, ?_, ?_, ?_⟩
  · cases e with
    | none =>
      constructor
      · intro hx; exact absurd rfl hx
      · rintro ⟨p, hp, hl⟩
        exact absurd hl (resolveLoop_no_error fuel files includePath filenames [] r h p hp)
    | some err =>
      constructor
      · intro _
        obtain ⟨_, p, hp, hl, _⟩ := resolveLoop_error fuel files includePath filenames [] r err h
        exact ⟨p, hp, hl⟩
      · intro _; simp
  · intro err he
    subst he
    exact resolveLoop_error fuel files includePath filenames [] r err h
  · intro d buf done ip err
    exact resolveFn_not_fail d files buf done ip err
  · rintro d done ip m err ⟨name, hname⟩
    have hf := findSubmatch_directive hname
    cases hd : decideInclude files done name ip with
    | suppress => rw [replaceInclude_suppress hf hd]; simp
    | preserve => rw [replaceInclude_preserve hf hd]; simp
    | inline ifn ibuf =>
      rw [replaceInclude_inline hf hd]
      cases hr : resolveFn d files ibuf (done ++ [ifn]) (ip ++ [Dir ifn]) with
      | diverge => simp
      | fail e3 => exact absurd hr (resolveFn_not_fail _ _ _ _ _ _)
      | ok o => simp

/-- C16, witness: the scenario's file set with the entries `a.c` and `zz.c`. -/
theorem only_failure_is_missing_entry_witness :
    (some (Err.notFound "zz.c".toList) ≠ none ↔
      ∃ p ∈ ["a.c".toList, "zz.c".toList], lookup scenarioFiles p = none) :=
  (only_failure_is_missing_entry 3 scenarioFiles ["a.c".toList, "zz.c".toList] [] []
    (some (.notFound "zz.c".toList)) (by decide)).1

/-! ## The events of a run -/

theorem replaceSegsT_fst (f : Str → Outcome × List Event) (segs : List Seg) :
    (replaceSegsT f segs).1 = replaceSegs (fun m => (f m).1) segs := by
  induction segs with
  | nil => rfl
  | cons s rest ih =>
    cases s with
    | text c =>
      simp only [replaceSegsT, replaceSegs, ih]
    | hit m =>
      simp only [replaceSegsT, replaceSegs]
      cases hb : (f m).1 with
      | diverge => rfl
      | fail e => rfl
      | ok block => simp only [ih]

theorem replaceIncludeT_fst (r : Str → List Str → List Str → Outcome × List Event)
    (files : Files) (done includePath : List Str) (m : Str) :
    (replaceIncludeT r files done includePath m).1 =
      replaceInclude (fun b d ip => (r b d ip).1) files done includePath m := by
  unfold replaceIncludeT replaceInclude
  cases findSubmatch m with
  | none => rfl
  | some fn =>
    simp only
    cases decideInclude files done fn includePath with
    | suppress => rfl
    | preserve => rfl
    | inline ifn ibuf => rfl

/-- The run with events comes to the outcome of `resolveFn`. -/
theorem resolveFnT_fst (fuel : Nat) (files : Files) :
    ∀ (buf : Str) (done includePath : List Str),
      (resolveFnT fuel files buf done includePath).1 =
        resolveFn fuel files buf done includePath := by
  induction fuel with
  | zero => intro buf done ip; rfl
  | succ n ih =>
    intro buf done ip
    simp only [resolveFnT, resolveFn, ReplaceAllFunc, replaceSegsT_fst]
    congr 1
    funext m
    rw [replaceIncludeT_fst]
    congr 1
    funext b d i
    exact ih b d i

/-- The loop with events comes to the result of `resolveLoop`. -/
theorem resolveLoopT_fst (fuel : Nat) (files : Files) (includePath : List Str) :
    ∀ (filenames : List Str) (acc : Str),
      (resolveLoopT fuel files includePath acc filenames).1 =
        resolveLoop fuel files includePath acc filenames := by
  intro filenames
  induction filenames with
  | nil => intro acc; rfl
  | cons fn rest ih =>
    intro acc
    simp only [resolveLoopT, resolveLoop]
    cases lookup files fn with
    | none => rfl
    | some buf =>
      simp only
      rw [← resolveFnT_fst]
      cases (resolveFnT fuel files buf [fn] (includePath ++ [Dir fn])).1 with
      | diverge => rfl
      | fail e => rfl
      | ok out => simp only [ih]

/-- Every event of the scan of a buffer is an event of the callback for one of
its matches. -/
theorem replaceSegsT_events (f : Str → Outcome × List Event) :
    ∀ (segs : List Seg) (ev : Event), ev ∈ (replaceSegsT f segs).2 →
      ∃ m, Seg.hit m ∈ segs ∧ ev ∈ (f m).2 := by
  intro segs
  induction segs with
  | nil => intro ev h; simp [replaceSegsT] at h
  | cons s rest ih =>
    intro ev h
    cases s with
    | text c =>
      simp only [replaceSegsT] at h
      obtain ⟨m, hm, he⟩ := ih ev h
      exact ⟨m, List.mem_cons_of_mem _ hm, he⟩
    | hit m =>
      simp only [replaceSegsT] at h
      cases hb : (f m).1 with
      | diverge => rw [hb] at h; exact ⟨m, List.mem_cons_self _ _, h⟩
      | fail e => rw [hb] at h; exact ⟨m, List.mem_cons_self _ _, h⟩
      | ok block =>
        rw [hb] at h
        simp only [List.mem_append] at h
        rcases h with h | h
        · exact ⟨m, List.mem_cons_self _ _, h⟩
        · obtain ⟨m2, hm, he⟩ := ih ev h
          exact ⟨m2, List.mem_cons_of_mem _ hm, he⟩

theorem replaceIncludeT_events (r : Str → List Str → List Str → Outcome × List Event)
    (files : Files) (done includePath : List Str) (m : Str) (ev : Event)
    (h : ev ∈ (replaceIncludeT r files done includePath m).2) :
    ev = .directive m done includePath ∨
    ∃ fn ifn ibuf, findSubmatch m = some fn ∧
      decideInclude files done fn includePath = .inline ifn ibuf ∧
      ev ∈ (r ibuf (done ++ [ifn]) (includePath ++ [Dir ifn])).2 := by
  unfold replaceIncludeT at h
  cases hf : findSubmatch m with
  | none => rw [hf] at h; simp only [List.mem_singleton] at h; exact Or.inl h
  | some fn =>
    rw [hf] at h
    simp only at h
    cases hd : decideInclude files done fn includePath with
    | suppress => rw [hd] at h; simp only [List.mem_singleton] at h; exact Or.inl h
    | preserve => rw [hd] at h; simp only [List.mem_singleton] at h; exact Or.inl h
    | inline ifn ibuf =>
      rw [hd] at h
      simp only [List.mem_cons] at h
      rcases h with h | h
      · exact Or.inl h
      · exact Or.inr ⟨fn, ifn, ibuf, rfl, hd, h⟩

/-- A property of the first call that every nested inlining hands on holds of
every call of the run, and every directive is seen by the callback with the
visited list and the search path of the call that scans it. -/
theorem resolveFnT_invariant (files : Files) (P : Str → List Str → List Str → Prop)
    (hstep : ∀ (buf : Str) (done ip : List Str) (m fn ifn ibuf : Str), P buf done ip →
      Seg.hit m ∈ segments 0 true buf → findSubmatch m = some fn →
      decideInclude files done fn ip = .inline ifn ibuf →
      P ibuf (done ++ [ifn]) (ip ++ [Dir ifn])) :
    ∀ (fuel : Nat) (buf : Str) (done ip : List Str), P buf done ip →
      ∀ ev ∈ (resolveFnT fuel files buf done ip).2, EventHolds P ev := by
  intro fuel
  induction fuel with
  | zero =>
    intro buf done ip hP ev hev
    simp only [resolveFnT, List.mem_singleton] at hev
    rw [hev]; exact hP
  | succ n ih =>
    intro buf done ip hP ev hev
    simp only [resolveFnT, List.mem_cons] at hev
    rcases hev with hev | hev
    · rw [hev]; exact hP
    · obtain ⟨m, hm, hin⟩ := replaceSegsT_events _ _ ev hev
      rcases replaceIncludeT_events _ files done ip m ev hin with hd | ⟨fn, ifn, ibuf, hf, hd, hr⟩
      · rw [hd]; exact ⟨buf, hP, hm⟩
      · exact ih ibuf _ _ (hstep buf done ip m fn ifn ibuf hP hm hf hd) ev hr

/-- Every event of a run of `resolve` is an event of the call for one of the
entries, made with the visited list `[e]` and the directory of `e` appended to
the search path. -/
theorem resolveLoopT_events (fuel : Nat) (files : Files) (includePath : List Str) :
    ∀ (filenames : List Str) (acc : Str) (ev : Event),
      ev ∈ (resolveLoopT fuel files includePath acc filenames).2 →
      ∃ e buf0, e ∈ filenames ∧ lookup files e = some buf0 ∧
        ev ∈ (resolveFnT fuel files buf0 [e] (includePath ++ [Dir e])).2 := by
  intro filenames
  induction filenames with
  | nil => intro acc ev h; simp [resolveLoopT] at h
  | cons fn rest ih =>
    intro acc ev h
    simp only [resolveLoopT] at h
    cases hl : lookup files fn with
    | none => rw [hl] at h; simp at h
    | some buf =>
      rw [hl] at h
      simp only at h
      cases hr : (resolveFnT fuel files buf [fn] (includePath ++ [Dir fn])).1 with
      | diverge => rw [hr] at h; exact ⟨fn, buf, List.mem_cons_self _ _, hl, h⟩
      | fail e => rw [hr] at h; exact ⟨fn, buf, List.mem_cons_self _ _, hl, h⟩
      | ok out =>
        rw [hr] at h
        simp only [List.mem_append] at h
        rcases h with h | h
        · exact ⟨fn, buf, List.mem_cons_self _ _, hl, h⟩
        · obtain ⟨e, b0, he, hle, hev⟩ := ih _ ev h
          exact ⟨e, b0, List.mem_cons_of_mem _ he, hle, hev⟩

theorem nested_done {files : Files} {buf0 : Str} {done0 ip0 path : List Str} {buf : Str}
    {done ip : List Str} (h : Nested files buf0 done0 ip0 path buf done ip) :
    done = done0 ++ path ∧ ip = ip0 ++ path.map Dir := by
  induction h with
  | root => simp
  | inline _ _ _ _ ih => simp [ih.1, ih.2]

theorem nested_buf {files : Files} {buf0 : Str} {done0 ip0 path : List Str} {buf : Str}
    {done ip : List Str} (h : Nested files buf0 done0 ip0 path buf done ip) (e : Str)
    (he : lookup files e = some buf0) : lookup files (path.getLastD e) = some buf := by
  cases h with
  | root => exact he
  | inline _ _ _ hd => simp [(decideInclude_inline hd).1]

/-- Every event of a run of `resolve` belongs to a call that is reached from
the call for an entry by nested inlining. -/
theorem resolveTrace_nested (fuel : Nat) (files : Files) (filenames includePath : List Str)
    (ev : Event) (h : ev ∈ resolveTrace fuel files filenames includePath) :
    ∃ (e buf0 : Str) (path : List Str) (buf : Str) (done ip : List Str),
      e ∈ filenames ∧ lookup files e = some buf0 ∧
      Nested files buf0 [e] (includePath ++ [Dir e]) path buf done ip ∧
      (ev = .call buf done ip ∨
        ∃ m, Seg.hit m ∈ segments 0 true buf ∧ ev = .directive m done ip) := by
  obtain ⟨e, buf0, he, hl, hev⟩ := resolveLoopT_events fuel files includePath filenames [] ev h
  have hinv := resolveFnT_invariant files
    (fun b d i => ∃ path, Nested files buf0 [e] (includePath ++ [Dir e]) path b d i)
    (fun b d i m fn ifn ibuf hP hm hf hd => by
      obtain ⟨path, hn⟩ := hP
      exact ⟨path ++ [ifn], Nested.inline hn hm hf hd⟩)
    fuel buf0 [e] (includePath ++ [Dir e]) ⟨[], Nested.root⟩ ev hev
  cases ev with
  | call b d i =>
    obtain ⟨path, hn⟩ := hinv
    exact ⟨e, buf0, path, b, d, i, he, hl, hn, Or.inl rfl⟩
  | directive m d i =>
    obtain ⟨b, ⟨path, hn⟩, hm⟩ := hinv
    exact ⟨e, buf0, path, b, d, i, he, hl, hn, Or.inr ⟨m, hm, rfl⟩⟩

/-! ## The visited list and the search path along a run -/

/-- C12. The recorded run comes to the result of `resolve`, and every call of
`resolveFn` in it, and every directive handed to the callback, has as its
visited list the entry file followed by the keys inlined one inside the other
down to the file being scanned, which is the last of the list; nothing else is
on it, so the inlining of a file by an earlier directive of the same file, or
in an earlier sibling branch, leaves no trace on the list. -/
theorem visited_is_ancestor_chain (fuel : Nat) (files : Files) (filenames : List Str)
    (ev : Event) (h : ev ∈ resolveTrace fuel files filenames []) :
    (resolveLoopT fuel files [] [] filenames).1 = resolve fuel files filenames [] ∧
    ∃ (e buf0 : Str) (path : List Str) (buf : Str) (done ip : List Str),
      e ∈ filenames ∧ lookup files e = some buf0 ∧
      Nested files buf0 [e] [Dir e] path buf done ip ∧
      done = e :: path ∧ lookup files (done.getLastD e) = some buf ∧
      (ev = .call buf done ip ∨
        ∃ m, Seg.hit m ∈ segments 0 true buf ∧ ev = .directive m done ip) := by
  refine ⟨resolveLoopT_fst fuel files [] filenames [], ?_⟩
  obtain ⟨e, buf0, path, buf, done, ip, he, hl, hn, hev⟩ :=
    resolveTrace_nested fuel files filenames [] ev h
  have hd : done = e :: path := by simpa using (nested_done hn).1
  refine ⟨e, buf0, path, buf, done, ip, he, hl, hn, hd, ?_, hev⟩
  have hb := nested_buf hn e hl
  rw [hd]
  cases path with
  | nil => simpa using hb
  | cons k ks => simpa [List.getLastD] using hb

/-- C12, witness: in `dupViaFiles` the directive for `c.h`, which follows the
inlining of `b.h` in `a.c`, is processed with the visited list `a.c` alone. -/
theorem visited_is_ancestor_chain_witness :
    Event.directive "#include \"c.h\"".toList ["a.c".toList] [".".toList] ∈
      resolveTrace 3 dupViaFiles ["a.c".toList] [] ∧
    (resolveLoopT 3 dupViaFiles [] [] ["a.c".toList]).1 =
      resolve 3 dupViaFiles ["a.c".toList] [] ∧
    ∃ (e buf0 : Str) (path : List Str) (buf : Str) (done ip : List Str),
      e ∈ ["a.c".toList] ∧ lookup dupViaFiles e = some buf0 ∧
      Nested dupViaFiles buf0 [e] [Dir e] path buf done ip ∧
      done = e :: path ∧ lookup dupViaFiles (done.getLastD e) = some buf ∧
      (Event.directive "#include \"c.h\"".toList ["a.c".toList] [".".toList] =
          .call buf done ip ∨
        ∃ m, Seg.hit m ∈ segments 0 true buf ∧
          Event.directive "#include \"c.h\"".toList ["a.c".toList] [".".toList] =
            .directive m done ip) :=
  ⟨by decide,
   visited_is_ancestor_chain 3 dupViaFiles ["a.c".toList]
     (Event.directive "#include \"c.h\"".toList ["a.c".toList] [".".toList]) (by decide)⟩

/-- C13. Every call of a run of `resolve`, and every directive handed to the
callback, has as its search path the initial one followed by the directory of
the entry file and the directories of the keys inlined one inside the other
down to the file being scanned: the directory of a file is on the path only
while that file's own content is resolved, and each directive of a file is
resolved against the path of the call that scans the file.  In the example
`a.c` includes `sub/b.h` and then `c.h`; only `sub/c.h` exists, and the second
directive is kept as it is. -/
theorem search_path_scoping (fuel : Nat) (files : Files) (filenames includePath : List Str)
    (ev : Event) (h : ev ∈ resolveTrace fuel files filenames includePath) :
    (∃ (e buf0 : Str) (path : List Str) (buf : Str) (done ip : List Str),
      e ∈ filenames ∧ lookup files e = some buf0 ∧
      Nested files buf0 [e] (includePath ++ [Dir e]) path buf done ip ∧
      done = e :: path ∧ ip = includePath ++ Dir e :: path.map Dir ∧
      (ev = .call buf done ip ∨
        ∃ m, Seg.hit m ∈ segments 0 true buf ∧ ev = .directive m done ip)) ∧
    (lookup scopeFiles "c.h".toList = none ∧
      lookup scopeFiles "sub/c.h".toList = some "C".toList ∧
      resolve 2 scopeFiles ["a.c".toList] [] =
        some ("\n\nB\n\n\n#include \"c.h\"\n\n".toList, none)) := by
  constructor
  · obtain ⟨e, buf0, path, buf, done, ip, he, hl, hn, hev⟩ :=
      resolveTrace_nested fuel files filenames includePath ev h
    obtain ⟨hd, hi⟩ := nested_done hn
    refine ⟨e, buf0, path, buf, done, ip, he, hl, hn, by simpa using hd, ?_, hev⟩
    rw [hi]; simp
  · refine ⟨by decide, by decide, by decide⟩

/-- C13, witness: in `scopeFiles` the directive for `c.h` is processed with
the search path `.` alone, after `sub/b.h` was resolved with `.`, `sub`. -/
theorem search_path_scoping_witness :
    Event.directive "#include \"c.h\"".toList ["a.c".toList] [".".toList] ∈
      resolveTrace 2 scopeFiles ["a.c".toList] [] ∧
    Event.call "B".toList ["a.c".toList, "sub/b.h".toList] [".".toList, "sub".toList] ∈
      resolveTrace 2 scopeFiles ["a.c".toList] [] ∧
    ∃ (e buf0 : Str) (path : List Str) (buf : Str) (done ip : List Str),
      e ∈ ["a.c".toList] ∧ lookup scopeFiles e = some buf0 ∧
      Nested scopeFiles buf0 [e] ([] ++ [Dir e]) path buf done ip ∧
      done = e :: path ∧ ip = [] ++ Dir e :: path.map Dir ∧
      (Event.directive "#include \"c.h\"".toList ["a.c".toList] [".".toList] =
          .call buf done ip ∨
        ∃ m, Seg.hit m ∈ segments 0 true buf ∧
          Event.directive "#include \"c.h\"".toList ["a.c".toList] [".".toList] =
            .directive m done ip) :=
  ⟨by decide, by decide,
   (search_path_scoping 2 scopeFiles ["a.c".toList] []
     (Event.directive "#include \"c.h\"".toList ["a.c".toList] [".".toList]) (by decide)).1⟩

/-! ## Bounded recursion -/

/-- C17. When no key of the file set holds a glob metacharacter, the visited
list of every call of `resolveFn` in a run of `resolve` consists of pairwise
distinct keys of the file set, so it is no longer than the number of files,
and `resolve` returns for every entry list once the recursion depth reaches
the number of files, whatever the inclusions between the files. -/
theorem bounded_recursion (files : Files)
    (hplain : ∀ k ∈ keys files, ∀ c ∈ k, isMeta c = false) :
    (∀ (fuel : Nat) (filenames includePath : List Str) (buf : Str) (done ip : List Str),
      Event.call buf done ip ∈ resolveTrace fuel files filenames includePath →
      done.Nodup ∧ (∀ k ∈ done, k ∈ keys files) ∧ done.length ≤ files.length) ∧
    (∀ (fuel : Nat) (filenames includePath : List Str), files.length ≤ fuel →
      ∃ r, resolve fuel files filenames includePath = some r) := by
  have H : ∀ k ∈ keys files, Match k k = true :=
    fun k hk => Match_self_of_plain k (hplain k hk)
  constructor
  · intro fuel filenames includePath buf done ip hev
    obtain ⟨e, buf0, he, hl, hin⟩ :=
      resolveLoopT_events fuel files includePath filenames [] _ hev
    have hinv := resolveFnT_invariant files
      (fun _ d _ => d.Nodup ∧ ∀ k ∈ d, k ∈ keys files)
      (fun b d i m fn ifn ibuf hP _ _ hd => by
        obtain ⟨hnd, hsub⟩ := hP
        obtain ⟨hlk, hno, _⟩ := decideInclude_inline hd
        have hkey : ifn ∈ keys files := lookup_mem_keys hlk
        have hnot : ifn ∉ d := by
          intro hx
          have h1 := hno ifn hx
          rw [H ifn hkey] at h1
          exact absurd h1 (by simp)
        constructor
        · rw [List.nodup_append]
          refine ⟨hnd, List.nodup_singleton _, ?_⟩
          intro a ha hb
          rw [List.mem_singleton] at hb
          exact hnot (hb ▸ ha)
        · intro k hk
          rcases List.mem_append.1 hk with h1 | h1
          · exact hsub k h1
          · rw [List.mem_singleton] at h1; rw [h1]; exact hkey)
      fuel buf0 [e] (includePath ++ [Dir e])
      ⟨List.nodup_singleton _, fun k hk => by
        rw [List.mem_singleton] at hk; rw [hk]; exact lookup_mem_keys hl⟩
      _ hin
    obtain ⟨hnd, hsub⟩ := hinv
    refine ⟨hnd, hsub, ?_⟩
    have := (hnd.subperm hsub).length_le
    simpa [keys] using this
  · intro fuel filenames includePath hfuel
    exact resolveLoop_terminates files H fuel hfuel includePath filenames []

/-- C17, witness: the two files `a.h` and `b.h` that include each other. -/
theorem bounded_recursion_witness :
    (∀ k ∈ keys cycleFiles, ∀ c ∈ k, isMeta c = false) ∧
    (["a.h".toList, "b.h".toList].Nodup ∧
      (∀ k ∈ ["a.h".toList, "b.h".toList], k ∈ keys cycleFiles) ∧
      ["a.h".toList, "b.h".toList].length ≤ cycleFiles.length) ∧
    ∃ r, resolve 2 cycleFiles ["a.h".toList] [] = some r :=
  ⟨by decide,
   (bounded_recursion cycleFiles (by decide)).1 2 ["a.h".toList] []
     "#include \"a.h\"".toList ["a.h".toList, "b.h".toList] [".".toList, ".".toList]
     (by decide),
   (bounded_recursion cycleFiles (by decide)).2 2 ["a.h".toList] [] (by decide)⟩

/-! ## Text after the closing delimiter -/

theorem split_at_sep {X Y t L : Str} {a : Char} (h : X ++ Y = t ++ a :: L) (hX : a ∉ X) :
    ∃ u, t = X ++ u ∧ Y = u ++ a :: L := by
  rcases List.append_eq_append_iff.1 h with ⟨a2, h1, h2⟩ | ⟨c2, h1, h2⟩
  · exact ⟨a2, h1, h2⟩
  · cases c2 with
    | nil => exact ⟨[], by simpa using h1.symm, by simpa using h2.symm⟩
    | cons x xs =>
      simp only [List.cons_append, List.cons.injEq] at h2
      exfalso
      apply hX
      rw [h1, h2.1]
      simp

theorem atLineEnd_append_false {x : Str} (y : Str) (hne : x ≠ [])
    (h : ∀ a ∈ x, a ≠ '\n') : atLineEnd (x ++ y) = false := by
  cases x with
  | nil => exact absurd rfl hne
  | cons a t =>
    have := h a (List.mem_cons_self _ _)
    simp [atLineEnd, this]

/-- The pattern does not match at a line `#include "name"` or
`#include <name>` that goes on after the closing delimiter, also when blanks
come before it. -/
theorem matchDirective_trailing (ws : Str) {name trail : Str} {o c : Char} (post : Str)
    (hws : ∀ x ∈ ws, reSpace x = true)
    (ho : reOpen o = true) (hc : reClose c = true)
    (hname : ∀ x ∈ name, reName x = true ∧ x ≠ '\n')
    (htrail : trail ≠ [] ∧ ∀ x ∈ trail, x ≠ '\n') :
    matchDirective (ws ++ (trailingLine o name c trail ++ post)) = none := by
  have e1 : ws ++ (trailingLine o name c trail ++ post) =
      ws ++ '#' :: ([] ++ 'i' :: ("nclude".toList ++
        ([' '] ++ o :: (name ++ c :: (trail ++ post))))) := by
    simp [trailingLine, List.append_assoc]
  rw [e1]
  unfold matchDirective
  simp only
  rw [dropWhile_stop _ hws (by decide : reSpace '#' = false)]
  simp only [ne_eq, not_true_eq_false, if_false]
  rw [dropWhile_stop _ (by simp : ∀ x ∈ ([] : Str), reSpace x = true)
    (by decide : reSpace 'i' = false)]
  have e2 : stripLit includeLit ('i' :: ("nclude".toList ++
      ([' '] ++ o :: (name ++ c :: (trail ++ post))))) =
      some ([' '] ++ o :: (name ++ c :: (trail ++ post))) := stripLit_append includeLit _
  rw [e2]
  simp only
  rw [takeWhile_stop _ (by decide : ∀ x ∈ [' '], reSpace x = true) (reOpen_not_space ho),
    dropWhile_stop _ (by decide : ∀ x ∈ [' '], reSpace x = true) (reOpen_not_space ho)]
  rw [if_neg (by simp)]
  simp only [ho, Bool.not_true, Bool.false_eq_true, if_false]
  rw [takeWhile_stop _ (fun x hx => (hname x hx).1) (reClose_not_name hc),
    dropWhile_stop _ (fun x hx => (hname x hx).1) (reClose_not_name hc)]
  by_cases hne : name = []
  · rw [if_pos hne]
  · rw [if_neg hne]
    simp only [atLineEnd_append_false post htrail.1 htrail.2, Bool.false_eq_true, if_false]

/-- A match that starts before such a line ends before the newline in front
of the line. -/
theorem matchDirective_before_trailing {q0 name trail : Str} {o c : Char} (post : Str)
    {n : Nat}
    (ho : reOpen o = true) (hc : reClose c = true)
    (hname : ∀ x ∈ name, reName x = true ∧ x ≠ '\n')
    (htrail : trail ≠ [] ∧ ∀ x ∈ trail, x ≠ '\n')
    (h : matchDirective (q0 ++ '\n' :: (trailingLine o name c trail ++ post)) = some n) :
    n ≤ q0.length := by
  obtain ⟨m, rest, nm, hs, hm, hend, hn⟩ := matchDirective_sound h
  obtain ⟨ws1, ws2, ws3, o2, c2, hmeq, h1, h2, h3, _, ho2, _, hnm, hc2⟩ := hm
  have hL : trailingLine o name c trail ++ post =
      '#' :: ("include ".toList ++ o :: (name ++ c :: (trail ++ post))) := by
    simp [trailingLine, List.append_assoc]
  have hnotsp : ∀ (l : Str), (∀ x ∈ l, reSpace x = true) → '#' ∉ l := by
    intro l hl hx
    have := hl _ hx
    revert this; decide
  -- the first split: the `#` of the line against the blanks before the `#` of the match
  have E0 : ws1 ++ ('#' :: ((ws2 ++ (includeLit ++ (ws3 ++ [o2]))) ++ (nm ++ c2 :: rest))) =
      (q0 ++ ['\n']) ++ '#' :: ("include ".toList ++ o :: (name ++ c :: (trail ++ post))) := by
    have := hs
    rw [hmeq, hL] at this
    simp only [List.append_assoc, List.cons_append, List.nil_append, List.singleton_append]
      at this ⊢
    exact this.symm
  obtain ⟨u, hP, hY⟩ := split_at_sep E0 (hnotsp ws1 h1)
  cases u with
  | nil =>
    -- the match begins at the blanks before the line itself
    exfalso
    have hq : q0 ++ ['\n'] = ws1 := by simpa using hP
    have hnone := matchDirective_trailing ws1 post h1 ho hc hname htrail
    have hsame : q0 ++ '\n' :: (trailingLine o name c trail ++ post) =
        ws1 ++ (trailingLine o name c trail ++ post) := by
      rw [← hq]; simp
    rw [hsame, hnone] at h
    exact absurd h (by simp)
  | cons x u2 =>
    simp only [List.cons_append, List.cons.injEq] at hY
    obtain ⟨hx, hY⟩ := hY
    have hRpre : '#' ∉ ws2 ++ (includeLit ++ (ws3 ++ [o2])) := by
      intro hin
      rcases List.mem_append.1 hin with hin | hin
      · exact hnotsp ws2 h2 hin
      · rcases List.mem_append.1 hin with hin | hin
        · revert hin; decide
        · rcases List.mem_append.1 hin with hin | hin
          · exact hnotsp ws3 h3 hin
          · rw [List.mem_singleton] at hin
            rw [← hin] at ho2
            revert ho2; decide
    obtain ⟨v, hu2, hV⟩ := split_at_sep hY hRpre
    rcases List.append_eq_append_iff.1 hV with ⟨a2, hv, ha2⟩ | ⟨w, hnmw, hw⟩
    · -- the match ends before the `#` of the line
      cases a2 with
      | nil =>
        exfalso
        simp only [List.nil_append, List.cons.injEq] at ha2
        rw [ha2.1] at hc2
        revert hc2; decide
      | cons y a3 =>
        simp only [List.cons_append, List.cons.injEq] at ha2
        have hPm : q0 ++ ['\n'] = m ++ a3 := by
          rw [hP, hu2, hv, hmeq, ← hx, ← ha2.1]
          simp [List.append_assoc]
        cases a3 with
        | nil =>
          exfalso
          have hm2 : m = (ws1 ++ '#' :: (ws2 ++ (includeLit ++ (ws3 ++ o2 :: nm)))) ++ [c2] := by
            rw [hmeq]; simp [List.append_assoc]
          rw [List.append_nil, hm2] at hPm
          have hlast := (List.append_inj' hPm rfl).2
          simp only [List.cons.injEq, and_true] at hlast
          rw [← hlast] at hc2
          revert hc2; decide
        | cons z a4 =>
          have hlen := congrArg List.length hPm
          simp only [List.length_append, List.length_cons, List.length_nil] at hlen
          omega
    · -- the name of the match runs into the line
      exfalso
      cases w with
      | nil =>
        simp only [List.nil_append, List.cons.injEq] at hw
        rw [← hw.1] at hc2
        revert hc2; decide
      | cons y w2 =>
        simp only [List.cons_append, List.cons.injEq] at hw
        obtain ⟨_, hw⟩ := hw
        have hw2 : ∀ x ∈ w2, reName x = true := by
          intro x hx
          apply hnm
          rw [hnmw]
          exact List.mem_append_right _ (List.mem_cons_of_mem _ hx)
        have hdrop := dropWhile_stop rest hw2 (reClose_not_name hc2)
        rw [← hw] at hdrop
        have hlit : ∀ x ∈ "include ".toList, reName x = true := by decide
        have hcn : c ≠ '\n' := by
          intro hx
          rw [hx] at hc
          revert hc; decide
        cases hro : reName o with
        | false =>
          -- the opening delimiter of the line closes the earlier match
          rw [dropWhile_stop _ hlit hro] at hdrop
          simp only [List.cons.injEq] at hdrop
          have e : name ++ c :: (trail ++ post) = (name ++ [c]) ++ (trail ++ post) := by
            simp [List.append_assoc]
          rw [← hdrop.2, e, atLineEnd_append_false _ (by simp) (fun a ha => by
            rcases List.mem_append.1 ha with ha | ha
            · exact (hname a ha).2
            · rw [List.mem_singleton] at ha
              rw [ha]; exact hcn)] at hend
          exact absurd hend (by simp)
        | true =>
          -- the name of the earlier match runs up to the closing delimiter of the line
          have e : "include ".toList ++ o :: (name ++ c :: (trail ++ post)) =
              ("include ".toList ++ o :: name) ++ c :: (trail ++ post) := by
            simp [List.append_assoc]
          rw [e, dropWhile_stop _ (by
            intro x hx
            rcases List.mem_append.1 hx with hx | hx
            · exact hlit x hx
            · rcases List.mem_cons.1 hx with hx | hx
              · rw [hx]; exact hro
              · exact (hname x hx).1) (reClose_not_name hc)] at hdrop
          simp only [List.cons.injEq] at hdrop
          rw [← hdrop.2, atLineEnd_append_false _ htrail.1 htrail.2] at hend
          exact absurd hend (by simp)

theorem segments_text_run (post : Str) : ∀ (x : Str), (∀ a ∈ x, a ≠ '\n') →
    segments 0 false (x ++ post) = x.map Seg.text ++ segments 0 false post := by
  intro x
  induction x with
  | nil => intro _; rfl
  | cons a t ih =>
    intro h
    have ha : a ≠ '\n' := h a (List.mem_cons_self _ _)
    rw [List.cons_append, segments_cons_zero_text (by simp)]
    simp only [ha, decide_False, List.map_cons, List.cons_append]
    rw [ih (fun b hb => h b (List.mem_cons_of_mem _ hb))]

theorem trailingLine_cons (o : Char) (name : Str) (c : Char) (trail : Str) :
    trailingLine o name c trail = '#' :: ("include ".toList ++ o :: (name ++ c :: trail)) := rfl

theorem trailingLine_no_newline {name trail : Str} {o c : Char}
    (hro : reOpen o = true) (hrc : reClose c = true)
    (hname : ∀ x ∈ name, reName x = true ∧ x ≠ '\n') (htrail : ∀ x ∈ trail, x ≠ '\n') :
    ∀ a ∈ "include ".toList ++ o :: (name ++ c :: trail), a ≠ '\n' := by
  have ho : o ≠ '\n' := by
    intro hx
    rw [hx] at hro
    revert hro; decide
  have hc : c ≠ '\n' := by
    intro hx
    rw [hx] at hrc
    revert hrc; decide
  have hlit : ∀ a ∈ "include ".toList, a ≠ '\n' := by decide
  intro a ha
  rcases List.mem_append.1 ha with ha | ha
  · exact hlit a ha
  · rcases List.mem_cons.1 ha with ha | ha
    · rw [ha]; exact ho
    · rcases List.mem_append.1 ha with ha | ha
      · exact (hname a ha).2
      · rcases List.mem_cons.1 ha with ha | ha
        · rw [ha]; exact hc
        · exact htrail a ha

/-- The scan of a buffer reaches a line with text after the closing delimiter
at its first character, outside every match, and copies the line. -/
theorem segments_trailing {name trail : Str} {o c : Char} (post : Str)
    (ho : reOpen o = true) (hc : reClose c = true)
    (hname : ∀ x ∈ name, reName x = true ∧ x ≠ '\n')
    (htrail : trail ≠ [] ∧ ∀ x ∈ trail, x ≠ '\n') :
    ∀ (pre : Str) (skip : Nat) (bol : Bool),
      (pre = [] → skip = 0 ∧ bol = true) → (pre ≠ [] → ∃ q, pre = q ++ ['\n']) →
      (0 < skip → skip < pre.length) →
      ∃ A : List Seg, segments skip bol (pre ++ (trailingLine o name c trail ++ post)) =
        A ++ ((trailingLine o name c trail).map Seg.text ++ segments 0 false post) := by
  intro pre
  induction pre with
  | nil =>
    intro skip bol h0 _ _
    obtain ⟨hs, hb⟩ := h0 rfl
    subst hs hb
    refine ⟨[], ?_⟩
    have hnone := matchDirective_trailing [] post (by simp) ho hc hname htrail
    rw [List.nil_append] at hnone ⊢
    rw [trailingLine_cons] at hnone ⊢
    rw [List.cons_append, segments_cons_zero_text (by simpa using hnone)]
    have hd : (decide ('#' = '\n')) = false := by decide
    rw [hd, segments_text_run post _ (trailingLine_no_newline ho hc hname htrail.2)]
    rfl
  | cons a t ih =>
    intro skip bol _ hends hskip
    obtain ⟨q, hq⟩ := hends (by simp)
    have htail : t ≠ [] → ∃ q2, t = q2 ++ ['\n'] := by
      intro hne
      cases q with
      | nil => simp at hq; exact absurd hq.2 hne
      | cons b q2 =>
        simp only [List.cons_append, List.cons.injEq] at hq
        exact ⟨q2, hq.2⟩
    cases skip with
    | succ k =>
      have hk : k + 1 < (a :: t).length := hskip (Nat.succ_pos k)
      have hlt : k < t.length := by simpa using hk
      have hne : t ≠ [] := by
        intro hx; rw [hx] at hlt; simp at hlt
      simp only [List.cons_append, segments]
      exact ih k false (fun hx => absurd hx hne) htail (fun _ => hlt)
    | zero =>
      cases hmd : (if bol then matchDirective (a :: t ++ (trailingLine o name c trail ++ post))
          else none) with
      | some n =>
        have hmd2 : matchDirective (a :: t ++ (trailingLine o name c trail ++ post)) =
            some n := by
          cases bol with
          | true => simpa using hmd
          | false => simp at hmd
        have hpos := (matchDirective_pos hmd2).1
        have hle : n ≤ q.length := by
          apply matchDirective_before_trailing post ho hc hname htrail
          rw [← hmd2, hq]
          simp
        have hlen : (a :: t).length = q.length + 1 := by rw [hq]; simp
        have hne : t ≠ [] := by
          intro hx
          rw [hx] at hlen
          simp only [List.length_cons, List.length_nil] at hlen
          omega
        rw [List.cons_append, segments_cons_zero_hit (by simpa using hmd)]
        obtain ⟨A, hA⟩ := ih (n - 1) false (fun hx => absurd hx hne) htail
          (fun _ => by simp only [List.length_cons] at hlen; omega)
        exact ⟨_ :: A, by rw [hA]; rfl⟩
      | none =>
        rw [List.cons_append, segments_cons_zero_text (by simpa using hmd)]
        obtain ⟨A, hA⟩ := ih 0 (decide (a = '\n'))
          (fun hx => by
            refine ⟨rfl, ?_⟩
            cases q with
            | nil => simp at hq; simp [hq.1]
            | cons b q2 =>
              simp only [List.cons_append, List.cons.injEq] at hq
              rw [hx] at hq
              simp at hq)
          htail (fun hx => absurd hx (by simp))
        exact ⟨_ :: A, by rw [hA]; rfl⟩

theorem replaceSegs_append_ok {f : Str → Outcome} {R : List Seg} :
    ∀ (A : List Seg) (out : Str), replaceSegs f (A ++ R) = .ok out →
      ∃ o1 o2, replaceSegs f A = .ok o1 ∧ replaceSegs f R = .ok o2 ∧ out = o1 ++ o2 := by
  intro A
  induction A with
  | nil => intro out h; exact ⟨[], out, rfl, h, rfl⟩
  | cons s rest ih =>
    intro out h
    cases s with
    | text c =>
      rw [List.cons_append, replaceSegs_text] at h
      cases hr : replaceSegs f (rest ++ R) with
      | diverge => rw [hr] at h; simp at h
      | fail e => rw [hr] at h; simp at h
      | ok o =>
        rw [hr] at h
        simp only [Outcome.ok.injEq] at h
        obtain ⟨o1, o2, h1, h2, h3⟩ := ih o hr
        refine ⟨c :: o1, o2, ?_, h2, ?_⟩
        · simp only [replaceSegs, h1]
        · rw [← h, h3]; rfl
    | hit m =>
      rw [List.cons_append, replaceSegs_hit] at h
      cases hb : f m with
      | diverge => rw [hb] at h; simp at h
      | fail e => rw [hb] at h; simp at h
      | ok b =>
        rw [hb] at h
        simp only at h
        cases hr : replaceSegs f (rest ++ R) with
        | diverge => rw [hr] at h; simp at h
        | fail e => rw [hr] at h; simp at h
        | ok o =>
          rw [hr] at h
          simp only [Outcome.ok.injEq] at h
          obtain ⟨o1, o2, h1, h2, h3⟩ := ih o hr
          refine ⟨b ++ o1, o2, ?_, h2, ?_⟩
          · simp only [replaceSegs, hb, h1]
          · rw [← h, h3]; simp

theorem replaceSegs_texts (f : Str → Outcome) (R : List Seg) : ∀ (x : Str),
    replaceSegs f (x.map Seg.text ++ R) =
      match replaceSegs f R with
      | .ok o => .ok (x ++ o)
      | other => other := by
  intro x
  induction x with
  | nil =>
    rw [List.map_nil, List.nil_append]
    cases hr : replaceSegs f R <;> rfl
  | cons a t ih =>
    rw [List.map_cons, List.cons_append, replaceSegs_text, ih]
    cases hr : replaceSegs f R <;> rfl

/-- On a line with text after the closing delimiter the pattern meets a first
delimiter of the class `["'>]` after the opening one, inside the name or at
its end, and this delimiter is not the last character of the line. -/
theorem first_closer {c : Char} {trail : Str} (hc : reClose c = true)
    (htrail : trail ≠ [] ∧ ∀ x ∈ trail, x ≠ '\n') :
    ∀ (name : Str), (∀ x ∈ name, x ≠ '\n') →
      ∃ (nm : Str) (c2 : Char) (tr : Str), name ++ c :: trail = nm ++ c2 :: tr ∧
        reClose c2 = true ∧ (∀ x ∈ nm, reName x = true ∧ x ≠ '\n') ∧
        tr ≠ [] ∧ ∀ x ∈ tr, x ≠ '\n' := by
  have hcn : c ≠ '\n' := by
    intro hx
    rw [hx] at hc
    revert hc; decide
  intro name
  induction name with
  | nil => intro _; exact ⟨[], c, trail, rfl, hc, by simp, htrail.1, htrail.2⟩
  | cons a t ih =>
    intro h
    have ha : a ≠ '\n' := h a (List.mem_cons_self _ _)
    have ht : ∀ x ∈ t, x ≠ '\n' := fun x hx => h x (List.mem_cons_of_mem _ hx)
    cases hra : reClose a with
    | true =>
      refine ⟨[], a, t ++ c :: trail, rfl, hra, by simp, by simp, ?_⟩
      intro x hx
      rcases List.mem_append.1 hx with hx | hx
      · exact ht x hx
      · rcases List.mem_cons.1 hx with hx | hx
        · rw [hx]; exact hcn
        · exact htrail.2 x hx
    | false =>
      obtain ⟨nm, c2, tr, he, h2, h3, h4, h5⟩ := ih ht
      refine ⟨a :: nm, c2, tr, by rw [List.cons_append, he]; rfl, h2, ?_, h4, h5⟩
      intro x hx
      rcases List.mem_cons.1 hx with hx | hx
      · rw [hx]; exact ⟨by simp [reName, hra], ha⟩
      · exact h3 x hx

/-- C15. A match of the include pattern ends with a closing delimiter that is
the last character of its line.  A line `#include "name"` or
`#include <name>` that goes on after the closing delimiter, whatever the
characters of the name and the characters that follow on the line, lies
outside every match: the scan copies it character by character, the matches
lie wholly before or wholly after it, and the output holds the line unchanged
between the outputs for the text before and the text after it, also when the
name is a key of the file set. -/
theorem directive_recognition (fuel : Nat) (files : Files) (done includePath : List Str)
    (pre post name trail : Str) (o c : Char)
    (hoc : (o = '"' ∧ c = '"') ∨ (o = '<' ∧ c = '>'))
    (hname : ∀ x ∈ name, x ≠ '\n')
    (htrail : trail ≠ [] ∧ ∀ x ∈ trail, x ≠ '\n')
    (hpre : pre = [] ∨ ∃ q, pre = q ++ ['\n']) :
    (∀ (buf : Str) (A B : List Seg) (m : Str), segments 0 true buf = A ++ Seg.hit m :: B →
      (∃ m0 cl, m = m0 ++ [cl] ∧ reClose cl = true) ∧
      atLineEnd (B.map Seg.src).flatten = true) ∧
    ∃ A : List Seg,
      segments 0 true (pre ++ (trailingLine o name c trail ++ post)) =
        A ++ ((trailingLine o name c trail).map Seg.text ++ segments 0 false post) ∧
      (A.map Seg.src).flatten = pre ∧
      ∀ out : Str,
        resolveFn (fuel + 1) files (pre ++ (trailingLine o name c trail ++ post)) done
          includePath = .ok out →
        ∃ o1 o2 : Str,
          replaceSegs (replaceInclude (resolveFn fuel files) files done includePath) A =
            .ok o1 ∧
          replaceSegs (replaceInclude (resolveFn fuel files) files done includePath)
            (segments 0 false post) = .ok o2 ∧
          out = o1 ++ trailingLine o name c trail ++ o2 := by
  constructor
  · intro buf A B m hseg
    constructor
    · have hm : Seg.hit m ∈ segments 0 true buf := by rw [hseg]; simp
      obtain ⟨nm, ws1, ws2, ws3, o2, c2, hmeq, _, _, _, _, _, _, _, hc2⟩ :=
        segments_hit _ _ _ _ hm
      exact ⟨ws1 ++ '#' :: (ws2 ++ (includeLit ++ (ws3 ++ o2 :: nm))), c2,
        by rw [hmeq]; simp [List.append_assoc], hc2⟩
    · exact segments_hit_before _ _ _ _ _ _ hseg
  · have ho : reOpen o = true := by rcases hoc with ⟨h, _⟩ | ⟨h, _⟩ <;> subst h <;> decide
    have hc : reClose c = true := by rcases hoc with ⟨_, h⟩ | ⟨_, h⟩ <;> subst h <;> decide
    obtain ⟨nm, c2, tr, he, hc2, hnm, htr1, htr2⟩ := first_closer hc htrail name hname
    have hline : trailingLine o name c trail = trailingLine o nm c2 tr := by
      unfold trailingLine
      rw [he]
    rw [hline]
    obtain ⟨A, hA⟩ := segments_trailing post ho hc2 hnm ⟨htr1, htr2⟩ pre 0 true
      (fun _ => ⟨rfl, rfl⟩)
      (fun hne => hpre.elim (fun h => absurd h hne) id)
      (fun h => absurd h (by simp))
    refine ⟨A, hA, ?_, ?_⟩
    · have hsrc := segments_src (pre ++ (trailingLine o nm c2 tr ++ post)) 0 true
      rw [hA] at hsrc
      simp only [List.map_append, List.flatten_append, List.drop_zero, segments_src,
        List.map_map] at hsrc
      have htext : ((trailingLine o nm c2 tr).map (Seg.src ∘ Seg.text)).flatten =
          trailingLine o nm c2 tr := by
        generalize trailingLine o nm c2 tr = l
        induction l with
        | nil => rfl
        | cons a t ih => simp [Seg.src, ih]
      rw [htext] at hsrc
      exact List.append_cancel_right hsrc
    · intro out h
      rw [resolveFn] at h
      unfold ReplaceAllFunc at h
      rw [hA] at h
      obtain ⟨o1, o2, h1, h2, h3⟩ := replaceSegs_append_ok A out h
      rw [replaceSegs_texts] at h2
      cases hr : replaceSegs (replaceInclude (resolveFn fuel files) files done includePath)
          (segments 0 false post) with
      | diverge => rw [hr] at h2; simp at h2
      | fail e => rw [hr] at h2; simp at h2
      | ok o3 =>
        rw [hr] at h2
        simp only [Outcome.ok.injEq] at h2
        exact ⟨o1, o3, h1, rfl, by rw [h3, ← h2]; simp [List.append_assoc]⟩

/-- C15, witness: in the scenario's file set a line that includes the key
`b.h` and goes on with a comment is copied unchanged, and the buffer that
holds it comes out as it went in. -/
theorem directive_recognition_witness :
    (lookup scenarioFiles "b.h".toList).isSome = true ∧
    resolveFn 1 scenarioFiles "int a;\n#include \"b.h\" // x\nint b;".toList
      ["a.c".toList] [".".toList] = .ok "int a;\n#include \"b.h\" // x\nint b;".toList ∧
    ∃ A : List Seg,
      segments 0 true ("int a;\n".toList ++
          (trailingLine '"' "b.h".toList '"' " // x".toList ++ "\nint b;".toList)) =
        A ++ ((trailingLine '"' "b.h".toList '"' " // x".toList).map Seg.text ++
          segments 0 false "\nint b;".toList) ∧
      (A.map Seg.src).flatten = "int a;\n".toList ∧
      ∀ out : Str,
        resolveFn (0 + 1) scenarioFiles ("int a;\n".toList ++
          (trailingLine '"' "b.h".toList '"' " // x".toList ++ "\nint b;".toList))
          ["a.c".toList] [".".toList] = .ok out →
        ∃ o1 o2 : Str,
          replaceSegs (replaceInclude (resolveFn 0 scenarioFiles) scenarioFiles
            ["a.c".toList] [".".toList]) A = .ok o1 ∧
          replaceSegs (replaceInclude (resolveFn 0 scenarioFiles) scenarioFiles
            ["a.c".toList] [".".toList]) (segments 0 false "\nint b;".toList) = .ok o2 ∧
          out = o1 ++ trailingLine '"' "b.h".toList '"' " // x".toList ++ o2 :=
  ⟨by decide, by decide,
   (directive_recognition 0 scenarioFiles ["a.c".toList] [".".toList] "int a;\n".toList
    "\nint b;".toList "b.h".toList " // x".toList '"' '"' (Or.inl ⟨rfl, rfl⟩)
    (by decide) ⟨by decide, by decide⟩ (Or.inr ⟨"int a;".toList, by decide⟩)).2⟩

end Czlib
